import Mathlib

/-!
# Summarize: the client-side data layer of `app.js` and `toast.js`

A shallow embedding of the security helpers (`security.*`), the notification
channel (`ToastManager`), the session layer (`auth.*`), the localisation look-up
(`AppManager.t`), the catalog (`fetchFiles`, `showFileDetails`) and the download
operation (`downloadFile`) of the Summarize front end, together with theorems
about them.

Conventions of the embedding.

* A JavaScript string is a `List Char`.  Every regular expression of the source
  is written without the `u` flag and tests only ASCII characters, white space
  and line terminators, all of which are single UTF-16 code units, so working on
  code points instead of code units does not change which positions match.
* Regular expressions are values of `Regex`, executed by the backtracking
  matcher `Regex.ends`, whose result lists the possible ends of a match in the
  priority order of the ECMAScript matcher (greedy before lazy alternatives).
* Mutable globals (`security.rateLimitMap`, `localStorage`, the toast
  container) are explicit state that the functions take and return.
* A persisted collection is a `Stored` item (absent, corrupt, or the JSON of a
  list); the item `currentUser`, of which the source reads both the raw text and
  the parsed value, is a text read by `JSON.parse`.
* An uncaught exception is an outcome of its own (`raised`), never a value.
* A number of a record is a natural number, read as the double nearest to it;
  arithmetic on it rounds as the addition of JavaScript numbers does
  (`roundToDouble`).
-/

namespace Summarize

/-! ## JavaScript values and strings -/

/-- The JavaScript values the string helpers are applied to: the strings and the
non-string values `undefined`, `null`, `true` and `false`. -/
inductive JsValue where
  | undefined : JsValue
  | null : JsValue
  | bool (b : Bool) : JsValue
  | str (s : List Char) : JsValue
  deriving DecidableEq

/-- Truthiness, as tested by `!str`: of the values above exactly `undefined`,
`null`, `false` and the empty string are falsy. -/
def JsValue.truthy : JsValue → Bool
  | .undefined => false
  | .null => false
  | .bool b => b
  | .str s => !s.isEmpty

/-- The conversion `String(v)`. -/
def JsValue.toJsString : JsValue → List Char
  | .undefined => "undefined".toList
  | .null => "null".toList
  | .bool true => "true".toList
  | .bool false => "false".toList
  | .str s => s

/-- The class `\s` of the source's expressions and the characters removed by
`String.prototype.trim`: ECMAScript WhiteSpace and LineTerminator. -/
def isWhiteSpace (c : Char) : Bool :=
  let n := c.toNat
  n == 0x09 || n == 0x0A || n == 0x0B || n == 0x0C || n == 0x0D || n == 0x20 ||
  n == 0xA0 || n == 0x1680 || (0x2000 ≤ n && n ≤ 0x200A) || n == 0x2028 ||
  n == 0x2029 || n == 0x202F || n == 0x205F || n == 0x3000 || n == 0xFEFF

/-- ECMAScript LineTerminator, the characters `.` does not match. -/
def isLineTerminator (c : Char) : Bool :=
  let n := c.toNat
  n == 0x0A || n == 0x0D || n == 0x2028 || n == 0x2029

/-- The class `\w`: `[A-Za-z0-9_]` (also under the `i` flag, without `u`). -/
def isWordChar (c : Char) : Bool :=
  c.isAlphanum || c == '_'

/-- The method `String.prototype.trim`. -/
def trim (s : List Char) : List Char :=
  ((s.dropWhile isWhiteSpace).reverse.dropWhile isWhiteSpace).reverse

/-! ## Regular expressions -/

/-- The regular expressions used by the source: the empty pattern, a single
character of a class, concatenation, and the quantifier `*` in its greedy
(`star true`) and lazy (`star false`, written `*?`) forms. -/
inductive Regex where
  | eps : Regex
  | set (p : Char → Bool) : Regex
  | seq (a b : Regex) : Regex
  | star (greedy : Bool) (a : Regex) : Regex

namespace Regex

/-- The quantifier `+`, greedy: `a+` is `aa*`. -/
def plus (a : Regex) : Regex := .seq a (.star true a)

/-- A pattern character under the `i` flag: the input character matches when it
has the same canonical (upper-case) form.  For an ASCII pattern character these
are its lower- and upper-case ASCII forms only. -/
def chrI (c : Char) : Regex := .set (fun x => x.toUpper == c.toUpper)

/-- A literal pattern text under the `i` flag. -/
def litI : List Char → Regex
  | [] => .eps
  | [c] => chrI c
  | c :: cs => .seq (chrI c) (litI cs)

/-- Concatenation of a list of patterns. -/
def cat : List Regex → Regex
  | [] => .eps
  | [r] => r
  | r :: rs => .seq r (cat rs)

/-- The atom `.`: any character but a line terminator. -/
def dot : Regex := .set (fun x => !isLineTerminator x)

/-- The negated class `[^c]`. -/
def notChr (c : Char) : Regex := .set (fun x => x != c)

/-- The language of a pattern: the texts it matches as a whole. -/
def Matches : Regex → List Char → Prop
  | .eps, m => m = []
  | .set p, m => ∃ c, p c = true ∧ m = [c]
  | .seq a b, m => ∃ u v, m = u ++ v ∧ a.Matches u ∧ b.Matches v
  | .star _ a, m => ∃ ms : List (List Char), m = ms.flatten ∧ ∀ x ∈ ms, a.Matches x

/-- A pattern occurs in a text when some contiguous part of the text is in its
language. -/
def Occurs (r : Regex) (s : List Char) : Prop :=
  ∃ pre m post, s = pre ++ m ++ post ∧ r.Matches m

/-- The quantifier loop of the matcher (ECMAScript RepeatMatcher with no upper
bound): from `s`, each iteration runs the body by `step` and is kept only when it
consumed input; the greedy form tries another iteration before stopping, the lazy
form stops first.  The natural number bounds the iterations. -/
def iter (step : List Char → List (List Char)) (greedy : Bool) :
    Nat → List Char → List (List Char)
  | 0, s => [s]
  | fuel + 1, s =>
    let more := ((step s).filter (fun t => decide (t.length < s.length))).flatMap
      (iter step greedy fuel)
    if greedy then more ++ [s] else s :: more

/-- The backtracking matcher: `r.ends s` lists, in the order the ECMAScript
matcher tries them, the remainders of `s` after each way `r` can match at the
start of `s`.  The first entry is the match the engine reports. -/
def ends : Regex → List Char → List (List Char)
  | .eps, s => [s]
  | .set _, [] => []
  | .set p, c :: t => if p c then [t] else []
  | .seq a b, s => (a.ends s).flatMap (fun t => b.ends t)
  | .star g a, s => iter (fun t => a.ends t) g s.length s

/-- The method `RegExp.prototype.test` for a pattern without the `g` flag: is
there a position of `s` at which the pattern matches. -/
def test (r : Regex) (s : List Char) : Bool :=
  s.tails.any (fun u => !(r.ends u).isEmpty)

/-- The scan of `String.prototype.replace` with a global (`g`) pattern and a
replacement function `f`: at each position the first match of the matcher is
replaced by `f` of the matched text and the scan resumes after it; an empty match
is replaced and the scan steps over the next character; where the pattern does
not match the character is copied. -/
def replaceScan (r : Regex) (f : List Char → List Char) : Nat → List Char → List Char
  | 0, s => s
  | fuel + 1, s =>
    match r.ends s with
    | t :: _ =>
      if t.length < s.length then
        f (s.take (s.length - t.length)) ++ replaceScan r f fuel t
      else
        f [] ++ (match s with
          | [] => []
          | c :: s1 => c :: replaceScan r f fuel s1)
    | [] =>
      match s with
      | [] => []
      | c :: s1 => c :: replaceScan r f fuel s1

/-- The call `s.replace(/r/g, f)`. -/
def replaceAll (r : Regex) (f : List Char → List Char) (s : List Char) : List Char :=
  replaceScan r f (s.length + 1) s

end Regex

/-! ## `security`: sanitisation -/

/-- The object `map` of `security.sanitizeHTML`: the entity of each character. -/
def security.sanitizeHTML.map : List (Char × List Char) :=
  [ ('&', "&amp;".toList),
    ('<', "&lt;".toList),
    ('>', "&gt;".toList),
    (Char.ofNat 34, "&quot;".toList),
    (Char.ofNat 39, "&#039;".toList),
    ('/', "&#x2F;".toList) ]

/-- The pattern of `security.sanitizeHTML`: the class of the ampersand, the angle
brackets, the double quote (34), the apostrophe (39) and the slash. -/
def security.sanitizeHTML.pattern : Regex :=
  .set (fun c => c == '&' || c == '<' || c == '>' || c == Char.ofNat 34 ||
    c == Char.ofNat 39 || c == '/')

/-- The replacement function `s => map[s]` of `security.sanitizeHTML`; a key that
`map` lacks gives `undefined`, which `replace` inserts as text. -/
def security.sanitizeHTML.replacer (m : List Char) : List Char :=
  match m with
  | [c] =>
    match security.sanitizeHTML.map.lookup c with
    | some e => e
    | none => "undefined".toList
  | _ => "undefined".toList

/-- The function `security.sanitizeHTML` (app.js, lines 28-39). -/
def security.sanitizeHTML (str : JsValue) : List Char :=
  if !str.truthy then []
  else Regex.replaceAll security.sanitizeHTML.pattern security.sanitizeHTML.replacer
    str.toJsString

/-- The first pattern of `security.sanitizeInput`,
`/<script[^>]*>.*?<\/script>/gi`. -/
def security.sanitizeInput.scriptBlock : Regex :=
  Regex.cat [Regex.litI "<script".toList, .star true (Regex.notChr '>'), Regex.chrI '>',
    .star false Regex.dot, Regex.litI "</script>".toList]

/-- The pattern `/javascript:/gi`. -/
def security.sanitizeInput.javascriptUri : Regex :=
  Regex.litI "javascript:".toList

/-- The pattern `/on\w+\s*=/gi`. -/
def security.sanitizeInput.eventHandler : Regex :=
  Regex.cat [Regex.litI "on".toList, Regex.plus (.set isWordChar),
    .star true (.set isWhiteSpace), Regex.chrI '=']

/-- The pattern `/eval\s*\(/gi`. -/
def security.sanitizeInput.evalCall : Regex :=
  Regex.cat [Regex.litI "eval".toList, .star true (.set isWhiteSpace), Regex.chrI '(']

/-- The pattern `/expression\s*\(/gi`. -/
def security.sanitizeInput.expressionCall : Regex :=
  Regex.cat [Regex.litI "expression".toList, .star true (.set isWhiteSpace), Regex.chrI '(']

/-- The call `str.replace(/r/gi, '')`: every match is replaced by the empty
string. -/
def strip (r : Regex) (s : List Char) : List Char :=
  Regex.replaceAll r (fun _ => []) s

/-- The function `security.sanitizeInput` (app.js, lines 42-52): trim, strip the
five patterns one after the other, then `security.sanitizeHTML`. -/
def security.sanitizeInput (str : JsValue) : List Char :=
  if !str.truthy then []
  else
    let s0 := trim str.toJsString
    let s1 := strip security.sanitizeInput.scriptBlock s0
    let s2 := strip security.sanitizeInput.javascriptUri s1
    let s3 := strip security.sanitizeInput.eventHandler s2
    let s4 := strip security.sanitizeInput.evalCall s3
    let s5 := strip security.sanitizeInput.expressionCall s4
    security.sanitizeHTML (.str s5)

/-- The array `xssPatterns` of `security.hasXSSPatterns` (app.js, lines 56-66),
each pattern with the `i` flag. -/
def security.hasXSSPatterns.xssPatterns : List Regex :=
  [ Regex.litI "<script".toList,
    Regex.litI "javascript:".toList,
    Regex.cat [Regex.litI "on".toList, Regex.plus (.set isWordChar),
      .star true (.set isWhiteSpace), Regex.chrI '='],
    Regex.cat [Regex.litI "eval".toList, .star true (.set isWhiteSpace), Regex.chrI '('],
    Regex.litI "<iframe".toList,
    Regex.litI "<object".toList,
    Regex.litI "<embed".toList,
    Regex.cat [Regex.litI "expression".toList, .star true (.set isWhiteSpace),
      Regex.chrI '('],
    Regex.litI "vbscript:".toList ]

/-- The function `security.hasXSSPatterns` (app.js, lines 55-68):
`xssPatterns.some(pattern => pattern.test(str))`. -/
def security.hasXSSPatterns (str : List Char) : Bool :=
  security.hasXSSPatterns.xssPatterns.any (fun pattern => pattern.test str)

/-! ## `security.checkRateLimit` -/

/-- The names every plain object inherits from `Object.prototype`.  Reading one
of them from an object literal that has no own property of that name yields the
inherited function (for `__proto__`, the prototype object), which is truthy and
has no `filter` method. -/
def objectPrototypeKeys : List String :=
  ["constructor", "__proto__", "hasOwnProperty", "isPrototypeOf", "propertyIsEnumerable",
   "toLocaleString", "toString", "valueOf", "__defineGetter__", "__defineSetter__",
   "__lookupGetter__", "__lookupSetter__"]

/-- The state `security.rateLimitMap`: the own properties of the object, each an
array of attempt times (milliseconds, as returned by `Date.now()`). -/
abbrev RateLimitMap := String → Option (List Int)

/-- The initial value `{}` of `security.rateLimitMap`. -/
def RateLimitMap.empty : RateLimitMap := fun _ => none

/-- The assignment `security.rateLimitMap[key] = v`. -/
def RateLimitMap.set (m : RateLimitMap) (key : String) (v : List Int) : RateLimitMap :=
  fun k => if k = key then some v else m k

/-- What a call of `security.checkRateLimit` leaves: the value it returned, or
`none` when it raised a `TypeError` instead of returning, and the map. -/
structure RateLimitResult where
  returned : Option Bool
  map : RateLimitMap

/-- The function `security.checkRateLimit` (app.js, lines 107-120), with the
clock reading `now` of `Date.now()` as an argument.  The look-up
`security.rateLimitMap[key]` finds the own property when there is one; otherwise,
for a name of `objectPrototypeKeys`, it finds the inherited value, so the
initialisation is skipped and `.filter` raises; otherwise it is `undefined` and
the entry is initialised to `[]`. -/
def security.checkRateLimit (map : RateLimitMap) (now : Int) (key : String)
    (maxAttempts windowMs : Int) : RateLimitResult :=
  match map key with
  | none =>
    if key ∈ objectPrototypeKeys then ⟨none, map⟩
    else
      let kept := ([] : List Int).filter (fun t => decide (now - t < windowMs))
      if (kept.length : Int) ≥ maxAttempts then ⟨some false, map.set key kept⟩
      else ⟨some true, map.set key (kept ++ [now])⟩
  | some attempts =>
    let kept := attempts.filter (fun t => decide (now - t < windowMs))
    if (kept.length : Int) ≥ maxAttempts then ⟨some false, map.set key kept⟩
    else ⟨some true, map.set key (kept ++ [now])⟩

/-- One call `security.checkRateLimit(key, maxAttempts, windowMs)` made when the
clock reads `now`. -/
structure RateLimitCall where
  now : Int
  key : String
  maxAttempts : Int
  windowMs : Int

/-- The values returned by a sequence of calls, each running on the map the
previous one left. -/
def runRateLimit : RateLimitMap → List RateLimitCall → List (Option Bool)
  | _, [] => []
  | map, c :: cs =>
    let r := security.checkRateLimit map c.now c.key c.maxAttempts c.windowMs
    r.returned :: runRateLimit r.map cs

/-- The number of calls of a sequence, paired with their results, that are for
`key`, returned `true` and were made at a time in the half-open interval from `a`
to `a + len`. -/
def grantedWithin (key : String) (a len : Int)
    (run : List (RateLimitCall × Option Bool)) : Nat :=
  run.countP (fun p => decide (p.1.key = key) && decide (p.2 = some true) &&
    decide (a ≤ p.1.now) && decide (p.1.now < a + len))

/-- The attempts recorded for `key` in a map that are still inside the window at
time `now`: those with `now - t < windowMs`. -/
def recentAttempts (map : RateLimitMap) (now : Int) (key : String) (windowMs : Int) :
    List Int :=
  ((map key).getD []).filter (fun t => decide (now - t < windowMs))

/-! ## Notification channel (`toast.js`) -/

/-- The severities of a notification, the `type` argument of `show`. -/
inductive Severity where
  | success : Severity
  | error : Severity
  | warning : Severity
  | info : Severity
  deriving DecidableEq

/-- A notification in the toast container. -/
structure Toast where
  message : String
  type : Severity
  duration : Nat
  deriving DecidableEq

/-- The method `ToastManager.show` (toast.js, lines 22-76) on the container's
content: the new notification is appended after the ones already shown. -/
def ToastManager.show (container : List Toast) (message : String) (type : Severity)
    (duration : Nat) : List Toast :=
  container ++ [⟨message, type, duration⟩]

/-- The method `ToastManager.success` with the default duration. -/
def ToastManager.success (container : List Toast) (message : String) : List Toast :=
  ToastManager.show container message .success 4000

/-- The method `ToastManager.error` with the default duration. -/
def ToastManager.error (container : List Toast) (message : String) : List Toast :=
  ToastManager.show container message .error 4000

/-- The method `ToastManager.warning` with the default duration. -/
def ToastManager.warning (container : List Toast) (message : String) : List Toast :=
  ToastManager.show container message .warning 4000

/-- The method `ToastManager.info` with the default duration. -/
def ToastManager.info (container : List Toast) (message : String) : List Toast :=
  ToastManager.show container message .info 4000

/-! ## Persisted state and the download operation -/

/-- A record of the `files` collection.  The counter `downloads` may be missing
from a stored record (or be `null`); the data model makes it a non-negative
integer.  A number is the one `JSON.parse` reads from the digits that denote it, a
double: see `roundToDouble`. -/
structure FileRecord where
  id : Nat
  title : String
  subject : String
  type : String
  pageCount : Option Nat
  size : String
  date : String
  downloads : Option Nat
  uploadedBy : Option String
  uploadedByName : Option String
  description : Option String
  deriving DecidableEq

/-- An item of `localStorage` that holds a serialised collection: absent (or the
empty text), a text that is not the JSON of a collection, or the JSON of `v`. -/
inductive Stored (α : Type) where
  | absent : Stored α
  | corrupt : Stored α
  | value (v : α) : Stored α
  deriving DecidableEq

/-- The part of `localStorage` the download operation reads and writes: the raw
item `currentUser` and the item `files`. -/
structure LocalStorage where
  currentUser : Option String
  files : Stored (List FileRecord)
  deriving DecidableEq

/-- A binary payload of the object store. -/
structure Blob where
  bytes : List Nat
  deriving DecidableEq

/-- An entry of the object store `files`; its `blob` field may be missing. -/
structure BlobEntry where
  blob : Option Blob
  deriving DecidableEq

/-- How the IndexedDB requests of `downloadFile` end: `indexedDB.open` throws,
the open request fails (`request.onerror`), the open request succeeds on a
database that has no object store `files` (as one that `indexedDB.open` has just
created, the function installing no `onupgradeneeded`), so that `db.transaction`
raises a `NotFoundError` inside the handler `request.onsuccess`, the `get` request
fails (`getRequest.onerror`), or the `get` request succeeds with
`getRequest.result`, which is `undefined` when the store has no entry for the
identifier. -/
inductive BlobLookup where
  | openThrows : BlobLookup
  | openError : BlobLookup
  | noStore : BlobLookup
  | getError : BlobLookup
  | got (result : Option BlobEntry) : BlobLookup
  deriving DecidableEq

/-- The function `auth.isAuthenticated` (app.js, line 496):
`!!localStorage.getItem('currentUser')`. -/
def auth.isAuthenticated (ls : LocalStorage) : Bool :=
  match ls.currentUser with
  | none => false
  | some item => !item.isEmpty

/-- The expression `JSON.parse(localStorage.getItem('files') || '[]')`: `none`
when `JSON.parse` throws. -/
def parseFiles (ls : LocalStorage) : Option (List FileRecord) :=
  match ls.files with
  | .absent => some []
  | .corrupt => none
  | .value v => some v

/-- The expression `a || b` on strings: `b` when `a` is empty. -/
def orElse (a b : String) : String :=
  if a.isEmpty then b else a

/-- The number of low bits of `n` beyond the 53 a double keeps, found by halving
at most `fuel` times. -/
def roundToDouble.lowBits : Nat → Nat → Nat
  | 0, _ => 0
  | fuel + 1, n => if n < 2 ^ 53 then 0 else roundToDouble.lowBits fuel (n / 2) + 1

/-- The JavaScript number nearest to the natural number `n`.  Numbers are IEEE-754
doubles: 53 significant bits are kept and the rest is rounded to nearest, a tie
going to the even significand; `none` is `Infinity`, the result from
`2^1024 - 2^970` on.  Below `2^53` every natural number is a number. -/
def roundToDouble (n : Nat) : Option Nat :=
  let k := roundToDouble.lowBits 972 n
  let q := n / 2 ^ k
  let r := n % 2 ^ k
  let m := if 2 ^ (k - 1) < r ∨ (r = 2 ^ (k - 1) ∧ q % 2 = 1) then q + 1 else q
  if k ≤ 970 ∨ (k = 971 ∧ m < 2 ^ 53) then some (m * 2 ^ k) else none

/-- The two statements `if (!f.downloads) f.downloads = 0; f.downloads += 1;` and
what `JSON.stringify` then writes for the counter.  The sum is the addition of
JavaScript numbers, which rounds: from `2^53` on adding 1 need not change the
number.  An infinite counter is written as `null`. -/
def FileRecord.countDownload (f : FileRecord) : FileRecord :=
  let d : Option Nat :=
    match f.downloads with
    | none => some 0
    | some n => if n = 0 then some 0 else roundToDouble n
  { f with downloads := d.bind (fun x => roundToDouble (x + 1)) }

/-- What a run of `downloadFile` leaves behind: the toast container, the
`localStorage`, the redirect scheduled by `setTimeout` (target and delay), whether
`fetchFiles()` was called and returned, the browser save that was triggered (name
and payload), and whether the run ended by an uncaught exception. -/
structure DownloadResult where
  toasts : List Toast
  storage : LocalStorage
  redirect : Option (String × Nat)
  rerendered : Bool
  saved : Option (String × Blob)
  threw : Bool
  deriving DecidableEq

/-- A run of `downloadFile` that an uncaught exception ends before anything was
shown or written. -/
def downloadFile.raised (ls : LocalStorage) (container : List Toast) : DownloadResult :=
  { toasts := container, storage := ls, redirect := none, rerendered := false,
    saved := none, threw := true }

/-- The function `downloadFile` (app.js, lines 753-812), including the handlers it
installs, for the way `lookup` the IndexedDB requests end.

The calls of its collaborators enter by their outcome.  The look-up of localised
texts `appManager.t(key)` is `t key`, which is `none` when the call raises (it
does for a language without a table in the dictionary, see `AppManager.t`); the
argument of a notification is evaluated before the notification is shown, so
nothing is shown then.  The call `fetchFiles()` made after the write is
`rerender`, applied to the item `files` just written: `false` when the call
raises (see `fetchFiles`).  Only the synchronous part of the function is inside
its `try`: an exception in a handler is not caught.  `JSON.parse` raises on a
corrupt `files` item.  The write `localStorage.setItem` and the creation of the
download link are taken to return normally. -/
def downloadFile (t : String → Option String) (rerender : Stored (List FileRecord) → Bool)
    (ls : LocalStorage) (lookup : BlobLookup) (container : List Toast) (fileId : Nat) :
    DownloadResult :=
  if !auth.isAuthenticated ls then
    match t "mustLoginToDownload" with
    | none => downloadFile.raised ls container
    | some text =>
      { toasts := ToastManager.error container
          (orElse text "You must be logged in to download files"),
        storage := ls, redirect := some ("login.html", 900), rerendered := false,
        saved := none, threw := false }
  else
    match parseFiles ls with
    | none => downloadFile.raised ls container
    | some files =>
      match files.findIdx? (fun f => f.id == fileId) with
      | none =>
        match t "fileNotFound" with
        | none => downloadFile.raised ls container
        | some text =>
          { toasts := ToastManager.error container (orElse text "File not found"),
            storage := ls, redirect := none, rerendered := false, saved := none,
            threw := false }
      | some fileIndex =>
        match lookup with
        | .openThrows =>
          match t "downloadError" with
          | none => downloadFile.raised ls container
          | some text =>
            { toasts := ToastManager.error container (orElse text "Error downloading file"),
              storage := ls, redirect := none, rerendered := false, saved := none,
              threw := false }
        | .openError =>
          match t "downloadError" with
          | none => downloadFile.raised ls container
          | some text =>
            { toasts := ToastManager.error container
                (orElse text "Error accessing file storage"),
              storage := ls, redirect := none, rerendered := false, saved := none,
              threw := false }
        | .noStore => downloadFile.raised ls container
        | .getError =>
          match t "downloadError" with
          | none => downloadFile.raised ls container
          | some text =>
            { toasts := ToastManager.error container (orElse text "Error accessing file"),
              storage := ls, redirect := none, rerendered := false, saved := none,
              threw := false }
        | .got result =>
          match result.bind (fun entry => entry.blob) with
          | some blob =>
            match files[fileIndex]? with
            | none => downloadFile.raised ls container
            | some f =>
              let f1 := f.countDownload
              let files1 := files.set fileIndex f1
              let written : LocalStorage := { ls with files := .value files1 }
              if !rerender (.value files1) then
                { toasts := container, storage := written, redirect := none,
                  rerendered := false, saved := none, threw := true }
              else
                match t "downloadStarted" with
                | none =>
                  { toasts := container, storage := written, redirect := none,
                    rerendered := true,
                    saved := some (orElse f1.title ("file_" ++ toString fileId), blob),
                    threw := true }
                | some text =>
                  { toasts := ToastManager.success container
                      (orElse text "Download started!"),
                    storage := written, redirect := none, rerendered := true,
                    saved := some (orElse f1.title ("file_" ++ toString fileId), blob),
                    threw := false }
          | none =>
            match t "fileNotAvailable" with
            | none => downloadFile.raised ls container
            | some text =>
              { toasts := ToastManager.warning container
                  (orElse text "File data not available for download"),
                storage := ls, redirect := none, rerendered := false, saved := none,
                threw := false }

/-- The payload the IndexedDB look-up found: present when the `get` request
succeeded with an entry that has a `blob`. -/
def BlobLookup.blob : BlobLookup → Option Blob
  | .got (some entry) => entry.blob
  | _ => none

/-! ## Statements of the specification

The definitions below follow the wording of the specification; the theorems
compare them with the definitions above, which follow the source. -/

/-- The six characters `security.sanitizeHTML` is specified to escape. -/
def isHtmlSpecial (c : Char) : Bool :=
  c == '&' || c == '<' || c == '>' || c == Char.ofNat 34 || c == Char.ofNat 39 || c == '/'

/-- The entity the specification gives for a character, the character itself
when it is not one of the six. -/
def htmlEntity (c : Char) : List Char :=
  if c = '&' then "&amp;".toList
  else if c = '<' then "&lt;".toList
  else if c = '>' then "&gt;".toList
  else if c = Char.ofNat 34 then "&quot;".toList
  else if c = Char.ofNat 39 then "&#039;".toList
  else if c = '/' then "&#x2F;".toList
  else [c]

/-- The text obtained by replacing, left to right, each character by its entity
and leaving every other character unchanged. -/
def escapeLeftToRight : List Char → List Char
  | [] => []
  | c :: s => htmlEntity c ++ escapeLeftToRight s

/-- Two texts are equal ignoring case. -/
def EqIgnoringCase (m p : List Char) : Prop :=
  m.map Char.toUpper = p.map Char.toUpper

/-- The text `s` has a contiguous part equal, ignoring case, to `p`. -/
def ContainsIgnoringCase (p s : List Char) : Prop :=
  ∃ pre m post, s = pre ++ m ++ post ∧ EqIgnoringCase m p

/-- The text `s` contains `on`, one or more word characters and `=` (the
pattern `on\w+=`). -/
def ContainsHandler (s : List Char) : Prop :=
  ∃ pre m w post, s = pre ++ m ++ w ++ '=' :: post ∧ EqIgnoringCase m "on".toList ∧
    w ≠ [] ∧ ∀ c ∈ w, isWordChar c = true

/-- The text `s` contains `on`, one or more word characters, any white space and
`=` (the pattern `on\w+\s*=`). -/
def ContainsSpacedHandler (s : List Char) : Prop :=
  ∃ pre m w sp post, s = pre ++ m ++ w ++ sp ++ '=' :: post ∧
    EqIgnoringCase m "on".toList ∧ w ≠ [] ∧ (∀ c ∈ w, isWordChar c = true) ∧
    ∀ c ∈ sp, isWhiteSpace c = true

/-- The text `s` contains the keyword `kw` (ignoring case), any white space and an
opening parenthesis (the pattern `kw\s*\(`). -/
def ContainsSpacedCall (kw s : List Char) : Prop :=
  ∃ pre m sp post, s = pre ++ m ++ sp ++ '(' :: post ∧ EqIgnoringCase m kw ∧
    ∀ c ∈ sp, isWhiteSpace c = true

/-- The detector as the claim words it: `s` matches, ignoring case, one of
`<script`, `javascript:`, `on\w+=`, `eval(`, `<iframe`, `<object`, `<embed`,
`expression(`, `vbscript:`. -/
def ClaimedXss (s : List Char) : Prop :=
  ContainsIgnoringCase "<script".toList s ∨ ContainsIgnoringCase "javascript:".toList s ∨
  ContainsHandler s ∨ ContainsIgnoringCase "eval(".toList s ∨
  ContainsIgnoringCase "<iframe".toList s ∨ ContainsIgnoringCase "<object".toList s ∨
  ContainsIgnoringCase "<embed".toList s ∨ ContainsIgnoringCase "expression(".toList s ∨
  ContainsIgnoringCase "vbscript:".toList s

/-- The patterns of `ClaimedXss` as regular expressions. -/
def claimedXssPatterns : List Regex :=
  [ Regex.litI "<script".toList,
    Regex.litI "javascript:".toList,
    Regex.cat [Regex.litI "on".toList, Regex.plus (.set isWordChar), Regex.chrI '='],
    Regex.litI "eval(".toList,
    Regex.litI "<iframe".toList,
    Regex.litI "<object".toList,
    Regex.litI "<embed".toList,
    Regex.litI "expression(".toList,
    Regex.litI "vbscript:".toList ]

/-- What the nine patterns of the source detect: as `ClaimedXss`, with white
space allowed before the `=` of a handler and before the parenthesis of `eval`
and `expression`. -/
def SourceXss (s : List Char) : Prop :=
  ContainsIgnoringCase "<script".toList s ∨ ContainsIgnoringCase "javascript:".toList s ∨
  ContainsSpacedHandler s ∨ ContainsSpacedCall "eval".toList s ∨
  ContainsIgnoringCase "<iframe".toList s ∨ ContainsIgnoringCase "<object".toList s ∨
  ContainsIgnoringCase "<embed".toList s ∨ ContainsSpacedCall "expression".toList s ∨
  ContainsIgnoringCase "vbscript:".toList s

/-- The collection `downloadFile` works on: the parsed `files` item, empty when
the item is absent. -/
def storedFiles (ls : LocalStorage) : List FileRecord :=
  match ls.files with
  | .value v => v
  | _ => []

/-- The severity of the single notification of each terminal state of
`downloadFile` in which a notification is shown: error when unauthenticated, error
when the record is missing, error when the storage requests fail, warning when the
blob is missing, success when record and blob are present. -/
def downloadSeverity (ls : LocalStorage) (lookup : BlobLookup) (fileId : Nat) : Severity :=
  if !auth.isAuthenticated ls then .error
  else if !(storedFiles ls).any (fun f => f.id == fileId) then .error
  else
    match lookup with
    | .got result =>
      match result.bind (fun entry => entry.blob) with
      | some _ => .success
      | none => .warning
    | _ => .error

/-! ## `JSON.parse` -/

/-- The values `JSON.parse` returns.  A number is kept as the text that denotes
it; the members of an object are in the order of the text. -/
inductive Json where
  | null : Json
  | bool (b : Bool) : Json
  | num (text : List Char) : Json
  | str (s : List Char) : Json
  | arr (items : List Json) : Json
  | obj (members : List (List Char × Json)) : Json

/-- What evaluating an expression gives: the value it returns, or an uncaught
exception. -/
inductive JsResult (α : Type) where
  | returned (v : α) : JsResult α
  | raised : JsResult α

/-- The white space of the JSON grammar: space, tab, line feed, carriage return. -/
def JSON.isSpace (c : Char) : Bool :=
  c == ' ' || c == '\t' || c == '\n' || c == '\r'

/-- Skip JSON white space. -/
def JSON.skipSpace (s : List Char) : List Char :=
  s.dropWhile JSON.isSpace

/-- The value of a hexadecimal digit. -/
def JSON.hexValue (c : Char) : Option Nat :=
  if '0' ≤ c ∧ c ≤ '9' then some (c.toNat - 48)
  else if 'a' ≤ c ∧ c ≤ 'f' then some (c.toNat - 87)
  else if 'A' ≤ c ∧ c ≤ 'F' then some (c.toNat - 55)
  else none

/-- The four hexadecimal digits of a `\u` escape. -/
def JSON.hex4 : List Char → Option (Nat × List Char)
  | a :: b :: c :: d :: rest =>
    match JSON.hexValue a, JSON.hexValue b, JSON.hexValue c, JSON.hexValue d with
    | some x, some y, some z, some w => some (((x * 16 + y) * 16 + z) * 16 + w, rest)
    | _, _, _, _ => none
  | _ => none

/-- The character of a `\u` escape with code unit `u`, followed by `rest`: a high
surrogate directly followed by the escape of a low surrogate gives the character
of the pair; a surrogate that is not part of a pair, which a `List Char` cannot
hold, is read as U+FFFD. -/
def JSON.escapedUnit (u : Nat) (rest : List Char) : Char × List Char :=
  if 0xD800 ≤ u ∧ u < 0xDC00 then
    match rest with
    | b :: v :: rest1 =>
      if b = Char.ofNat 92 ∧ v = 'u' then
        match JSON.hex4 rest1 with
        | some (low, rest2) =>
          if 0xDC00 ≤ low ∧ low < 0xE000 then
            (Char.ofNat (0x10000 + (u - 0xD800) * 0x400 + (low - 0xDC00)), rest2)
          else (Char.ofNat 0xFFFD, rest)
        | none => (Char.ofNat 0xFFFD, rest)
      else (Char.ofNat 0xFFFD, rest)
    | _ => (Char.ofNat 0xFFFD, rest)
  else if 0xDC00 ≤ u ∧ u < 0xE000 then (Char.ofNat 0xFFFD, rest)
  else (Char.ofNat u, rest)

/-- The rest of a JSON string after its opening quote (34): the text up to the
closing quote with the escapes (introduced by the backslash, 92) replaced;
`none` when the string is not closed or holds a raw control character or an
unknown escape. -/
def JSON.stringBody : Nat → List Char → List Char → Option (List Char × List Char)
  | 0, _, _ => none
  | _ + 1, [], _ => none
  | fuel + 1, c :: rest, acc =>
    if c = Char.ofNat 34 then some (acc, rest)
    else if c = Char.ofNat 92 then
      match rest with
      | [] => none
      | e :: rest1 =>
        if e = Char.ofNat 34 then JSON.stringBody fuel rest1 (acc ++ [Char.ofNat 34])
        else if e = Char.ofNat 92 then JSON.stringBody fuel rest1 (acc ++ [Char.ofNat 92])
        else if e = '/' then JSON.stringBody fuel rest1 (acc ++ ['/'])
        else if e = 'b' then JSON.stringBody fuel rest1 (acc ++ [Char.ofNat 8])
        else if e = 'f' then JSON.stringBody fuel rest1 (acc ++ [Char.ofNat 12])
        else if e = 'n' then JSON.stringBody fuel rest1 (acc ++ [Char.ofNat 10])
        else if e = 'r' then JSON.stringBody fuel rest1 (acc ++ [Char.ofNat 13])
        else if e = 't' then JSON.stringBody fuel rest1 (acc ++ [Char.ofNat 9])
        else if e = 'u' then
          match JSON.hex4 rest1 with
          | none => none
          | some (u, rest2) =>
            JSON.stringBody fuel (JSON.escapedUnit u rest2).2
              (acc ++ [(JSON.escapedUnit u rest2).1])
        else none
    else if c.toNat < 32 then none
    else JSON.stringBody fuel rest (acc ++ [c])

/-- A JSON number at the start of the text: an optional minus sign, an integer
part without leading zero, an optional fraction and an optional exponent. -/
def JSON.number (s : List Char) : Option (List Char × List Char) :=
  let signed : List Char × List Char :=
    match s with
    | '-' :: r => (['-'], r)
    | _ => ([], s)
  let int := signed.2.span Char.isDigit
  if int.1 = [] then none
  else if int.1.length > 1 ∧ int.1.head? = some '0' then none
  else
    let fraction : Option (List Char × List Char) :=
      match int.2 with
      | '.' :: r =>
        if (r.span Char.isDigit).1 = [] then none
        else some ('.' :: (r.span Char.isDigit).1, (r.span Char.isDigit).2)
      | _ => some ([], int.2)
    match fraction with
    | none => none
    | some (frac, s3) =>
      let exponent : Option (List Char × List Char) :=
        match s3 with
        | e :: r =>
          if e = 'e' ∨ e = 'E' then
            let sg : List Char × List Char :=
              match r with
              | '+' :: q => (['+'], q)
              | '-' :: q => (['-'], q)
              | _ => ([], r)
            if (sg.2.span Char.isDigit).1 = [] then none
            else some (e :: sg.1 ++ (sg.2.span Char.isDigit).1, (sg.2.span Char.isDigit).2)
          else some ([], s3)
        | [] => some ([], s3)
      match exponent with
      | none => none
      | some (ex, s4) => some (signed.1 ++ int.1 ++ frac ++ ex, s4)

mutual
/-- A JSON value at the start of the text, after white space, and the text that
follows it.  The natural number bounds the nesting and the number of elements. -/
def JSON.value : Nat → List Char → Option (Json × List Char)
  | 0, _ => none
  | fuel + 1, s =>
    match JSON.skipSpace s with
    | [] => none
    | c :: rest =>
      if c = 'n' then
        match rest with
        | 'u' :: 'l' :: 'l' :: r => some (.null, r)
        | _ => none
      else if c = 't' then
        match rest with
        | 'r' :: 'u' :: 'e' :: r => some (.bool true, r)
        | _ => none
      else if c = 'f' then
        match rest with
        | 'a' :: 'l' :: 's' :: 'e' :: r => some (.bool false, r)
        | _ => none
      else if c = Char.ofNat 34 then
        match JSON.stringBody (rest.length + 1) rest [] with
        | some (text, r) => some (.str text, r)
        | none => none
      else if c = '[' then
        match JSON.skipSpace rest with
        | ']' :: r => some (.arr [], r)
        | _ => JSON.items fuel rest []
      else if c = Char.ofNat 123 then
        match JSON.skipSpace rest with
        | d :: r =>
          if d = Char.ofNat 125 then some (.obj [], r) else JSON.members fuel rest []
        | [] => none
      else
        match JSON.number (c :: rest) with
        | some (text, r) => some (.num text, r)
        | none => none
/-- The elements of a JSON array after the opening bracket, up to the closing
one. -/
def JSON.items : Nat → List Char → List Json → Option (Json × List Char)
  | 0, _, _ => none
  | fuel + 1, s, acc =>
    match JSON.value fuel s with
    | none => none
    | some (v, r) =>
      match JSON.skipSpace r with
      | ',' :: r1 => JSON.items fuel r1 (acc ++ [v])
      | ']' :: r1 => some (.arr (acc ++ [v]), r1)
      | _ => none
/-- The members of a JSON object after the opening brace (123), up to the closing
one (125). -/
def JSON.members : Nat → List Char → List (List Char × Json) → Option (Json × List Char)
  | 0, _, _ => none
  | fuel + 1, s, acc =>
    match JSON.skipSpace s with
    | q :: r =>
      if q = Char.ofNat 34 then
        match JSON.stringBody (r.length + 1) r [] with
        | none => none
        | some (key, r1) =>
          match JSON.skipSpace r1 with
          | ':' :: r2 =>
            match JSON.value fuel r2 with
            | none => none
            | some (v, r3) =>
              match JSON.skipSpace r3 with
              | d :: r4 =>
                if d = ',' then JSON.members fuel r4 (acc ++ [(key, v)])
                else if d = Char.ofNat 125 then some (.obj (acc ++ [(key, v)]), r4)
                else none
              | [] => none
          | _ => none
      else none
    | [] => none
end

/-- The function `JSON.parse` on a text: the value the whole text denotes, or a
`SyntaxError`.  Of any two successive calls among `JSON.value`, `JSON.items` and
`JSON.members` one is made after a character was consumed, so the bound of twice
the length is never what stops them. -/
def JSON.parse (text : List Char) : JsResult Json :=
  match JSON.value (2 * text.length + 2) text with
  | some (v, r) => if JSON.skipSpace r = [] then .returned v else .raised
  | none => .raised

/-- Truthiness of a parsed value: `null`, `false`, the number zero and the empty
string are falsy.  A number is zero when its digits before the exponent are all
`0` (a number too small for a double, which JavaScript reads as 0, is not told
apart). -/
def Json.truthy : Json → Bool
  | .null => false
  | .bool b => b
  | .num text => (text.takeWhile (fun c => c != 'e' && c != 'E')).any
      (fun c => '1' ≤ c && c ≤ '9')
  | .str s => !s.isEmpty
  | .arr _ => true
  | .obj _ => true

/-- The read `v.key` of a property that is neither inherited nor built in (such
as `role` and `email`): for an object the value of its last member of that name,
`undefined` (here `none`) for every other value. -/
def Json.member (v : Json) (key : String) : Option Json :=
  match v with
  | .obj members =>
    match (members.reverse.find? (fun m => m.1 == key.toList)) with
    | some m => some m.2
    | none => none
  | _ => none

/-- The comparison `x === 'text'` of a property read with a string. -/
def Json.isString (x : Option Json) (text : String) : Bool :=
  match x with
  | some (.str s) => s == text.toList
  | _ => false

/-! ## `auth` -/

/-- The function `auth.getCurrentUser` (app.js, line 495):
`JSON.parse(localStorage.getItem('currentUser'))`, where an absent item is the
value `null`, which `JSON.parse` reads as the text `null`. -/
def auth.getCurrentUser (ls : LocalStorage) : JsResult Json :=
  match ls.currentUser with
  | none => JSON.parse "null".toList
  | some item => JSON.parse item.toList

/-- The function `auth.isAdmin` (app.js, lines 497-500):
`user && (user.role === 'admin' || user.email === "ahmed@summarize.com")`. -/
def auth.isAdmin (ls : LocalStorage) : JsResult Json :=
  match auth.getCurrentUser ls with
  | .raised => .raised
  | .returned user =>
    if !user.truthy then .returned user
    else .returned (.bool (Json.isString (user.member "role") "admin" ||
      Json.isString (user.member "email") "ahmed@summarize.com"))

/-- A record of the `users` collection. -/
structure User where
  id : String
  name : String
  email : String
  password : String
  role : String
  avatar : Option String
  createdAt : String
  deriving DecidableEq

/-- The expression `JSON.parse(localStorage.getItem(name) || '[]')` on the item of
a collection: `none` when `JSON.parse` throws. -/
def Stored.parseOrEmpty {α : Type} (item : Stored (List α)) : Option (List α) :=
  match item with
  | .absent => some []
  | .corrupt => none
  | .value v => some v

/-- The constant `adminEmail` of `auth.initAdmin`. -/
def auth.adminEmail : String := "ahmed@summarize.com"

/-- The record `adminUser` of `auth.initAdmin`; `createdAt` is
`new Date().toISOString()`. -/
def auth.adminUser (createdAt : String) : User :=
  { id := "admin_001", name := "Ahmed (Owner)", email := auth.adminEmail,
    password := "2008.", role := "admin", avatar := none, createdAt := createdAt }

/-- What a call of `auth.initAdmin` leaves: the item `users` and whether the call
ended by an uncaught exception. -/
structure InitAdminResult where
  users : Stored (List User)
  raised : Bool
  deriving DecidableEq

/-- The function `auth.initAdmin` (app.js, lines 505-520) on the item `users`,
with the time stamp `createdAt` the new record would get. -/
def auth.initAdmin (users : Stored (List User)) (createdAt : String) : InitAdminResult :=
  match users.parseOrEmpty with
  | none => { users := users, raised := true }
  | some us =>
    if us.any (fun u => u.email == auth.adminEmail) then { users := users, raised := false }
    else { users := .value (us ++ [auth.adminUser createdAt]), raised := false }

/-! ## `AppManager` and the dictionary -/

/-- The constant `dictionary` (app.js, lines 145-395): an object with the two own
properties `ar` and `en`, each a table from keys to texts.  The tables are taken
as given; a key the table lacks is `none`. -/
structure Dictionary where
  ar : String → Option String
  en : String → Option String

/-- The state of the `AppManager`: the language and the theme. -/
structure AppManager where
  lang : String
  theme : String
  deriving DecidableEq

/-- The constructor of `AppManager` (app.js, lines 401-404) on the items
`summarize_lang` and `summarize_theme` of `localStorage`:
`localStorage.getItem(...) || 'ar'` and `... || 'light'`. -/
def AppManager.new (langItem themeItem : Option String) : AppManager :=
  { lang := orElse (langItem.getD "") "ar", theme := orElse (themeItem.getD "") "light" }

/-- The method `toggleLanguage` on the state (app.js, line 426). -/
def AppManager.toggleLanguage (app : AppManager) : AppManager :=
  { app with lang := if app.lang = "ar" then "en" else "ar" }

/-- What a call of `appManager.t` gives. -/
inductive Translated where
  /-- It returns this string. -/
  | text (s : String) : Translated
  /-- It returns the member of `Object.prototype` of this name, which the table
  inherits: a function, not a string. -/
  | inherited (key : String) : Translated
  /-- It raises a `TypeError`: `dictionary[this.lang]` is `undefined`. -/
  | raised : Translated
  /-- The language is itself the name of a member `dictionary` inherits; what the
  look-up in that member gives is outside this model. -/
  | unmodelled : Translated
  deriving DecidableEq

/-- The method `AppManager.t` (app.js, line 470):
`dictionary[this.lang][key] || key`. -/
def AppManager.t (dictionary : Dictionary) (app : AppManager) (key : String) : Translated :=
  if app.lang = "ar" ∨ app.lang = "en" then
    match (if app.lang = "ar" then dictionary.ar key else dictionary.en key) with
    | some entry => if entry.isEmpty then .text key else .text entry
    | none => if key ∈ objectPrototypeKeys then .inherited key else .text key
  else if app.lang ∈ objectPrototypeKeys then .unmodelled
  else .raised

/-! ## `fetchFiles` and `showFileDetails` -/

/-- The keys of `filesByType` and `typeConfig`, in the order of the object
literal: summary, note, past exam, project. -/
def fetchFiles.types : List String :=
  ["ملخص", "مذكرة", "امتحان سابق", "مشروع"]

/-- The field `en` of `typeConfig[type]`. -/
def fetchFiles.typeConfigEn (type : String) : String :=
  if type = "ملخص" then "Summary"
  else if type = "مذكرة" then "Notes"
  else if type = "امتحان سابق" then "Past Exams"
  else "Projects"

/-- The object `filesByType`: its four own properties in order, each with the
records pushed so far. -/
abbrev Buckets := List (String × List FileRecord)

/-- The initial value of `filesByType`: four empty arrays. -/
def Buckets.empty : Buckets :=
  fetchFiles.types.map (fun type => (type, []))

/-- The call `filesByType[type].push(file)` for an own property `type`. -/
def Buckets.push (b : Buckets) (type : String) (file : FileRecord) : Buckets :=
  b.map (fun entry => if entry.1 = type then (entry.1, entry.2 ++ [file]) else entry)

/-- The loop `files.forEach(file => { if (filesByType[file.type])
filesByType[file.type].push(file); })`.  For one of the four types the record is
pushed; for the name of a member every object inherits the look-up is truthy and
`.push` is not a function, so the loop raises (`none`); any other type is
skipped. -/
def fetchFiles.fill : List FileRecord → Buckets → Option Buckets
  | [], b => some b
  | file :: rest, b =>
    if file.type ∈ fetchFiles.types then fetchFiles.fill rest (b.push file.type file)
    else if file.type ∈ objectPrototypeKeys then none
    else fetchFiles.fill rest b

/-- The expression `a || b || c` on two optional strings and a last resort. -/
def firstNonEmpty (a b : Option String) (c : String) : String :=
  orElse (a.getD "") (orElse (b.getD "") c)

/-- The fields of a file card (and of the details view) this model keeps: the
record, its escaped title and subject, the counter shown (`file.downloads || 0`)
and the uploader name shown.  The avatar and the fixed labels are left out. -/
structure Card where
  file : FileRecord
  title : List Char
  subject : List Char
  downloads : Nat
  uploaderName : String
  deriving DecidableEq

/-- The card of a record, for the text `unknown` of the last resort. -/
def Card.of (unknown : String) (file : FileRecord) : Card :=
  { file := file,
    title := security.sanitizeHTML (.str file.title.toList),
    subject := security.sanitizeHTML (.str file.subject.toList),
    downloads := file.downloads.getD 0,
    uploaderName := firstNonEmpty file.uploadedByName file.uploadedBy unknown }

/-- A section of the catalog: the type of its bucket, the heading shown, the
count shown with its label, and the cards in order. -/
structure Section where
  type : String
  typeName : String
  count : Nat
  countLabel : String
  cards : List Card
  deriving DecidableEq

/-- What a call of `fetchFiles` leaves in the element `filesGrid`. -/
inductive FetchResult where
  /-- There is no element `filesGrid`: the function returns at once. -/
  | noGrid : FetchResult
  /-- The call ended by an uncaught exception; the grid is as it was. -/
  | raised : FetchResult
  /-- The language is the name of an inherited member: outside this model. -/
  | unmodelled : FetchResult
  /-- The collection is empty: the grid shows this message. -/
  | noFiles (message : String) : FetchResult
  /-- The grid shows these sections. -/
  | sections (list : List Section) : FetchResult
  deriving DecidableEq

/-- The sections built from the buckets by
`Object.entries(filesByType).forEach(...)`: one for each bucket that is not
empty. -/
def fetchFiles.render (app : AppManager) (filesLabel unknown : String) (b : Buckets) :
    List Section :=
  (b.filter (fun entry => !entry.2.isEmpty)).map (fun entry =>
    { type := entry.1,
      typeName := if app.lang = "ar" then entry.1 else fetchFiles.typeConfigEn entry.1,
      count := entry.2.length,
      countLabel := filesLabel,
      cards := entry.2.map (Card.of unknown) })

/-- The function `fetchFiles` (app.js, lines 588-750) for the items `files` and
`users` of `localStorage`; `hasGrid` says whether the page has the element
`filesGrid`.  Every call of `appManager.t` in the templates is for a fixed key
that no object inherits, so with a language of the dictionary it returns a text;
with another language the first call raises. -/
def fetchFiles (dictionary : Dictionary) (app : AppManager) (hasGrid : Bool)
    (files : Stored (List FileRecord)) (users : Stored (List User)) : FetchResult :=
  if !hasGrid then .noGrid
  else
    match files.parseOrEmpty with
    | none => .raised
    | some fileList =>
      match users.parseOrEmpty with
      | none => .raised
      | some _ =>
        if fileList.length = 0 then
          match app.t dictionary "noFiles" with
          | .text message => .noFiles message
          | .raised => .raised
          | _ => .unmodelled
        else
          match fetchFiles.fill fileList Buckets.empty with
          | none => .raised
          | some buckets =>
            if buckets.all (fun entry => entry.2.isEmpty) then .sections []
            else
              match app.t dictionary "files", app.t dictionary "unknown" with
              | .text filesLabel, .text unknown =>
                .sections (fetchFiles.render app filesLabel unknown buckets)
              | .raised, _ => .raised
              | _, .raised => .raised
              | _, _ => .unmodelled

/-- What a call of `showFileDetails` leaves. -/
inductive DetailsResult where
  /-- The call ended by an uncaught exception. -/
  | raised : DetailsResult
  /-- The language is the name of an inherited member: outside this model. -/
  | unmodelled : DetailsResult
  /-- No record has the identifier: one error notification, no modal. -/
  | notFound (toasts : List Toast) : DetailsResult
  /-- The modal is shown with these fields. -/
  | shown (details : Card) : DetailsResult
  deriving DecidableEq

/-- The function `showFileDetails` (app.js, lines 815-927).  The uploader name
shown ends with the fixed text of line 903 as last resort. -/
def showFileDetails (dictionary : Dictionary) (app : AppManager)
    (files : Stored (List FileRecord)) (users : Stored (List User))
    (container : List Toast) (fileId : Nat) : DetailsResult :=
  match files.parseOrEmpty with
  | none => .raised
  | some fileList =>
    match users.parseOrEmpty with
    | none => .raised
    | some _ =>
      match fileList.find? (fun f => f.id == fileId) with
      | none =>
        match app.t dictionary "fileNotFound" with
        | .text message =>
          .notFound (ToastManager.error container (orElse message "الملف غير موجود"))
        | .raised => .raised
        | _ => .unmodelled
      | some file =>
        match app.t dictionary "pageCount" with
        | .text _ => .shown (Card.of "مجهول" file)
        | .raised => .raised
        | _ => .unmodelled

/-! ## `security`: validation -/

/-- The property `length` of a string: the number of UTF-16 code units, two for a
character beyond U+FFFF. -/
def jsLength (s : List Char) : Nat :=
  (s.map (fun c => if c.toNat < 0x10000 then 1 else 2)).sum

/-- The result object of `security.validatePassword`. -/
structure PasswordCheck where
  valid : Bool
  score : Nat
  deriving DecidableEq

/-- The function `security.validatePassword` (app.js, lines 77-86), with the
patterns `/[a-zA-Z]/` and `/\d/`. -/
def security.validatePassword (password : List Char) : PasswordCheck :=
  let hasMinLength : Bool := decide (jsLength password ≥ 6)
  let hasLetter : Bool :=
    (Regex.set (fun c => ('a' ≤ c && c ≤ 'z') || ('A' ≤ c && c ≤ 'Z'))).test password
  let hasNumber : Bool := (Regex.set (fun c => '0' ≤ c && c ≤ '9')).test password
  { valid := hasMinLength && hasLetter && hasNumber,
    score := (if hasMinLength then 1 else 0) + (if hasLetter then 1 else 0) +
      (if hasNumber then 1 else 0) }

/-- A `File` object, by the two properties `security.isValidFileType` reads. -/
structure FileObject where
  name : List Char
  type : String
  deriving DecidableEq

/-- The array `security.validFileTypes`. -/
def security.validFileTypes : List String :=
  ["application/pdf", "application/msword",
   "application/vnd.openxmlformats-officedocument.wordprocessingml.document",
   "application/vnd.ms-powerpoint",
   "application/vnd.openxmlformats-officedocument.presentationml.presentation",
   "text/plain"]

/-- The array `security.validFileExtensions`. -/
def security.validFileExtensions : List (List Char) :=
  ["pdf".toList, "doc".toList, "docx".toList, "ppt".toList, "pptx".toList, "txt".toList]

/-- The call `s.split(c)` with a one-character separator: the parts between the
separators, of which there is always at least one. -/
def splitChar (sep : Char) : List Char → List (List Char)
  | [] => [[]]
  | c :: rest =>
    if c = sep then [] :: splitChar sep rest
    else
      match splitChar sep rest with
      | [] => [[c]]
      | part :: parts => (c :: part) :: parts

/-- The method `toLowerCase` on the characters it is applied to here.  JavaScript
also maps characters outside ASCII; of those only U+212A (to `k`) and U+0130 (to
`i` and U+0307) give an ASCII letter, and neither letter occurs in an allowed
extension, so membership in `validFileExtensions` is the same. -/
def toLowerCase (s : List Char) : List Char :=
  s.map Char.toLower

/-- The function `security.isValidFileType` (app.js, lines 92-98); `none` is a
missing (falsy) argument. -/
def security.isValidFileType (file : Option FileObject) : Bool :=
  match file with
  | none => false
  | some f =>
    let isValidMime := security.validFileTypes.contains f.type
    let ext := toLowerCase ((splitChar '.' f.name).getLast?.getD [])
    let isValidExt := security.validFileExtensions.contains ext
    isValidMime && isValidExt

/-! ## Statements of the specification, continued -/

/-- The uploader name as the claim resolves it: the name of the user whose email
equals `uploadedBy` ignoring case when there is one, otherwise the name stored on
the record, otherwise the `unknown` label. -/
def claimedUploaderName (users : List User) (file : FileRecord) (unknown : String) : String :=
  match users.find? (fun u => u.email.toList.map Char.toLower ==
      (file.uploadedBy.getD "").toList.map Char.toLower) with
  | some u => u.name
  | none => orElse (file.uploadedByName.getD "") unknown

/-- The uploader name the source shows: the name stored on the record when it has
one, otherwise the uploader's email stored on the record when it has one,
otherwise the `unknown` label. -/
def shownUploaderName (file : FileRecord) (unknown : String) : String :=
  match file.uploadedByName with
  | some name => if name ≠ "" then name else
    match file.uploadedBy with
    | some email => if email ≠ "" then email else unknown
    | none => unknown
  | none =>
    match file.uploadedBy with
    | some email => if email ≠ "" then email else unknown
    | none => unknown

/-- The catalog as the specification describes it: one section for each of the
four types, in their fixed order, that occurs in `F`, listing the records of that
type in the order of `F` with their number. -/
def catalogSections (app : AppManager) (filesLabel unknown : String)
    (F : List FileRecord) : List Section :=
  (fetchFiles.types.filter (fun type => F.any (fun f => f.type == type))).map (fun type =>
    { type := type,
      typeName := if app.lang = "ar" then type else fetchFiles.typeConfigEn type,
      count := F.countP (fun f => f.type == type),
      countLabel := filesLabel,
      cards := (F.filter (fun f => f.type == type)).map (Card.of unknown) })

/-! ## `security`: the patterns of `validateEmail` and `validateUsername` -/

/-- A pattern character without the `i` flag. -/
def Regex.chr (c : Char) : Regex := .set (fun x => x == c)

/-- The quantifier `{n,}`, greedy: `n` copies of `a` followed by `a*`. -/
def Regex.atLeast : Nat → Regex → Regex
  | 0, a => .star true a
  | n + 1, a => .seq a (Regex.atLeast n a)

/-- The method `RegExp.prototype.test` for a pattern `^r$` without the `m` flag:
`^` holds only at the start of the input and `$` only at its end, so the test
succeeds when one of the ways `r` matches at the start of `s` ends at the end of
`s`. -/
def Regex.testWhole (r : Regex) (s : List Char) : Bool :=
  (r.ends s).any List.isEmpty

/-- The class `[^\s@]` of `security.validateEmail`. -/
def security.validateEmail.part : Regex :=
  .set (fun c => !(isWhiteSpace c || c == '@'))

/-- The pattern `emailRegex` of `security.validateEmail`,
`/^[^\s@]+@[^\s@]+\.[^\s@]+$/`, between its anchors. -/
def security.validateEmail.emailRegex : Regex :=
  Regex.cat [Regex.plus security.validateEmail.part, Regex.chr '@',
    Regex.plus security.validateEmail.part, Regex.chr '.',
    Regex.plus security.validateEmail.part]

/-- The function `security.validateEmail` (app.js, lines 71-74). -/
def security.validateEmail (email : List Char) : Bool :=
  security.validateEmail.emailRegex.testWhole email

/-- The class `[a-zA-Z\u0600-\u06FF\s\-']` of `security.validateUsername`; the
apostrophe is the character 39. -/
def security.validateUsername.nameClass (c : Char) : Bool :=
  ('a' ≤ c && c ≤ 'z') || ('A' ≤ c && c ≤ 'Z') ||
    (Char.ofNat 0x0600 ≤ c && c ≤ Char.ofNat 0x06FF) || isWhiteSpace c || c == '-' ||
    c == Char.ofNat 39

/-- The pattern `nameRegex` of `security.validateUsername`,
`/^[a-zA-Z\u0600-\u06FF\s\-']{2,}$/`, between its anchors. -/
def security.validateUsername.nameRegex : Regex :=
  Regex.atLeast 2 (.set security.validateUsername.nameClass)

/-- The function `security.validateUsername` (app.js, lines 129-133). -/
def security.validateUsername (name : List Char) : Bool :=
  security.validateUsername.nameRegex.testWhole name

/-! ## The avatar of the uploader -/

/-- The scan of `String.prototype.split` with a pattern as separator
(ECMAScript `RegExp.prototype[Symbol.split]`, for a pattern without groups):
`seg` is the part collected since the last separator.  At each position the
pattern is tried; a match that consumed input closes the part and the scan
resumes after it; an empty match closes the part only when the part is not empty
and the scan steps over the next character; where the pattern does not match the
character joins the part.  The end of the input closes the last part. -/
def Regex.splitScan (r : Regex) : Nat → List Char → List Char → List (List Char)
  | 0, seg, s => [seg ++ s]
  | _ + 1, seg, [] => [seg]
  | fuel + 1, seg, c :: rest =>
    match r.ends (c :: rest) with
    | t :: _ =>
      if t.length < (c :: rest).length then seg :: Regex.splitScan r fuel [] t
      else if seg.isEmpty then Regex.splitScan r fuel [c] rest
      else seg :: Regex.splitScan r fuel [c] rest
    | [] => Regex.splitScan r fuel (seg ++ [c]) rest

/-- The call `s.split(/r/)`; on the empty string the result is the empty array
when the pattern matches it and the array of the empty string otherwise. -/
def Regex.split (r : Regex) (s : List Char) : List (List Char) :=
  match s with
  | [] => if (r.ends []).isEmpty then [[]] else []
  | _ :: _ => Regex.splitScan r (s.length + 1) [] s

/-- The pattern `/\s+/`. -/
def whiteSpaces : Regex := Regex.plus (.set isWhiteSpace)

/-- The expression `p[0]`: the first UTF-16 code unit of `p`, `undefined` (here
`none`) when `p` is empty.  Of a character beyond U+FFFF the first unit is a
surrogate without its pair, which a `List Char` cannot hold; it is read as
U+FFFD. -/
def firstUnit : List Char → Option Char
  | [] => none
  | c :: _ => some (if c.toNat < 0x10000 then c else Char.ofNat 0xFFFD)

/-- The call `a.join('')` on an array of one-unit strings and `undefined`: an
`undefined` element contributes the empty string. -/
def joinUnits (a : List (Option Char)) : List Char :=
  a.flatMap Option.toList

/-- The expression `name.split(/\s+/).map(p=>p[0]).slice(0,2).join('')` before
`toUpperCase` is applied. -/
def initialUnits (name : List Char) : List Char :=
  joinUnits (((whiteSpaces.split name).map firstUnit).take 2)

/-- What the avatar circle of an uploader holds: an image or a text. -/
inductive Avatar where
  | image (src : String)
  | initials (text : List Char)
  deriving DecidableEq

/-- The constant `uploader` of the avatar expression:
`users.find(u => String(u.email || '').toLowerCase() ===
String(file.uploadedBy || '').toLowerCase())`, with the method `toLowerCase` of the
engine as the parameter `lower`. -/
def uploaderAvatar.uploader (lower : List Char → List Char) (users : List User)
    (file : FileRecord) : Option User :=
  users.find? (fun u => lower u.email.toList == lower (file.uploadedBy.getD "").toList)

/-- The avatar expression of `fetchFiles` (app.js, lines 715-722) and of
`showFileDetails` (lines 892-899), which are the same text.  The methods
`toLowerCase` and `toUpperCase` of the engine are the parameters `lower` and
`upper`. -/
def uploaderAvatar (lower upper : List Char → List Char) (users : List User)
    (file : FileRecord) : Avatar :=
  let uploader := uploaderAvatar.uploader lower users file
  let avatar := (uploader.bind (fun u => u.avatar)).getD ""
  if avatar ≠ "" then .image avatar
  else
    let name := (uploader.map (fun u => u.name)).getD ""
    if name ≠ "" then .initials (upper (initialUnits name.toList))
    else
      let uploadedByName := file.uploadedByName.getD ""
      if uploadedByName ≠ "" then .initials (upper (initialUnits uploadedByName.toList))
      else .initials ['U']

/-- The method `toUpperCase` on ASCII text. -/
def toUpperCaseAscii (s : List Char) : List Char :=
  s.map Char.toUpper

/-! ## Statements of the specification, concluded -/

/-- The scan behind `tokens`; `cur` is the token collected so far. -/
def tokensFrom : List Char → List Char → List (List Char)
  | cur, [] => if cur.isEmpty then [] else [cur]
  | cur, c :: rest =>
    if isWhiteSpace c then
      if cur.isEmpty then tokensFrom [] rest else cur :: tokensFrom [] rest
    else tokensFrom (cur ++ [c]) rest

/-- The white-space-separated tokens of a name: its maximal runs of characters
that are not white space. -/
def tokens (name : List Char) : List (List Char) :=
  tokensFrom [] name

/-- The initials as the specification describes them: the first letters of the
first (up to) two tokens of the name, before upper-casing.  A letter is read as
the program reads a character of a string, by `firstUnit`. -/
def claimedInitials (name : List Char) : List Char :=
  ((tokens name).take 2).filterMap firstUnit

/-- The stored avatar of the uploader of a record, the empty string when there is
no uploader among the users or the uploader has none. -/
def storedAvatar (lower : List Char → List Char) (users : List User)
    (file : FileRecord) : String :=
  match uploaderAvatar.uploader lower users file with
  | some u => u.avatar.getD ""
  | none => ""

/-- The name of the uploader as the specification resolves it for the initials:
the matched user's name, else the `uploadedByName` of the record; the empty string
when neither is available. -/
def claimedAvatarName (lower : List Char → List Char) (users : List User)
    (file : FileRecord) : String :=
  match uploaderAvatar.uploader lower users file with
  | some u => if u.name ≠ "" then u.name else file.uploadedByName.getD ""
  | none => file.uploadedByName.getD ""

/-- The six entities of `security.sanitizeHTML`. -/
def htmlEntities : List (List Char) :=
  ["&amp;".toList, "&lt;".toList, "&gt;".toList, "&quot;".toList, "&#039;".toList,
   "&#x2F;".toList]

/-- Every ampersand of `out` is the first character of one of the six entities:
whatever stands before it, the text from the ampersand on begins with an
entity. -/
def AmpersandsStartEntities (out : List Char) : Prop :=
  ∀ pre post, out = pre ++ '&' :: post → ∃ e ∈ htmlEntities, ∃ rest, '&' :: post = e ++ rest

/-- The characters allowed in a name as the specification lists them: a Latin
letter, a character of U+0600-U+06FF, a space, a hyphen or an apostrophe. -/
def isClaimedNameChar (c : Char) : Bool :=
  ('a' ≤ c && c ≤ 'z') || ('A' ≤ c && c ≤ 'Z') ||
    (Char.ofNat 0x0600 ≤ c && c ≤ Char.ofNat 0x06FF) || c == ' ' || c == '-' || c == Char.ofNat 39

/-- The characters the pattern of `security.validateUsername` allows: those of
`isClaimedNameChar` and every other white-space character of the class `\s`. -/
def isNameChar (c : Char) : Bool :=
  isClaimedNameChar c || isWhiteSpace c

/-! ## The matcher decides the language of a pattern -/

namespace Regex

/-- The quantifier loop lists exactly the ends of the repetitions of its body. -/
theorem mem_iter_iff (a : Regex) (g : Bool) (step : List Char → List (List Char))
    (hstep : ∀ s t, t ∈ step s ↔ ∃ m, a.Matches m ∧ s = m ++ t) :
    ∀ (fuel : Nat) (s t : List Char), s.length ≤ fuel →
      (t ∈ iter step g fuel s ↔ ∃ m, (Regex.star g a).Matches m ∧ s = m ++ t) := by
  intro fuel
  induction fuel with
  | zero =>
    intro s t hs
    have hnil : s = [] := List.length_eq_zero.mp (Nat.le_zero.mp hs)
    subst hnil
    simp only [iter, List.mem_singleton]
    constructor
    · intro h
      subst h
      exact ⟨[], ⟨[], rfl, by simp⟩, rfl⟩
    · rintro ⟨m, _, hm⟩
      have := List.append_eq_nil.mp hm.symm
      exact this.2
  | succ n ih =>
    intro s t hs
    have key : ∀ s : List Char, t ∈ iter step g (n + 1) s ↔
        t = s ∨ ∃ u, (u ∈ step s ∧ u.length < s.length) ∧ t ∈ iter step g n u := by
      intro s
      cases g <;> simp [iter, List.mem_flatMap, or_comm]
    rw [key]
    constructor
    · rintro (h | ⟨u, ⟨hu, hlt⟩, htu⟩)
      · subst h
        exact ⟨[], ⟨[], rfl, by simp⟩, rfl⟩
      · obtain ⟨m1, hm1, hs1⟩ := (hstep s u).mp hu
        obtain ⟨m2, ⟨ms, hms, hall⟩, hs2⟩ := (ih u t (by omega)).mp htu
        refine ⟨m1 ++ m2, ⟨m1 :: ms, by simp [hms], ?_⟩, by simp [hs1, hs2]⟩
        intro x hx
        rcases List.mem_cons.mp hx with h | h
        · subst h; exact hm1
        · exact hall x h
    · rintro ⟨m, ⟨ms, hms, hall⟩, hsm⟩
      subst hms
      clear key
      induction ms with
      | nil => left; simpa using hsm.symm
      | cons x xs ihx =>
        by_cases hx : x = []
        · subst hx
          apply ihx
          · intro y hy; exact hall y (List.mem_cons_of_mem _ hy)
          · simpa using hsm
        · right
          have hpos : 0 < x.length := List.length_pos.mpr hx
          have hlen : s.length = x.length + (xs.flatten.length + t.length) := by
            simp [hsm, Nat.add_assoc]
          refine ⟨xs.flatten ++ t, ⟨(hstep s _).mpr
            ⟨x, hall x (List.mem_cons_self _ _), by simp [hsm]⟩, ?_⟩, ?_⟩
          · simp only [List.length_append]; omega
          · apply (ih _ t _).mpr
            · exact ⟨xs.flatten, ⟨xs, rfl, fun y hy => hall y (List.mem_cons_of_mem _ hy)⟩, rfl⟩
            · simp only [List.length_append]; omega

/-- The matcher is sound and complete for the language of a pattern: `t` is one
of the ends it lists from `s` exactly when `s` is a text of the language followed
by `t`. -/
theorem mem_ends_iff (r : Regex) : ∀ (s t : List Char),
    t ∈ r.ends s ↔ ∃ m, r.Matches m ∧ s = m ++ t := by
  induction r with
  | eps =>
    intro s t
    simp [ends, Matches, eq_comm]
  | set p =>
    intro s t
    cases s with
    | nil =>
      simp only [ends, Matches, List.not_mem_nil, false_iff]
      rintro ⟨m, ⟨c, _, rfl⟩, h⟩
      simp at h
    | cons c s1 =>
      simp only [ends, Matches]
      constructor
      · intro h
        split at h
        · rename_i hp
          simp at h
          subst h
          exact ⟨[c], ⟨c, hp, rfl⟩, rfl⟩
        · simp at h
      · rintro ⟨m, ⟨d, hd, rfl⟩, hs⟩
        simp at hs
        obtain ⟨rfl, rfl⟩ := hs
        simp [hd]
  | seq a b iha ihb =>
    intro s t
    simp only [ends, Matches, List.mem_flatMap]
    constructor
    · rintro ⟨u, hu, ht⟩
      obtain ⟨m1, hm1, rfl⟩ := (iha s u).mp hu
      obtain ⟨m2, hm2, rfl⟩ := (ihb u t).mp ht
      exact ⟨m1 ++ m2, ⟨m1, m2, rfl, hm1, hm2⟩, by simp⟩
    · rintro ⟨m, ⟨m1, m2, rfl, hm1, hm2⟩, rfl⟩
      exact ⟨m2 ++ t, (iha _ _).mpr ⟨m1, hm1, by simp⟩, (ihb _ _).mpr ⟨m2, hm2, rfl⟩⟩
  | star g a iha =>
    intro s t
    simp only [ends]
    exact mem_iter_iff a g _ iha s.length s t (le_refl _)

/-- The method `test` decides whether the pattern occurs in the text. -/
theorem test_iff_occurs (r : Regex) (s : List Char) : r.test s = true ↔ r.Occurs s := by
  simp only [test, List.any_eq_true, List.mem_tails, Occurs]
  constructor
  · rintro ⟨u, ⟨pre, rfl⟩, hu⟩
    have hne : r.ends u ≠ [] := by
      intro h; simp [h] at hu
    obtain ⟨t, ht⟩ := List.exists_mem_of_ne_nil _ hne
    obtain ⟨m, hm, rfl⟩ := (mem_ends_iff r u t).mp ht
    exact ⟨pre, m, t, by simp, hm⟩
  · rintro ⟨pre, m, post, rfl, hm⟩
    refine ⟨m ++ post, ⟨pre, by simp⟩, ?_⟩
    have : post ∈ r.ends (m ++ post) := (mem_ends_iff r _ _).mpr ⟨m, hm, rfl⟩
    cases h : r.ends (m ++ post) with
    | nil => rw [h] at this; simp at this
    | cons => simp

end Regex

/-! ## The bounds of the matcher's loops -/

namespace Regex

/-- The iteration bound of the quantifier loop is never what stops it: any bound
of at least the length of the input gives the same result. -/
theorem iter_bound_irrelevant (step : List Char → List (List Char)) (g : Bool) :
    ∀ (n1 n2 : Nat) (s : List Char), s.length ≤ n1 → s.length ≤ n2 →
      iter step g n1 s = iter step g n2 s := by
  have hzero : ∀ (n : Nat), iter step g n [] = [[]] := by
    intro n
    cases n with
    | zero => rfl
    | succ n => cases g <;> simp [iter]
  intro n1
  induction n1 with
  | zero =>
    intro n2 s h1 _
    have hs : s = [] := List.length_eq_zero.mp (Nat.le_zero.mp h1)
    subst hs
    rw [hzero, hzero]
  | succ n ih =>
    intro n2 s h1 h2
    cases n2 with
    | zero =>
      have hs : s = [] := List.length_eq_zero.mp (Nat.le_zero.mp h2)
      subst hs
      rw [hzero, hzero]
    | succ k =>
      have hmore : ((step s).filter (fun t => decide (t.length < s.length))).flatMap
            (iter step g n) =
          ((step s).filter (fun t => decide (t.length < s.length))).flatMap
            (iter step g k) := by
        apply List.flatMap_congr
        intro t ht
        have hlt : t.length < s.length := by
          have := (List.mem_filter.mp ht).2
          simpa using this
        exact ih k t (by omega) (by omega)
      simp only [iter, hmore]

/-- The scan bound of `replaceScan` is never what stops it: any bound above the
length of the input gives the result of `replaceAll`. -/
theorem replaceScan_bound_irrelevant (r : Regex) (f : List Char → List Char) :
    ∀ (n1 n2 : Nat) (s : List Char), s.length < n1 → s.length < n2 →
      replaceScan r f n1 s = replaceScan r f n2 s := by
  intro n1
  induction n1 with
  | zero => intro n2 s h1 _; omega
  | succ n ih =>
    intro n2 s h1 h2
    cases n2 with
    | zero => omega
    | succ k =>
      have htail : ∀ (c : Char) (s1 : List Char), s = c :: s1 →
          replaceScan r f n s1 = replaceScan r f k s1 := by
        intro c s1 hs
        subst hs
        simp only [List.length_cons] at h1 h2
        exact ih k s1 (by omega) (by omega)
      simp only [replaceScan]
      cases hends : r.ends s with
      | nil =>
        cases s with
        | nil => rfl
        | cons c s1 => simp only [htail c s1 rfl]
      | cons t rest =>
        simp only
        by_cases hlt : t.length < s.length
        · simp only [hlt, if_true]
          rw [ih k t (by omega) (by omega)]
        · simp only [hlt, if_false]
          cases s with
          | nil => rfl
          | cons c s1 => simp only [htail c s1 rfl]

end Regex

/-! ## The patterns of the detector -/

/-- A pattern character that is not a letter matches only itself under the `i`
flag. -/
theorem toUpper_eq_iff (x c : Char) (hu : ¬ (65 ≤ c.toNat ∧ c.toNat ≤ 90))
    (hl : ¬ (97 ≤ c.toNat ∧ c.toNat ≤ 122)) : x.toUpper = c.toUpper ↔ x = c := by
  have hc : c.toUpper = c := by
    unfold Char.toUpper
    simp only [ge_iff_le]
    rw [if_neg hl]
  rw [hc]
  constructor
  · intro h
    unfold Char.toUpper at h
    simp only at h
    split at h
    · rename_i hx
      exfalso
      apply hu
      rw [← h]
      obtain ⟨h1, h2⟩ := hx
      generalize x.toNat = n at h1 h2
      interval_cases n <;> decide
    · exact h
  · intro h
    rw [h, hc]

namespace Regex

theorem matches_chrI (c : Char) (m : List Char) :
    (chrI c).Matches m ↔ ∃ x, x.toUpper = c.toUpper ∧ m = [x] := by
  simp [chrI, Matches]

theorem matches_litI (p m : List Char) : (litI p).Matches m ↔ EqIgnoringCase m p := by
  induction p generalizing m with
  | nil => simp [litI, Matches, EqIgnoringCase]
  | cons c cs ih =>
    cases cs with
    | nil =>
      simp only [litI, matches_chrI, EqIgnoringCase, List.map_cons, List.map_nil]
      constructor
      · rintro ⟨x, hx, rfl⟩
        simp [hx]
      · intro h
        cases m with
        | nil => simp at h
        | cons x v =>
          cases v with
          | nil =>
            simp at h
            exact ⟨x, h, rfl⟩
          | cons y v2 => simp at h
    | cons c2 cs2 =>
      simp only [litI, Matches]
      constructor
      · rintro ⟨u, v, rfl, hu, hv⟩
        obtain ⟨x, hx, rfl⟩ := (matches_chrI c u).mp hu
        have := (ih v).mp hv
        simp only [EqIgnoringCase] at this ⊢
        simp [hx, this]
      · intro h
        simp only [EqIgnoringCase] at h
        cases m with
        | nil => simp at h
        | cons x v =>
          simp only [List.map_cons, List.cons.injEq] at h
          refine ⟨[x], v, rfl, (matches_chrI c [x]).mpr ⟨x, h.1, rfl⟩, (ih v).mpr ?_⟩
          simp only [EqIgnoringCase, List.map_cons]
          exact h.2

theorem matches_star_set (g : Bool) (p : Char → Bool) (m : List Char) :
    (Regex.star g (.set p)).Matches m ↔ ∀ c ∈ m, p c = true := by
  simp only [Matches]
  constructor
  · rintro ⟨ms, rfl, hall⟩ c hc
    obtain ⟨x, hx, hcx⟩ := List.mem_flatten.mp hc
    obtain ⟨d, hd, rfl⟩ := hall x hx
    simp at hcx
    subst hcx
    exact hd
  · intro h
    refine ⟨m.map (fun c => [c]), ?_, ?_⟩
    · induction m with
      | nil => rfl
      | cons c t ih =>
        simp only [List.map_cons, List.flatten_cons, List.singleton_append, List.cons.injEq,
          true_and]
        exact ih (fun d hd => h d (List.mem_cons_of_mem _ hd))
    · intro x hx
      obtain ⟨c, hc, rfl⟩ := List.mem_map.mp hx
      exact ⟨c, h c hc, rfl⟩

theorem matches_plus_set (p : Char → Bool) (m : List Char) :
    (plus (.set p)).Matches m ↔ m ≠ [] ∧ ∀ c ∈ m, p c = true := by
  unfold plus
  show (∃ u v, m = u ++ v ∧ (Regex.set p).Matches u ∧ (Regex.star true (.set p)).Matches v) ↔ _
  constructor
  · rintro ⟨u, v, rfl, ⟨c, hc, rfl⟩, hv⟩
    rw [matches_star_set] at hv
    refine ⟨by simp, ?_⟩
    intro d hd
    rcases List.mem_append.mp hd with h | h
    · simp at h; subst h; exact hc
    · exact hv d h
  · rintro ⟨hne, hall⟩
    cases m with
    | nil => exact absurd rfl hne
    | cons c t =>
      refine ⟨[c], t, rfl, ⟨c, hall c (List.mem_cons_self _ _), rfl⟩, ?_⟩
      rw [matches_star_set]
      exact fun d hd => hall d (List.mem_cons_of_mem _ hd)

theorem occurs_litI (p s : List Char) : (litI p).Occurs s ↔ ContainsIgnoringCase p s := by
  simp only [Occurs, ContainsIgnoringCase, matches_litI]

end Regex

theorem occurs_spacedCall (kw s : List Char) :
    (Regex.cat [Regex.litI kw, .star true (.set isWhiteSpace), Regex.chrI '(']).Occurs s ↔
      ContainsSpacedCall kw s := by
  have hp : ∀ x : Char, x.toUpper = '('.toUpper ↔ x = '(' :=
    fun x => toUpper_eq_iff x '(' (by decide) (by decide)
  simp only [Regex.Occurs, ContainsSpacedCall, Regex.cat]
  constructor
  · rintro ⟨pre, m, post, rfl, u, v, rfl, hu, v1, v2, rfl, hv1, hv2⟩
    rw [Regex.matches_litI] at hu
    rw [Regex.matches_star_set] at hv1
    obtain ⟨x, hx, rfl⟩ := (Regex.matches_chrI _ _).mp hv2
    rw [hp] at hx
    subst hx
    exact ⟨pre, u, v1, post, by simp, hu, hv1⟩
  · rintro ⟨pre, m, sp, post, rfl, hm, hsp⟩
    refine ⟨pre, m ++ (sp ++ ['(']), post, by simp, m, sp ++ ['('], rfl,
      (Regex.matches_litI _ _).mpr hm, sp, ['('], rfl,
      (Regex.matches_star_set _ _ _).mpr hsp, (Regex.matches_chrI _ _).mpr ⟨'(', rfl, rfl⟩⟩

theorem occurs_spacedHandler (s : List Char) :
    (Regex.cat [Regex.litI "on".toList, Regex.plus (.set isWordChar),
      .star true (.set isWhiteSpace), Regex.chrI '=']).Occurs s ↔ ContainsSpacedHandler s := by
  have hp : ∀ x : Char, x.toUpper = '='.toUpper ↔ x = '=' :=
    fun x => toUpper_eq_iff x '=' (by decide) (by decide)
  simp only [Regex.Occurs, ContainsSpacedHandler, Regex.cat]
  constructor
  · rintro ⟨pre, m, post, rfl, u, v, rfl, hu, w, v1, rfl, hw, sp, v2, rfl, hsp, hv2⟩
    rw [Regex.matches_litI] at hu
    rw [Regex.matches_plus_set] at hw
    rw [Regex.matches_star_set] at hsp
    obtain ⟨x, hx, rfl⟩ := (Regex.matches_chrI _ _).mp hv2
    rw [hp] at hx
    subst hx
    exact ⟨pre, u, w, sp, post, by simp, hu, hw.1, hw.2, hsp⟩
  · rintro ⟨pre, m, w, sp, post, rfl, hm, hne, hw, hsp⟩
    refine ⟨pre, m ++ (w ++ (sp ++ ['='])), post, by simp, m, w ++ (sp ++ ['=']), rfl,
      (Regex.matches_litI _ _).mpr hm, w, sp ++ ['='], rfl,
      (Regex.matches_plus_set _ _).mpr ⟨hne, hw⟩, sp, ['='], rfl,
      (Regex.matches_star_set _ _ _).mpr hsp, (Regex.matches_chrI _ _).mpr ⟨'=', rfl, rfl⟩⟩

theorem occurs_handler (s : List Char) :
    (Regex.cat [Regex.litI "on".toList, Regex.plus (.set isWordChar),
      Regex.chrI '=']).Occurs s ↔ ContainsHandler s := by
  have hp : ∀ x : Char, x.toUpper = '='.toUpper ↔ x = '=' :=
    fun x => toUpper_eq_iff x '=' (by decide) (by decide)
  simp only [Regex.Occurs, ContainsHandler, Regex.cat]
  constructor
  · rintro ⟨pre, m, post, rfl, u, v, rfl, hu, w, v2, rfl, hw, hv2⟩
    rw [Regex.matches_litI] at hu
    rw [Regex.matches_plus_set] at hw
    obtain ⟨x, hx, rfl⟩ := (Regex.matches_chrI _ _).mp hv2
    rw [hp] at hx
    subst hx
    exact ⟨pre, u, w, post, by simp, hu, hw.1, hw.2⟩
  · rintro ⟨pre, m, w, post, rfl, hm, hne, hw⟩
    refine ⟨pre, m ++ (w ++ ['=']), post, by simp, m, w ++ ['='], rfl,
      (Regex.matches_litI _ _).mpr hm, w, ['='], rfl,
      (Regex.matches_plus_set _ _).mpr ⟨hne, hw⟩, (Regex.matches_chrI _ _).mpr ⟨'=', rfl, rfl⟩⟩

theorem hasXSSPatterns_iff_sourceXss (s : List Char) :
    security.hasXSSPatterns s = true ↔ SourceXss s := by
  simp only [security.hasXSSPatterns, security.hasXSSPatterns.xssPatterns, List.any_cons,
    List.any_nil, Bool.or_false, Bool.or_eq_true, Regex.test_iff_occurs, Regex.occurs_litI,
    occurs_spacedCall, occurs_spacedHandler, SourceXss]

theorem claimedXss_iff (s : List Char) :
    ClaimedXss s ↔ claimedXssPatterns.any (fun r => r.test s) = true := by
  simp only [claimedXssPatterns, List.any_cons,
    List.any_nil, Bool.or_false, Bool.or_eq_true, Regex.test_iff_occurs, Regex.occurs_litI,
    occurs_handler, ClaimedXss]

theorem hasXSSPatterns_counterexample :
    security.hasXSSPatterns "eval (".toList = true ∧ ¬ ClaimedXss "eval (".toList := by
  refine ⟨by decide, ?_⟩
  rw [claimedXss_iff]
  decide

/-! ## `security.sanitizeHTML` -/

theorem Regex.replaceScan_set (p : Char → Bool) (f : List Char → List Char) :
    ∀ (fuel : Nat) (s : List Char), s.length < fuel →
      Regex.replaceScan (.set p) f fuel s = s.flatMap (fun c => if p c then f [c] else [c]) := by
  intro fuel
  induction fuel with
  | zero => intro s hs; omega
  | succ n ih =>
    intro s hs
    cases s with
    | nil => simp [Regex.replaceScan, Regex.ends]
    | cons c t =>
      have ht : t.length < n := by simpa using hs
      by_cases hp : p c = true
      · simp [Regex.replaceScan, Regex.ends, hp, ih t ht]
      · simp [Regex.replaceScan, Regex.ends, hp, ih t ht]

theorem sanitizeHTML_replacer_eq (c : Char) :
    (if isHtmlSpecial c then security.sanitizeHTML.replacer [c] else [c]) = htmlEntity c := by
  unfold isHtmlSpecial htmlEntity security.sanitizeHTML.replacer security.sanitizeHTML.map
  by_cases h1 : c = '&'
  · subst h1; decide
  by_cases h2 : c = '<'
  · subst h2; decide
  by_cases h3 : c = '>'
  · subst h3; decide
  by_cases h4 : c = Char.ofNat 34
  · subst h4; decide
  by_cases h5 : c = Char.ofNat 39
  · subst h5; decide
  by_cases h6 : c = '/'
  · subst h6; decide
  simp [h1, h2, h3, h4, h5, h6]

theorem flatMap_htmlEntity (s : List Char) :
    s.flatMap htmlEntity = escapeLeftToRight s := by
  induction s with
  | nil => rfl
  | cons c t ih => simp [List.flatMap_cons, escapeLeftToRight, ih]

/-- On a string, `security.sanitizeHTML` is the per-character escaping. -/
theorem sanitizeHTML_str (s : List Char) :
    security.sanitizeHTML (.str s) = escapeLeftToRight s := by
  cases s with
  | nil => simp [security.sanitizeHTML, JsValue.truthy, escapeLeftToRight]
  | cons c t =>
    have hpat : security.sanitizeHTML.pattern = .set isHtmlSpecial := rfl
    simp only [security.sanitizeHTML, JsValue.truthy, JsValue.toJsString, Regex.replaceAll,
      hpat, List.isEmpty_cons, Bool.not_false, Bool.not_true, Bool.false_eq_true, if_false]
    rw [Regex.replaceScan_set _ _ _ _ (Nat.lt_succ_self _)]
    simp only [sanitizeHTML_replacer_eq]
    exact flatMap_htmlEntity _

/-- Claim C4: for every string `s`, `security.sanitizeHTML(s)` is `s` with each of the
six characters replaced, left to right, by its entity and every other character
unchanged; and for every falsy input (here `undefined`, `null`, `false` and the
empty string) the result is the empty string. -/
theorem sanitizeHTML_escapes_left_to_right :
    (∀ s : List Char, security.sanitizeHTML (.str s) = escapeLeftToRight s) ∧
    (∀ v : JsValue, security.sanitizeHTML v =
      if v.truthy then escapeLeftToRight v.toJsString else []) := by
  refine ⟨sanitizeHTML_str, ?_⟩
  intro v
  cases v with
  | undefined => rfl
  | null => rfl
  | bool b => cases b <;> decide
  | str s =>
    rw [sanitizeHTML_str]
    cases s with
    | nil => rfl
    | cons c t => simp [JsValue.truthy, JsValue.toJsString]

theorem htmlEntity_cases (c : Char) :
    (isHtmlSpecial c = false ∧ htmlEntity c = [c]) ∨
    (isHtmlSpecial c = true ∧ ∃ e, htmlEntity c = '&' :: e ∧ e ≠ [] ∧ '<' ∉ htmlEntity c) := by
  unfold isHtmlSpecial htmlEntity
  by_cases h1 : c = '&'
  · subst h1; right; exact ⟨by decide, _, rfl, by decide, by decide⟩
  by_cases h2 : c = '<'
  · subst h2; right; exact ⟨by decide, _, rfl, by decide, by decide⟩
  by_cases h3 : c = '>'
  · subst h3; right; exact ⟨by decide, _, rfl, by decide, by decide⟩
  by_cases h4 : c = Char.ofNat 34
  · subst h4; right; exact ⟨by decide, _, rfl, by decide, by decide⟩
  by_cases h5 : c = Char.ofNat 39
  · subst h5; right; exact ⟨by decide, _, rfl, by decide, by decide⟩
  by_cases h6 : c = '/'
  · subst h6; right; exact ⟨by decide, _, rfl, by decide, by decide⟩
  left
  simp [h1, h2, h3, h4, h5, h6]

theorem length_le_escape (s : List Char) : s.length ≤ (escapeLeftToRight s).length := by
  induction s with
  | nil => simp [escapeLeftToRight]
  | cons c t ih =>
    simp only [escapeLeftToRight, List.length_append, List.length_cons]
    rcases htmlEntity_cases c with ⟨_, h⟩ | ⟨_, e, h, _, _⟩
    · rw [h]; simp; omega
    · rw [h]; simp; omega

theorem length_lt_escape_of_amp (s : List Char) (h : '&' ∈ s) :
    s.length < (escapeLeftToRight s).length := by
  induction s with
  | nil => simp at h
  | cons c t ih =>
    simp only [escapeLeftToRight, List.length_append, List.length_cons]
    rcases List.mem_cons.mp h with hc | ht
    · subst hc
      have := length_le_escape t
      have h5 : (htmlEntity '&').length = 5 := by decide
      omega
    · have := ih ht
      rcases htmlEntity_cases c with ⟨_, h⟩ | ⟨_, e, h, _, _⟩
      · rw [h]; simp; omega
      · rw [h]; simp; omega

theorem escape_eq_self (s : List Char) (h : ∀ c ∈ s, isHtmlSpecial c = false) :
    escapeLeftToRight s = s := by
  induction s with
  | nil => rfl
  | cons c t ih =>
    simp only [escapeLeftToRight]
    rcases htmlEntity_cases c with ⟨_, hc⟩ | ⟨hc, _⟩
    · rw [hc, ih (fun d hd => h d (List.mem_cons_of_mem _ hd))]; rfl
    · rw [h c (List.mem_cons_self _ _)] at hc; exact absurd hc (by decide)

theorem amp_mem_escape (s : List Char) (c : Char) (hc : c ∈ s) (hs : isHtmlSpecial c = true) :
    '&' ∈ escapeLeftToRight s := by
  induction s with
  | nil => simp at hc
  | cons d t ih =>
    simp only [escapeLeftToRight, List.mem_append]
    rcases List.mem_cons.mp hc with h | h
    · subst h
      left
      rcases htmlEntity_cases c with ⟨h0, _⟩ | ⟨_, e, he, _, _⟩
      · rw [hs] at h0; exact absurd h0 (by decide)
      · rw [he]; exact List.mem_cons_self _ _
    · right; exact ih h

theorem lt_not_mem_escape (s : List Char) : '<' ∉ escapeLeftToRight s := by
  induction s with
  | nil => simp [escapeLeftToRight]
  | cons c t ih =>
    simp only [escapeLeftToRight, List.mem_append, not_or]
    refine ⟨?_, ih⟩
    rcases htmlEntity_cases c with ⟨h0, h⟩ | ⟨_, e, _, _, h⟩
    · rw [h]
      intro hmem
      simp at hmem
      subst hmem
      exact absurd h0 (by decide)
    · exact h

/-- Claim C5, as stated, fails: escaping the already-escaped ampersand escapes
it again. -/
theorem sanitizeHTML_not_idempotent :
    security.sanitizeHTML (.str (security.sanitizeHTML (.str "&".toList))) ≠
      security.sanitizeHTML (.str "&".toList) := by
  decide

/-- Claim C5, amended: `sanitizeHTML(sanitizeHTML(s)) = sanitizeHTML(s)` holds
exactly for the strings `s` that contain none of the six escaped characters, and
for those `sanitizeHTML(s) = s`. -/
theorem sanitizeHTML_idempotent_iff (s : List Char) :
    (security.sanitizeHTML (.str (security.sanitizeHTML (.str s))) =
        security.sanitizeHTML (.str s) ↔ ∀ c ∈ s, isHtmlSpecial c = false) ∧
    ((∀ c ∈ s, isHtmlSpecial c = false) ↔ security.sanitizeHTML (.str s) = s) := by
  simp only [sanitizeHTML_str]
  have hself : (∀ c ∈ s, isHtmlSpecial c = false) → escapeLeftToRight s = s :=
    escape_eq_self s
  have hamp : (¬ ∀ c ∈ s, isHtmlSpecial c = false) → '&' ∈ escapeLeftToRight s := by
    intro h
    push_neg at h
    obtain ⟨c, hc, hsp⟩ := h
    exact amp_mem_escape s c hc (by simpa using hsp)
  constructor
  · constructor
    · intro h
      by_contra hne
      have := length_lt_escape_of_amp _ (hamp hne)
      rw [h] at this
      exact lt_irrefl _ this
    · intro h
      rw [hself h, hself h]
  · constructor
    · exact hself
    · intro h
      by_contra hne
      have h1 := length_lt_escape_of_amp _ (hamp hne)
      rw [h] at h1
      have h2 : '&' ∈ s := by rw [← h]; exact hamp hne
      have h3 := length_lt_escape_of_amp s h2
      rw [h] at h3
      exact lt_irrefl _ h3

/-! ## `security.sanitizeInput` -/

theorem lt_not_mem_sanitizeInput (v : JsValue) : '<' ∉ security.sanitizeInput v := by
  unfold security.sanitizeInput
  split
  · simp
  · simp only [sanitizeHTML_str]
    exact lt_not_mem_escape _

/-- Claim C6: for every input `s` (so also every one that contains
`<script>alert(1)</script>`), the result of `security.sanitizeInput(s)` has no part
equal, ignoring case, to `<script`; the test `/<script/i` fails on it. -/
theorem sanitizeInput_no_script_tag (v : JsValue) :
    ¬ ContainsIgnoringCase "<script".toList (security.sanitizeInput v) ∧
    (Regex.litI "<script".toList).test (security.sanitizeInput v) = false := by
  have hno : ¬ ContainsIgnoringCase "<script".toList (security.sanitizeInput v) := by
    rintro ⟨pre, m, post, hs, hm⟩
    have hlt := lt_not_mem_sanitizeInput v
    rw [hs] at hlt
    apply hlt
    cases m with
    | nil => simp [EqIgnoringCase] at hm
    | cons x t =>
      simp only [EqIgnoringCase, List.map_cons] at hm
      have hx : x.toUpper = '<'.toUpper := by
        have := List.head_eq_of_cons_eq hm
        simpa using this
      rw [toUpper_eq_iff x '<' (by decide) (by decide)] at hx
      subst hx
      simp
  refine ⟨hno, ?_⟩
  cases h : (Regex.litI "<script".toList).test (security.sanitizeInput v) with
  | false => rfl
  | true =>
    exact absurd ((Regex.occurs_litI _ _).mp ((Regex.test_iff_occurs _ _).mp h)) hno

/-- Claim C7 fails on the code: each pattern is stripped in one pass, so an
occurrence split around another one is re-formed by the removal.  From
`javajavascript:script:` the result is `javascript:`, from `eveval(al(` it is
`eval(`, from `oonx=nclick=` it is `onclick=`, and from `exprexpression(ession(` it is
`expression(`; the stripped patterns still match these results. -/
theorem sanitizeInput_reexposes_patterns :
    security.sanitizeInput (.str "javajavascript:script:".toList) = "javascript:".toList ∧
    security.sanitizeInput.javascriptUri.test
      (security.sanitizeInput (.str "javajavascript:script:".toList)) = true ∧
    security.sanitizeInput (.str "eveval(al(".toList) = "eval(".toList ∧
    security.sanitizeInput.evalCall.test
      (security.sanitizeInput (.str "eveval(al(".toList)) = true ∧
    security.sanitizeInput (.str "oonx=nclick=".toList) = "onclick=".toList ∧
    security.sanitizeInput.eventHandler.test
      (security.sanitizeInput (.str "oonx=nclick=".toList)) = true ∧
    security.sanitizeInput (.str "exprexpression(ession(".toList) = "expression(".toList ∧
    security.sanitizeInput.expressionCall.test
      (security.sanitizeInput (.str "exprexpression(ession(".toList)) = true := by
  refine ⟨?_, ?_, ?_, ?_, ?_, ?_, ?_, ?_⟩ <;> decide

/-! ## `security.checkRateLimit` -/

/-- The three ways a call of `security.checkRateLimit` ends: it raises, it
refuses and stores the pruned attempts, or it grants and records the time. -/
theorem checkRateLimit_cases (map : RateLimitMap) (now : Int) (key : String) (m w : Int) :
    (map key = none ∧ key ∈ objectPrototypeKeys ∧
      security.checkRateLimit map now key m w = ⟨none, map⟩) ∨
    (¬ (map key = none ∧ key ∈ objectPrototypeKeys) ∧
      m ≤ ((recentAttempts map now key w).length : Int) ∧
      security.checkRateLimit map now key m w =
        ⟨some false, map.set key (recentAttempts map now key w)⟩) ∨
    (¬ (map key = none ∧ key ∈ objectPrototypeKeys) ∧
      ((recentAttempts map now key w).length : Int) < m ∧
      security.checkRateLimit map now key m w =
        ⟨some true, map.set key (recentAttempts map now key w ++ [now])⟩) := by
  unfold security.checkRateLimit recentAttempts
  cases hk : map key with
  | none =>
    by_cases hp : key ∈ objectPrototypeKeys
    · left; simp [hp]
    · right
      by_cases hm : m ≤ 0
      · left; simp [hp, hm]
      · right; simp [hp, hm]; omega
  | some l =>
    right
    by_cases hm : m ≤ ((l.filter (fun t => decide (now - t < w))).length : Int)
    · left; simp [hm]
    · right; simp [hm]; omega

theorem checkRateLimit_map_other (map : RateLimitMap) (now : Int) (key k : String) (m w : Int)
    (h : key ≠ k) : (security.checkRateLimit map now key m w).map k = map k := by
  have hk : k ≠ key := fun e => h e.symm
  rcases checkRateLimit_cases map now key m w with ⟨_, _, e⟩ | ⟨_, _, e⟩ | ⟨_, _, e⟩ <;>
    simp [e, RateLimitMap.set, hk]

theorem recentAttempts_set (map : RateLimitMap) (k : String) (v : List Int) (now w : Int) :
    recentAttempts (map.set k v) now k w = v.filter (fun t => decide (now - t < w)) := by
  simp [recentAttempts, RateLimitMap.set]

theorem filter_window_mono (l : List Int) (n1 n2 w : Int) (h : n1 ≤ n2) :
    (l.filter (fun t => decide (n1 - t < w))).filter (fun t => decide (n2 - t < w)) =
      l.filter (fun t => decide (n2 - t < w)) := by
  rw [List.filter_filter]
  apply List.filter_congr
  intro t _
  by_cases h2 : n2 - t < w
  · have h1 : n1 - t < w := by omega
    simp [h1, h2]
  · simp [h2]

/-- The invariant behind the window bound: when the attempts stored for `k`,
pruned at the time of any coming call, are the granted times `T0` so far pruned
likewise, and no window holds more than `m` of `T0`, then no window holds more
than `m` of `T0` and the calls granted from here on together. -/
theorem rateLimit_window_aux (k : String) (m w : Int) :
    ∀ (calls : List RateLimitCall) (map : RateLimitMap) (T0 : List Int),
      calls.Pairwise (fun c d => c.now ≤ d.now) →
      (∀ c ∈ calls, c.key = k → c.maxAttempts = m ∧ c.windowMs = w) →
      (∀ c ∈ calls, recentAttempts map c.now k w = T0.filter (fun t => decide (c.now - t < w))) →
      (∀ a : Int, (T0.countP (fun t => decide (a ≤ t) && decide (t < a + w)) : Int) ≤ m) →
      ∀ a : Int, ((T0.countP (fun t => decide (a ≤ t) && decide (t < a + w)) : Int) +
        (grantedWithin k a w (calls.zip (runRateLimit map calls)) : Int)) ≤ m := by
  intro calls
  induction calls with
  | nil =>
    intro map T0 _ _ _ h3 a
    simpa [runRateLimit, grantedWithin] using h3 a
  | cons c cs ih =>
    intro map T0 hsort hpar h1 h3 a
    have hsort' := (List.pairwise_cons.mp hsort).2
    have hle : ∀ d ∈ cs, c.now ≤ d.now := (List.pairwise_cons.mp hsort).1
    have hpar' : ∀ d ∈ cs, d.key = k → d.maxAttempts = m ∧ d.windowMs = w :=
      fun d hd => hpar d (List.mem_cons_of_mem _ hd)
    have hkept := h1 c (List.mem_cons_self _ _)
    have hhead : ∀ r : Option Bool, grantedWithin k a w
        ((c :: cs).zip (r :: runRateLimit
          (security.checkRateLimit map c.now c.key c.maxAttempts c.windowMs).map cs)) =
        grantedWithin k a w (cs.zip (runRateLimit
          (security.checkRateLimit map c.now c.key c.maxAttempts c.windowMs).map cs)) +
        (if c.key = k ∧ r = some true ∧ a ≤ c.now ∧ c.now < a + w then 1 else 0) := by
      intro r
      simp only [grantedWithin, List.zip_cons_cons, List.countP_cons, Bool.and_eq_true,
        decide_eq_true_eq, and_assoc]
    show _ + ((grantedWithin k a w ((c :: cs).zip
      ((security.checkRateLimit map c.now c.key c.maxAttempts c.windowMs).returned ::
        runRateLimit (security.checkRateLimit map c.now c.key c.maxAttempts c.windowMs).map
          cs)) : Nat) : Int) ≤ m
    rw [hhead]
    by_cases hck : c.key = k
    · obtain ⟨hcm, hcw⟩ := hpar c (List.mem_cons_self _ _) hck
      rw [hck, hcm, hcw]
      rcases checkRateLimit_cases map c.now k m w with
        ⟨_, _, e⟩ | ⟨_, hfull, e⟩ | ⟨_, hroom, e⟩
      · -- the call raised: nothing changes
        have := ih map T0 hsort' hpar' (fun d hd => h1 d (List.mem_cons_of_mem _ hd)) h3 a
        rw [e]
        simpa using this
      · -- refused: the pruned list is stored
        have h1' : ∀ d ∈ cs, recentAttempts (map.set k (recentAttempts map c.now k w)) d.now k w =
            T0.filter (fun t => decide (d.now - t < w)) := by
          intro d hd
          rw [recentAttempts_set, hkept, filter_window_mono _ _ _ _ (hle d hd)]
        have := ih _ T0 hsort' hpar' h1' h3 a
        rw [e]
        simpa using this
      · -- granted: the time of the call is recorded
        have h1' : ∀ d ∈ cs,
            recentAttempts (map.set k (recentAttempts map c.now k w ++ [c.now])) d.now k w =
            (T0 ++ [c.now]).filter (fun t => decide (d.now - t < w)) := by
          intro d hd
          rw [recentAttempts_set, hkept, List.filter_append, List.filter_append,
            filter_window_mono _ _ _ _ (hle d hd)]
        have hlen : (recentAttempts map c.now k w).length =
            T0.countP (fun t => decide (c.now - t < w)) := by
          rw [hkept, List.countP_eq_length_filter]
        rw [hlen] at hroom
        have h3' : ∀ b : Int, (((T0 ++ [c.now]).countP
            (fun t => decide (b ≤ t) && decide (t < b + w)) : Nat) : Int) ≤ m := by
          intro b
          rw [List.countP_append]
          by_cases hin : b ≤ c.now ∧ c.now < b + w
          · have hmono : T0.countP (fun t => decide (b ≤ t) && decide (t < b + w)) ≤
                T0.countP (fun t => decide (c.now - t < w)) := by
              apply List.countP_mono_left
              intro t _ ht
              simp only [Bool.and_eq_true, decide_eq_true_eq] at ht ⊢
              omega
            have hone : [c.now].countP (fun t => decide (b ≤ t) && decide (t < b + w)) = 1 := by
              simp [List.countP_cons, hin.1, hin.2]
            rw [hone]
            push_cast
            omega
          · have hzero : [c.now].countP (fun t => decide (b ≤ t) && decide (t < b + w)) = 0 := by
              simp only [List.countP_cons, List.countP_nil]
              simp only [not_and_or, not_le, not_lt] at hin
              rcases hin with h | h
              · have : ¬ b ≤ c.now := by omega
                simp [this]
              · have : ¬ c.now < b + w := by omega
                simp [this]
            rw [hzero]
            simpa using h3 b
        have := ih _ (T0 ++ [c.now]) hsort' hpar' h1' h3' a
        rw [List.countP_append] at this
        rw [e]
        by_cases hin : a ≤ c.now ∧ c.now < a + w
        · have hone : [c.now].countP (fun t => decide (a ≤ t) && decide (t < a + w)) = 1 := by
            simp [List.countP_cons, hin.1, hin.2]
          rw [hone] at this
          simp only [true_and, hin, and_self, if_true]
          push_cast at this ⊢
          omega
        · have hif : ¬ (k = k ∧ some true = some true ∧ a ≤ c.now ∧ c.now < a + w) :=
            fun h => hin h.2.2
          rw [if_neg hif]
          have hmono : (0 : Int) ≤ ([c.now].countP
              (fun t => decide (a ≤ t) && decide (t < a + w)) : Nat) := Int.natCast_nonneg _
          push_cast at this ⊢
          omega
    · -- a call for another key leaves the entry of `k` as it is
      have hmap := checkRateLimit_map_other map c.now c.key k c.maxAttempts c.windowMs hck
      have h1' : ∀ d ∈ cs,
          recentAttempts (security.checkRateLimit map c.now c.key c.maxAttempts c.windowMs).map
            d.now k w = T0.filter (fun t => decide (d.now - t < w)) := by
        intro d hd
        have := h1 d (List.mem_cons_of_mem _ hd)
        simpa [recentAttempts, hmap] using this
      have := ih _ T0 hsort' hpar' h1' h3 a
      have hif : ¬ (c.key = k ∧ (security.checkRateLimit map c.now c.key c.maxAttempts
          c.windowMs).returned = some true ∧ a ≤ c.now ∧ c.now < a + w) := fun h => hck h.1
      rw [if_neg hif]
      simpa using this

/-- Claim C9: starting from the empty `rateLimitMap`, for calls made at
non-decreasing times (calls for other keys interleaved at will) in which every call
for the key `k` passes the same limit `maxAttempts ≥ 0` and the same `windowMs`, the
number of calls for `k` that return `true` at a time in a half-open interval of
length `windowMs` is at most `maxAttempts`.  The bound needs no assumption on the
sign of `windowMs`. -/
theorem rateLimit_window_bound (calls : List RateLimitCall) (k : String)
    (maxAttempts windowMs : Int) (hmax : 0 ≤ maxAttempts)
    (htimes : calls.Pairwise (fun c d => c.now ≤ d.now))
    (hparams : ∀ c ∈ calls, c.key = k → c.maxAttempts = maxAttempts ∧ c.windowMs = windowMs)
    (a : Int) :
    (grantedWithin k a windowMs (calls.zip (runRateLimit RateLimitMap.empty calls)) : Int) ≤
      maxAttempts := by
  have h := rateLimit_window_aux k maxAttempts windowMs calls RateLimitMap.empty [] htimes
    hparams (fun c _ => rfl) (fun b => by simpa using hmax) a
  simpa using h

/-- Claim C9 on five calls for the key `k` with limit 2 and a window of 1000 ms,
interleaved with a call for another key: at most 2 of them are granted in the
interval from 0 to 1000. -/
theorem rateLimit_window_bound_witness :
    (0 : Int) ≤ 2 ∧
    ([⟨0, "k", 2, 1000⟩, ⟨1, "other", 1, 10⟩, ⟨1, "k", 2, 1000⟩, ⟨2, "k", 2, 1000⟩,
      ⟨999, "k", 2, 1000⟩, ⟨1000, "k", 2, 1000⟩] : List RateLimitCall).Pairwise
        (fun c d => c.now ≤ d.now) ∧
    (grantedWithin "k" 0 1000
      (([⟨0, "k", 2, 1000⟩, ⟨1, "other", 1, 10⟩, ⟨1, "k", 2, 1000⟩, ⟨2, "k", 2, 1000⟩,
        ⟨999, "k", 2, 1000⟩, ⟨1000, "k", 2, 1000⟩] : List RateLimitCall).zip
        (runRateLimit RateLimitMap.empty
          [⟨0, "k", 2, 1000⟩, ⟨1, "other", 1, 10⟩, ⟨1, "k", 2, 1000⟩, ⟨2, "k", 2, 1000⟩,
            ⟨999, "k", 2, 1000⟩, ⟨1000, "k", 2, 1000⟩])) : Int) ≤ 2 :=
  ⟨by decide, by decide,
   rateLimit_window_bound
     [⟨0, "k", 2, 1000⟩, ⟨1, "other", 1, 10⟩, ⟨1, "k", 2, 1000⟩, ⟨2, "k", 2, 1000⟩,
       ⟨999, "k", 2, 1000⟩, ⟨1000, "k", 2, 1000⟩] "k" 2 1000 (by decide) (by decide)
     (by decide) 0⟩

/-- For a key that is an own property of the map, or that is not the name of an
inherited property, `security.checkRateLimit` returns, and returns `true` exactly
when fewer than `maxAttempts` of the attempts recorded for the key have
`now - t < windowMs`. -/
theorem checkRateLimit_true_iff (map : RateLimitMap) (now : Int) (key : String)
    (maxAttempts windowMs : Int) (hkey : map key ≠ none ∨ key ∉ objectPrototypeKeys) :
    ((security.checkRateLimit map now key maxAttempts windowMs).returned = some true ↔
      ((recentAttempts map now key windowMs).length : Int) < maxAttempts) ∧
    ((security.checkRateLimit map now key maxAttempts windowMs).returned = some false ↔
      maxAttempts ≤ ((recentAttempts map now key windowMs).length : Int)) := by
  rcases checkRateLimit_cases map now key maxAttempts windowMs with
    ⟨h1, h2, _⟩ | ⟨_, hfull, e⟩ | ⟨_, hroom, e⟩
  · rcases hkey with h | h
    · exact absurd h1 h
    · exact absurd h2 h
  · rw [e]
    constructor
    · constructor
      · intro h; simp at h
      · intro h; omega
    · simp [hfull]
  · rw [e]
    constructor
    · simp [hroom]
    · constructor
      · intro h; simp at h
      · intro h; omega

/-- The example of the specification: `checkRateLimit("k", 2, 1000)` called three
times in quick succession on a fresh key returns `true`, `true`, `false`, and a
call made once the window has passed returns `true` again. -/
theorem checkRateLimit_three_quick_calls :
    runRateLimit RateLimitMap.empty
      [⟨0, "k", 2, 1000⟩, ⟨1, "k", 2, 1000⟩, ⟨2, "k", 2, 1000⟩, ⟨1002, "k", 2, 1000⟩] =
      [some true, some true, some false, some true] := by
  decide

/-- Claim C10 fails on the code for a key that names a property every object
inherits: on the fresh map no attempt is recorded for `constructor`, fewer than the
5 allowed, yet the call does not return `true`; it raises a `TypeError` and
leaves the map as it was. -/
theorem checkRateLimit_inherited_key_raises :
    ((recentAttempts RateLimitMap.empty 0 "constructor" 60000).length : Int) < 5 ∧
    (security.checkRateLimit RateLimitMap.empty 0 "constructor" 5 60000).returned = none ∧
    (security.checkRateLimit RateLimitMap.empty 0 "constructor" 5 60000).returned ≠
      some true ∧
    (security.checkRateLimit RateLimitMap.empty 0 "constructor" 5 60000).map "constructor" =
      none := by
  refine ⟨?_, ?_, ?_, ?_⟩ <;> decide

/-! ## `downloadFile` -/

/-- Below `2^53` every natural number is a JavaScript number. -/
theorem roundToDouble_of_lt (n : Nat) (h : n < 2 ^ 53) : roundToDouble n = some n := by
  have hk : ∀ fuel, roundToDouble.lowBits fuel n = 0 := by
    intro fuel
    cases fuel with
    | zero => rfl
    | succ k =>
      rw [roundToDouble.lowBits]
      exact if_pos h
  unfold roundToDouble
  simp only [hk]
  simp [Nat.mod_one]

/-- Below `2^53` the counter of a download is the counter plus one, a missing
counter counting as 0. -/
theorem countDownload_eq (f : FileRecord) (h : f.downloads.getD 0 < 2 ^ 53) :
    f.countDownload = { f with downloads := some (f.downloads.getD 0 + 1) } := by
  have hsucc : ∀ n : Nat, n < 2 ^ 53 → roundToDouble (n + 1) = some (n + 1) := by
    intro n hn
    rcases Nat.lt_or_ge (n + 1) (2 ^ 53) with h1 | h1
    · exact roundToDouble_of_lt _ h1
    · have : n + 1 = 9007199254740992 := by omega
      rw [this]
      decide
  unfold FileRecord.countDownload
  cases hd : f.downloads with
  | none =>
    simp only [Option.getD_none, Option.some_bind]
    rw [hsucc 0 (by decide)]
  | some n =>
    rw [hd] at h
    simp only [Option.getD_some] at h ⊢
    by_cases hn : n = 0
    · subst hn
      simp only [if_true, Option.some_bind]
      rw [hsucc 0 (by decide)]
    · simp only [hn, if_false, roundToDouble_of_lt n h, Option.some_bind, hsucc n h]

theorem blob_eq_some_iff (lookup : BlobLookup) (blob : Blob) :
    lookup.blob = some blob ↔
      ∃ result, lookup = .got result ∧ result.bind (fun entry => entry.blob) = some blob := by
  cases lookup with
  | openThrows => simp [BlobLookup.blob]
  | openError => simp [BlobLookup.blob]
  | noStore => simp [BlobLookup.blob]
  | getError => simp [BlobLookup.blob]
  | got result =>
    cases result with
    | none => simp [BlobLookup.blob]
    | some entry => simp [BlobLookup.blob]

/-- What `downloadFile` writes on its successful path, whatever `fetchFiles()` and
`appManager.t` do afterwards; and its whole result when both return. -/
theorem downloadFile_success (t : String → Option String)
    (rerender : Stored (List FileRecord) → Bool) (ls : LocalStorage) (lookup : BlobLookup)
    (container : List Toast) (fileId : Nat) (F : List FileRecord) (blob : Blob)
    (hauth : auth.isAuthenticated ls = true) (hF : ls.files = .value F)
    (hrec : ∃ f ∈ F, f.id = fileId) (hblob : lookup.blob = some blob) :
    ∃ (i : Nat) (f : FileRecord),
      F[i]? = some f ∧ f.id = fileId ∧ (∀ j g, j < i → F[j]? = some g → g.id ≠ fileId) ∧
      (downloadFile t rerender ls lookup container fileId).storage =
        { ls with files := .value (F.set i f.countDownload) } ∧
      (∀ text, rerender (.value (F.set i f.countDownload)) = true →
        t "downloadStarted" = some text →
        downloadFile t rerender ls lookup container fileId =
          { toasts := ToastManager.success container (orElse text "Download started!"),
            storage := { ls with files := .value (F.set i f.countDownload) },
            redirect := none, rerendered := true,
            saved := some (orElse f.title ("file_" ++ toString fileId), blob),
            threw := false }) := by
  obtain ⟨result, rfl, hres⟩ := (blob_eq_some_iff lookup blob).mp hblob
  have hsome : (F.findIdx? (fun g => g.id == fileId)).isSome = true := by
    rw [List.findIdx?_isSome]
    obtain ⟨f, hf, hid⟩ := hrec
    exact List.any_eq_true.mpr ⟨f, hf, by simp [hid]⟩
  obtain ⟨i, hi⟩ := Option.isSome_iff_exists.mp hsome
  obtain ⟨hlt, hp, hmin⟩ := List.findIdx?_eq_some_iff_getElem.mp hi
  have hget : F[i]? = some F[i] := List.getElem?_eq_getElem hlt
  have hparse : parseFiles ls = some F := by simp [parseFiles, hF]
  refine ⟨i, F[i], hget, by simpa using hp, ?_, ?_, ?_⟩
  · intro j g hj hg
    have hjl : j < F.length := Nat.lt_trans hj hlt
    have := hmin j hj
    rw [List.getElem?_eq_getElem hjl] at hg
    simp only [Option.some.injEq] at hg
    rw [hg] at this
    simpa using this
  · unfold downloadFile
    simp only [hauth, Bool.not_true, Bool.false_eq_true, if_false, hparse, hi, hres, hget]
    cases rerender (.value (F.set i F[i].countDownload)) with
    | false => rfl
    | true =>
      simp only [Bool.not_true, Bool.false_eq_true, if_false]
      cases t "downloadStarted" <;> rfl
  · intro text hre ht
    unfold downloadFile
    simp only [hauth, Bool.not_true, Bool.false_eq_true, if_false, hparse, hi, hres, hget,
      hre, ht]
    rfl

/-- Claim C1, as stated, fails: for a record whose counter is `2^53`
(9007199254740992) the download succeeds, with its success notification, and
persists the counter `2^53` again: in JavaScript numbers `2^53 + 1` is `2^53`. -/
theorem downloadFile_counter_rounds :
    (downloadFile (fun key => some key) (fun _ => true) ⟨some "u1", .value
      [⟨7, "Notes", "Algebra", "summary", none, "1 MB", "2026-01-01",
        some 9007199254740992, none, none, none⟩]⟩
      (.got (some ⟨some ⟨[80, 68, 70]⟩⟩)) [] 7).storage.files = .value
      [⟨7, "Notes", "Algebra", "summary", none, "1 MB", "2026-01-01",
        some 9007199254740992, none, none, none⟩] ∧
    (downloadFile (fun key => some key) (fun _ => true) ⟨some "u1", .value
      [⟨7, "Notes", "Algebra", "summary", none, "1 MB", "2026-01-01",
        some 9007199254740992, none, none, none⟩]⟩
      (.got (some ⟨some ⟨[80, 68, 70]⟩⟩)) [] 7).toasts.map (fun n => n.type) =
      [Severity.success] ∧
    (9007199254740992 : Nat) = 2 ^ 53 ∧
    roundToDouble (9007199254740992 + 1) = some 9007199254740992 := by
  decide

/-- Claim C1, amended: when the session is authenticated, the stored collection `F`
has a record with the identifier, the counter of every such record is missing or
below `2^53`, and a blob is present for the identifier, `downloadFile` persists a
collection of the same length in which the (first) record with that identifier has
its `downloads` counter increased by exactly 1, a missing counter counting as 0,
every other field of that record and every other record being unchanged; the rest
of the storage is untouched.  This is so whatever `fetchFiles()` and `appManager.t`
do after the write. -/
theorem downloadFile_counts_once (t : String → Option String)
    (rerender : Stored (List FileRecord) → Bool) (ls : LocalStorage)
    (lookup : BlobLookup) (container : List Toast) (fileId : Nat) (F : List FileRecord)
    (blob : Blob) (hauth : auth.isAuthenticated ls = true) (hF : ls.files = .value F)
    (hrec : ∃ f ∈ F, f.id = fileId)
    (hbound : ∀ f ∈ F, f.id = fileId → f.downloads.getD 0 < 2 ^ 53)
    (hblob : lookup.blob = some blob) :
    ∃ (i : Nat) (f : FileRecord) (F1 : List FileRecord),
      F[i]? = some f ∧ f.id = fileId ∧ (∀ j g, j < i → F[j]? = some g → g.id ≠ fileId) ∧
      (downloadFile t rerender ls lookup container fileId).storage.files = .value F1 ∧
      F1.length = F.length ∧
      F1[i]? = some { f with downloads := some (f.downloads.getD 0 + 1) } ∧
      (∀ j, j ≠ i → F1[j]? = F[j]?) ∧
      (downloadFile t rerender ls lookup container fileId).storage.currentUser =
        ls.currentUser := by
  obtain ⟨i, f, hget, hid, hfirst, hrun, _⟩ :=
    downloadFile_success t rerender ls lookup container fileId F blob hauth hF hrec hblob
  have hlt : i < F.length := by
    rcases Nat.lt_or_ge i F.length with h | h
    · exact h
    · rw [List.getElem?_eq_none h] at hget; exact absurd hget (by simp)
  have hmem : f ∈ F := by
    have hget2 := hget
    rw [List.getElem?_eq_getElem hlt] at hget2
    simp only [Option.some.injEq] at hget2
    rw [← hget2]
    exact List.getElem_mem hlt
  refine ⟨i, f, F.set i f.countDownload, hget, hid, hfirst, by rw [hrun], by simp, ?_, ?_,
    by rw [hrun]⟩
  · rw [← countDownload_eq f (hbound f hmem hid)]
    simp [List.getElem?_set, hlt]
  · intro j hj
    simp [List.getElem?_set, Ne.symm hj]

/-- The record of the specification's example: identifier 7, downloaded 3 times. -/
theorem downloadFile_counts_once_witness :
    auth.isAuthenticated ⟨some "u1", .value
      [⟨7, "Notes", "Algebra", "summary", none, "1 MB", "2026-01-01", some 3, none, none, none⟩]⟩
      = true ∧
    (∀ f ∈ [(⟨7, "Notes", "Algebra", "summary", none, "1 MB", "2026-01-01", some 3, none,
      none, none⟩ : FileRecord)], f.id = 7 → f.downloads.getD 0 < 2 ^ 53) ∧
    ∃ (i : Nat) (f : FileRecord) (F1 : List FileRecord),
      [(⟨7, "Notes", "Algebra", "summary", none, "1 MB", "2026-01-01", some 3, none, none,
        none⟩ : FileRecord)][i]? = some f ∧ f.id = 7 ∧
      (∀ j g, j < i → [(⟨7, "Notes", "Algebra", "summary", none, "1 MB", "2026-01-01", some 3,
        none, none, none⟩ : FileRecord)][j]? = some g → g.id ≠ 7) ∧
      (downloadFile (fun key => some key) (fun _ => true) ⟨some "u1", .value
        [⟨7, "Notes", "Algebra", "summary", none, "1 MB", "2026-01-01", some 3, none, none,
          none⟩]⟩ (.got (some ⟨some ⟨[80, 68, 70]⟩⟩)) [] 7).storage.files = .value F1 ∧
      F1.length = 1 ∧
      F1[i]? = some { f with downloads := some (f.downloads.getD 0 + 1) } ∧
      (∀ j, j ≠ i → F1[j]? = [(⟨7, "Notes", "Algebra", "summary", none, "1 MB", "2026-01-01",
        some 3, none, none, none⟩ : FileRecord)][j]?) ∧
      (downloadFile (fun key => some key) (fun _ => true) ⟨some "u1", .value
        [⟨7, "Notes", "Algebra", "summary", none, "1 MB", "2026-01-01", some 3, none, none,
          none⟩]⟩ (.got (some ⟨some ⟨[80, 68, 70]⟩⟩)) [] 7).storage.currentUser = some "u1" :=
  ⟨by decide, by decide,
   downloadFile_counts_once (fun key => some key) (fun _ => true) _
     (.got (some ⟨some ⟨[80, 68, 70]⟩⟩)) [] 7
     [⟨7, "Notes", "Algebra", "summary", none, "1 MB", "2026-01-01", some 3, none, none, none⟩]
     ⟨[80, 68, 70]⟩ (by decide) rfl ⟨_, List.mem_cons_self _ _, rfl⟩ (by decide) rfl⟩

/-- When `appManager.t` raises, no run of `downloadFile` shows a notification, and
every run ends by the exception. -/
theorem downloadFile_silent_when_t_raises (rerender : Stored (List FileRecord) → Bool)
    (ls : LocalStorage) (lookup : BlobLookup) (container : List Toast) (fileId : Nat) :
    (downloadFile (fun _ => none) rerender ls lookup container fileId).toasts = container ∧
    (downloadFile (fun _ => none) rerender ls lookup container fileId).threw = true := by
  unfold downloadFile
  by_cases hauth : auth.isAuthenticated ls = true
  · simp only [hauth, Bool.not_true, Bool.false_eq_true, if_false]
    cases parseFiles ls with
    | none => exact ⟨rfl, rfl⟩
    | some files =>
      simp only
      cases files.findIdx? (fun f => f.id == fileId) with
      | none => exact ⟨rfl, rfl⟩
      | some i =>
        simp only
        cases lookup with
        | openThrows => exact ⟨rfl, rfl⟩
        | openError => exact ⟨rfl, rfl⟩
        | noStore => exact ⟨rfl, rfl⟩
        | getError => exact ⟨rfl, rfl⟩
        | got result =>
          simp only
          cases result.bind (fun entry => entry.blob) with
          | none => exact ⟨rfl, rfl⟩
          | some blob =>
            simp only
            cases files[i]? with
            | none => exact ⟨rfl, rfl⟩
            | some f =>
              simp only
              cases rerender (.value (files.set i f.countDownload)) <;> exact ⟨rfl, rfl⟩
  · have hfalse : auth.isAuthenticated ls = false := by simpa using hauth
    simp only [hfalse, Bool.not_false, if_true]
    exact ⟨rfl, rfl⟩

/-- Claim C2 fails in the code: a terminal state can show no notification at all.
With an authenticated session and the record 7 in the collection, when the
database has no object store `files`, `db.transaction` raises inside the handler
and the run ends with the container as it was.  When `appManager.t` raises (as it
does for the stored language `fr`), no state shows a notification, the
unauthenticated one included, which also schedules no redirect.  When `fetchFiles()`
raises after the write (as it does on a corrupt `users` item), the counter is
persisted and nothing is shown.  And where the unauthenticated state does show its
notification, the severity is error, not warning. -/
theorem downloadFile_states_without_notification :
    (∀ (t : String → Option String) (rerender : Stored (List FileRecord) → Bool)
      (container : List Toast),
      downloadFile t rerender ⟨some "u1", .value
        [⟨7, "Notes", "Algebra", "summary", none, "1 MB", "2026-01-01", some 3, none, none,
          none⟩]⟩ .noStore container 7 =
        { toasts := container,
          storage := ⟨some "u1", .value
            [⟨7, "Notes", "Algebra", "summary", none, "1 MB", "2026-01-01", some 3, none,
              none, none⟩]⟩,
          redirect := none, rerendered := false, saved := none, threw := true }) ∧
    (∀ (dictionary : Dictionary) (theme key : String),
      AppManager.t dictionary ⟨"fr", theme⟩ key = .raised) ∧
    (∀ (rerender : Stored (List FileRecord) → Bool) (lookup : BlobLookup)
      (container : List Toast),
      downloadFile (fun _ => none) rerender ⟨none, .value []⟩ lookup container 7 =
        { toasts := container, storage := ⟨none, .value []⟩, redirect := none,
          rerendered := false, saved := none, threw := true }) ∧
    (∀ (dictionary : Dictionary) (app : AppManager),
      fetchFiles dictionary app true (.value
        [⟨7, "Notes", "Algebra", "summary", none, "1 MB", "2026-01-01", some 4, none, none,
          none⟩]) .corrupt = .raised) ∧
    (∀ (t : String → Option String) (container : List Toast),
      downloadFile t (fun _ => false) ⟨some "u1", .value
        [⟨7, "Notes", "Algebra", "summary", none, "1 MB", "2026-01-01", some 3, none, none,
          none⟩]⟩ (.got (some ⟨some ⟨[80, 68, 70]⟩⟩)) container 7 =
        { toasts := container,
          storage := ⟨some "u1", .value
            [⟨7, "Notes", "Algebra", "summary", none, "1 MB", "2026-01-01", some 4, none,
              none, none⟩]⟩,
          redirect := none, rerendered := false, saved := none, threw := true }) ∧
    (downloadFile (fun key => some key) (fun _ => true) ⟨none, .value []⟩ (.got none) []
      7).toasts.map (fun n => n.type) = [Severity.error] := by
  refine ⟨fun _ _ _ => rfl, ?_, fun _ _ _ => rfl, fun _ _ => rfl, fun _ _ => ?_, by decide⟩
  · intro dictionary theme key
    simp [AppManager.t, objectPrototypeKeys]
  · have h4 : (⟨7, "Notes", "Algebra", "summary", none, "1 MB", "2026-01-01", some 3, none,
        none, none⟩ : FileRecord).countDownload =
        ⟨7, "Notes", "Algebra", "summary", none, "1 MB", "2026-01-01", some 4, none, none,
          none⟩ := by decide
    unfold downloadFile
    simp only [show auth.isAuthenticated ⟨some "u1", .value
        [⟨7, "Notes", "Algebra", "summary", none, "1 MB", "2026-01-01", some 3, none, none,
          none⟩]⟩ = true from by decide, parseFiles]
    simp [h4]

/-- Where nothing raises, every terminal state of `downloadFile` shows exactly one
notification, appended to the container: an error when unauthenticated, an error
when the record is missing, an error when a storage request fails, a warning when
the blob is missing and a success when record and blob are present. -/
theorem downloadFile_emits_one_notification (t : String → Option String)
    (rerender : Stored (List FileRecord) → Bool) (ls : LocalStorage)
    (lookup : BlobLookup) (container : List Toast) (fileId : Nat)
    (hfiles : ls.files ≠ .corrupt) (hstore : lookup ≠ .noStore)
    (ht : ∀ key, ∃ text, t key = some text) (hre : ∀ item, rerender item = true) :
    ∃ message : String,
      (downloadFile t rerender ls lookup container fileId).toasts =
        container ++ [⟨message, downloadSeverity ls lookup fileId, 4000⟩] ∧
      (downloadFile t rerender ls lookup container fileId).threw = false := by
  obtain ⟨m1, h1⟩ := ht "mustLoginToDownload"
  obtain ⟨m2, h2⟩ := ht "fileNotFound"
  obtain ⟨m3, h3⟩ := ht "downloadError"
  obtain ⟨m4, h4⟩ := ht "downloadStarted"
  obtain ⟨m5, h5⟩ := ht "fileNotAvailable"
  unfold downloadFile downloadSeverity
  by_cases hauth : auth.isAuthenticated ls = true
  · simp only [hauth, Bool.not_true, Bool.false_eq_true, if_false]
    have hparse : parseFiles ls = some (storedFiles ls) := by
      unfold parseFiles storedFiles
      cases h : ls.files with
      | absent => rfl
      | corrupt => exact absurd h hfiles
      | value v => rfl
    simp only [hparse]
    cases hidx : (storedFiles ls).findIdx? (fun f => f.id == fileId) with
    | none =>
      have hany : (storedFiles ls).any (fun f => f.id == fileId) = false := by
        rw [← List.findIdx?_isSome, hidx]; rfl
      simp only [hany, Bool.not_false, if_true, h2]
      exact ⟨_, rfl, by trivial⟩
    | some i =>
      have hany : (storedFiles ls).any (fun f => f.id == fileId) = true := by
        rw [← List.findIdx?_isSome, hidx]; rfl
      simp only [hany, Bool.not_true, Bool.false_eq_true, if_false]
      cases lookup with
      | openThrows => simp only [h3]; exact ⟨_, rfl, by trivial⟩
      | openError => simp only [h3]; exact ⟨_, rfl, by trivial⟩
      | noStore => exact absurd rfl hstore
      | getError => simp only [h3]; exact ⟨_, rfl, by trivial⟩
      | got result =>
        simp only
        cases hb : result.bind (fun entry => entry.blob) with
        | none => simp only [h5]; exact ⟨_, rfl, by trivial⟩
        | some blob =>
          obtain ⟨hlt, _, _⟩ := List.findIdx?_eq_some_iff_getElem.mp hidx
          simp only [List.getElem?_eq_getElem hlt, hre, Bool.not_true, Bool.false_eq_true,
            if_false, h4]
          exact ⟨_, rfl, by trivial⟩
  · have hfalse : auth.isAuthenticated ls = false := by simpa using hauth
    simp only [hfalse, Bool.not_false, if_true, h1]
    exact ⟨_, rfl, by trivial⟩

/-- Claim C3: in every outcome of `downloadFile` other than the successful one,
that is when the session is unauthenticated, or no stored record has the
identifier, or no blob was found (missing entry, entry without blob, or a failed
storage request), the `localStorage`, and so the persisted file collection, is
left as it was; this is so whether or not `appManager.t` raises. -/
theorem downloadFile_failure_keeps_storage (t : String → Option String)
    (rerender : Stored (List FileRecord) → Bool) (ls : LocalStorage)
    (lookup : BlobLookup) (container : List Toast) (fileId : Nat)
    (h : auth.isAuthenticated ls = false ∨ (∀ f ∈ storedFiles ls, f.id ≠ fileId) ∨
      lookup.blob = none) :
    (downloadFile t rerender ls lookup container fileId).storage = ls := by
  unfold downloadFile
  by_cases hauth : auth.isAuthenticated ls = true
  · simp only [hauth, Bool.not_true, Bool.false_eq_true, if_false]
    cases hparse : parseFiles ls with
    | none => rfl
    | some files =>
      have hfiles : files = storedFiles ls ∨ ls.files = .absent := by
        unfold parseFiles at hparse
        unfold storedFiles
        cases hf : ls.files with
        | absent => right; rfl
        | corrupt => rw [hf] at hparse; simp at hparse
        | value v => rw [hf] at hparse; left; simpa using hparse.symm
      simp only
      cases hidx : files.findIdx? (fun f => f.id == fileId) with
      | none => simp only; cases t "fileNotFound" <;> rfl
      | some i =>
        simp only
        cases lookup with
        | openThrows => simp only; cases t "downloadError" <;> rfl
        | openError => simp only; cases t "downloadError" <;> rfl
        | noStore => rfl
        | getError => simp only; cases t "downloadError" <;> rfl
        | got result =>
          simp only
          cases hb : result.bind (fun entry => entry.blob) with
          | none => simp only; cases t "fileNotAvailable" <;> rfl
          | some blob =>
            exfalso
            rcases h with h | h | h
            · rw [hauth] at h; exact absurd h (by decide)
            · obtain ⟨hlt, hp, _⟩ := List.findIdx?_eq_some_iff_getElem.mp hidx
              rcases hfiles with e | e
              · subst e
                exact h _ (List.getElem_mem hlt) (by simpa using hp)
              · unfold parseFiles at hparse
                rw [e] at hparse
                simp only [Option.some.injEq] at hparse
                subst hparse
                exact absurd hlt (Nat.not_lt_zero _)
            · cases result with
              | none => simp at hb
              | some entry =>
                simp only [BlobLookup.blob] at h
                have hentry : entry.blob = some blob := hb
                rw [h] at hentry
                exact absurd hentry (by simp)
  · have hfalse : auth.isAuthenticated ls = false := by simpa using hauth
    simp only [hfalse, Bool.not_false, if_true]
    cases t "mustLoginToDownload" <;> rfl

/-- Claim C3 at the specification's example: a record with `downloads = 3` and no
blob keeps `downloads = 3`. -/
theorem downloadFile_failure_keeps_storage_witness :
    (auth.isAuthenticated ⟨some "u1", .value
        [⟨7, "Notes", "Algebra", "summary", none, "1 MB", "2026-01-01", some 3, none, none,
          none⟩]⟩ = false ∨
      (∀ f ∈ storedFiles ⟨some "u1", .value
        [⟨7, "Notes", "Algebra", "summary", none, "1 MB", "2026-01-01", some 3, none, none,
          none⟩]⟩, f.id ≠ 7) ∨
      (BlobLookup.got (some ⟨none⟩)).blob = none) ∧
    (downloadFile (fun key => some key) (fun _ => true) ⟨some "u1", .value
        [⟨7, "Notes", "Algebra", "summary", none, "1 MB", "2026-01-01", some 3, none, none,
          none⟩]⟩ (.got (some ⟨none⟩)) [] 7).storage =
      ⟨some "u1", .value
        [⟨7, "Notes", "Algebra", "summary", none, "1 MB", "2026-01-01", some 3, none, none,
          none⟩]⟩ :=
  ⟨Or.inr (Or.inr rfl),
   downloadFile_failure_keeps_storage (fun key => some key) (fun _ => true) _
     (.got (some ⟨none⟩)) [] 7 (Or.inr (Or.inr rfl))⟩

/-! ## `auth`: session and administrator -/

/-- The item `currentUser` counts as a session exactly when it is present and not
the empty text. -/
theorem isAuthenticated_iff (ls : LocalStorage) :
    auth.isAuthenticated ls = true ↔ ∃ item, ls.currentUser = some item ∧ item ≠ "" := by
  unfold auth.isAuthenticated
  cases h : ls.currentUser with
  | none => simp
  | some item =>
    simp only [Bool.not_eq_true', Option.some.injEq, exists_eq_left']
    constructor
    · intro he hitem
      rw [(String.isEmpty_iff item).mpr hitem] at he
      exact absurd he (by decide)
    · intro hne
      cases hb : item.isEmpty with
      | false => rfl
      | true => exact absurd ((String.isEmpty_iff item).mp hb) hne

/-- Claim C11, as stated, fails: with the stored text `null` the session counts
as authenticated while `getCurrentUser()` returns `null`, no record. -/
theorem isAuthenticated_without_record :
    auth.isAuthenticated ⟨some "null", .absent⟩ = true ∧
    auth.getCurrentUser ⟨some "null", .absent⟩ = .returned .null :=
  ⟨by decide, rfl⟩

/-- Claim C11, amended: `auth.isAuthenticated()` is true exactly when the item
`currentUser` is present and not empty; whenever `auth.getCurrentUser()` returns a
record (an object), `auth.isAuthenticated()` is true; and an absent session is
anonymous for both: `isAuthenticated()` is false and `getCurrentUser()` returns
`null`. -/
theorem auth_session_presence :
    (∀ ls : LocalStorage,
      auth.isAuthenticated ls = true ↔ ∃ item, ls.currentUser = some item ∧ item ≠ "") ∧
    (∀ (ls : LocalStorage) (members : List (List Char × Json)),
      auth.getCurrentUser ls = .returned (.obj members) → auth.isAuthenticated ls = true) ∧
    (∀ ls : LocalStorage, ls.currentUser = none →
      auth.isAuthenticated ls = false ∧ auth.getCurrentUser ls = .returned .null) := by
  refine ⟨isAuthenticated_iff, ?_, ?_⟩
  · intro ls members h
    rw [isAuthenticated_iff]
    cases hc : ls.currentUser with
    | none =>
      have hnull : auth.getCurrentUser ls = .returned .null := by
        unfold auth.getCurrentUser
        rw [hc]
        rfl
      rw [hnull] at h
      cases h
    | some item =>
      refine ⟨item, rfl, ?_⟩
      intro hitem
      subst hitem
      have hraised : auth.getCurrentUser ls = .raised := by
        unfold auth.getCurrentUser
        rw [hc]
        rfl
      rw [hraised] at h
      cases h
  · intro ls hc
    constructor
    · unfold auth.isAuthenticated
      rw [hc]
    · unfold auth.getCurrentUser
      rw [hc]
      rfl

theorem isString_iff (x : Option Json) (text : String) :
    Json.isString x text = true ↔ x = some (.str text.toList) := by
  unfold Json.isString
  cases x with
  | none => simp
  | some v => cases v <;> simp

theorem member_eq_none_of_not_obj (v : Json) (key : String)
    (h : ∀ members, v ≠ .obj members) : v.member key = none := by
  cases v with
  | obj members => exact absurd rfl (h members)
  | null => rfl
  | bool b => rfl
  | num text => rfl
  | str s => rfl
  | arr items => rfl

/-- Claim C12: for every persisted current-user value, `auth.isAdmin()` is `true`
exactly when `auth.getCurrentUser()` returns a record whose `role` is `'admin'`
or whose `email` is `'ahmed@summarize.com'`; with no item `currentUser` it
returns `null`, which is not `true`. -/
theorem isAdmin_true_iff :
    (∀ ls : LocalStorage,
      auth.isAdmin ls = .returned (.bool true) ↔
        ∃ members, auth.getCurrentUser ls = .returned (.obj members) ∧
          ((Json.obj members).member "role" = some (.str "admin".toList) ∨
           (Json.obj members).member "email" =
             some (.str "ahmed@summarize.com".toList))) ∧
    (∀ ls : LocalStorage, ls.currentUser = none → auth.isAdmin ls = .returned .null) := by
  constructor
  · intro ls
    unfold auth.isAdmin
    cases hu : auth.getCurrentUser ls with
    | raised =>
      simp only
      constructor
      · intro h; cases h
      · rintro ⟨members, h, _⟩; cases h
    | returned user =>
      simp only
      cases user with
      | obj members =>
        simp only [Json.truthy, Bool.not_true, Bool.false_eq_true, if_false,
          JsResult.returned.injEq, Json.bool.injEq, Bool.or_eq_true, isString_iff]
        constructor
        · intro h; exact ⟨members, rfl, h⟩
        · rintro ⟨m2, h, hm⟩
          cases h
          exact hm
      | null =>
        simp only [Json.truthy, Bool.not_false, if_true]
        constructor
        · intro h; cases h
        · rintro ⟨members, h, _⟩; cases h
      | bool b =>
        cases b with
        | false =>
          simp only [Json.truthy, Bool.not_false, if_true]
          constructor
          · intro h; cases h
          · rintro ⟨members, h, _⟩; cases h
        | true =>
          simp only [Json.truthy, Bool.not_true, Bool.false_eq_true, if_false, Json.member,
            Json.isString, Bool.or_self]
          constructor
          · intro h; cases h
          · rintro ⟨members, h, _⟩; cases h
      | num text =>
        constructor
        · intro h
          split at h
          · cases h
          · simp [Json.member, Json.isString] at h
        · rintro ⟨members, h, _⟩; cases h
      | str s =>
        constructor
        · intro h
          split at h
          · cases h
          · simp [Json.member, Json.isString] at h
        · rintro ⟨members, h, _⟩; cases h
      | arr items =>
        constructor
        · intro h
          split at h
          · cases h
          · simp [Json.member, Json.isString] at h
        · rintro ⟨members, h, _⟩; cases h
  · intro ls hc
    have hnull : auth.getCurrentUser ls = .returned .null := by
      unfold auth.getCurrentUser
      rw [hc]
      rfl
    unfold auth.isAdmin
    rw [hnull]
    rfl

/-- The administrator check on stored records: a record with role `admin`, a
record with the bootstrap address and another role, an ordinary record, and the
stored text `null`. -/
theorem isAdmin_examples :
    auth.isAdmin ⟨some "\x7b\x22role\x22:\x22admin\x22\x7d", .absent⟩ =
      .returned (.bool true) ∧
    auth.isAdmin ⟨some
      "\x7b\x22role\x22:\x22user\x22,\x22email\x22:\x22ahmed@summarize.com\x22\x7d",
      .absent⟩ = .returned (.bool true) ∧
    auth.isAdmin ⟨some "\x7b\x22role\x22:\x22user\x22,\x22email\x22:\x22a@b.c\x22\x7d",
      .absent⟩ = .returned (.bool false) ∧
    auth.isAdmin ⟨some "null", .absent⟩ = .returned .null :=
  ⟨rfl, rfl, rfl, rfl⟩

/-! ## `auth.initAdmin` -/

/-- The outcome of `auth.initAdmin` on a readable collection. -/
theorem initAdmin_value (U : List User) (createdAt : String) :
    auth.initAdmin (.value U) createdAt =
      if U.any (fun u => u.email == auth.adminEmail) then { users := .value U, raised := false }
      else { users := .value (U ++ [auth.adminUser createdAt]), raised := false } := by
  rfl

/-- Claim C14: when some record of the stored collection `U` has the bootstrap
address, `auth.initAdmin()` leaves the stored collection as it is; otherwise the
stored collection becomes `U` followed by exactly one record, with id
`admin_001`, the bootstrap address, the fixed password and role `admin`. -/
theorem initAdmin_frame (U : List User) (createdAt : String) :
    auth.initAdmin (.value U) createdAt =
      if ∃ u ∈ U, u.email = "ahmed@summarize.com" then
        { users := .value U, raised := false }
      else
        { users := .value (U ++ [⟨"admin_001", "Ahmed (Owner)", "ahmed@summarize.com", "2008.",
            "admin", none, createdAt⟩]), raised := false } := by
  rw [initAdmin_value]
  by_cases h : ∃ u ∈ U, u.email = "ahmed@summarize.com"
  · have hany : U.any (fun u => u.email == auth.adminEmail) = true := by
      obtain ⟨u, hu, he⟩ := h
      exact List.any_eq_true.mpr ⟨u, hu, by simp [he, auth.adminEmail]⟩
    rw [if_pos h, hany]
    rfl
  · have hany : U.any (fun u => u.email == auth.adminEmail) = false := by
      cases hb : U.any (fun u => u.email == auth.adminEmail) with
      | false => rfl
      | true =>
        obtain ⟨u, hu, he⟩ := List.any_eq_true.mp hb
        exact absurd ⟨u, hu, by simpa [auth.adminEmail] using he⟩ h
    rw [if_neg h, hany]
    rfl

/-- Claim C13: for every stored collection `U` that holds at most one record with
the bootstrap address, calling `auth.initAdmin()` twice leaves the same stored
collection as calling it once, neither call raises, and that collection holds
exactly one record with the bootstrap address. -/
theorem initAdmin_twice (U : List User) (first second : String)
    (hmost : U.countP (fun u => u.email == auth.adminEmail) ≤ 1) :
    (auth.initAdmin (auth.initAdmin (.value U) first).users second).users =
      (auth.initAdmin (.value U) first).users ∧
    (auth.initAdmin (.value U) first).raised = false ∧
    (auth.initAdmin (auth.initAdmin (.value U) first).users second).raised = false ∧
    ∃ V, (auth.initAdmin (.value U) first).users = .value V ∧
      V.countP (fun u => u.email == auth.adminEmail) = 1 := by
  rw [initAdmin_value]
  by_cases hany : U.any (fun u => u.email == auth.adminEmail) = true
  · rw [if_pos hany]
    simp only [initAdmin_value, hany, if_true, true_and]
    refine ⟨U, rfl, ?_⟩
    have hpos : 0 < U.countP (fun u => u.email == auth.adminEmail) := by
      rw [List.countP_pos_iff]
      obtain ⟨u, hu, he⟩ := List.any_eq_true.mp hany
      exact ⟨u, hu, he⟩
    omega
  · have hfalse : U.any (fun u => u.email == auth.adminEmail) = false := by
      simpa using hany
    rw [if_neg hany]
    have hnew : (U ++ [auth.adminUser first]).any (fun u => u.email == auth.adminEmail) =
        true := by
      simp [List.any_append, auth.adminUser]
    simp only [initAdmin_value, hnew, if_true, true_and]
    refine ⟨U ++ [auth.adminUser first], rfl, ?_⟩
    have hzero : U.countP (fun u => u.email == auth.adminEmail) = 0 := by
      rw [List.countP_eq_zero]
      intro u hu he
      have : U.any (fun u => u.email == auth.adminEmail) = true :=
        List.any_eq_true.mpr ⟨u, hu, he⟩
      rw [hfalse] at this
      exact absurd this (by decide)
    rw [List.countP_append, hzero]
    simp [List.countP_cons, auth.adminUser]

/-- Claim C13 on the empty collection of the specification's example: after two
calls the collection holds exactly one administrator record. -/
theorem initAdmin_twice_witness :
    ([] : List User).countP (fun u => u.email == auth.adminEmail) ≤ 1 ∧
    (auth.initAdmin (auth.initAdmin (.value []) "2026-01-01T00:00:00.000Z").users
        "2026-01-02T00:00:00.000Z").users =
      (auth.initAdmin (.value []) "2026-01-01T00:00:00.000Z").users ∧
    (auth.initAdmin (.value []) "2026-01-01T00:00:00.000Z").raised = false ∧
    (auth.initAdmin (auth.initAdmin (.value []) "2026-01-01T00:00:00.000Z").users
        "2026-01-02T00:00:00.000Z").raised = false ∧
    ∃ V, (auth.initAdmin (.value []) "2026-01-01T00:00:00.000Z").users = .value V ∧
      V.countP (fun u => u.email == auth.adminEmail) = 1 :=
  ⟨by decide,
   initAdmin_twice [] "2026-01-01T00:00:00.000Z" "2026-01-02T00:00:00.000Z" (by decide)⟩

/-- With no item `users` the two calls do the same as on the empty collection. -/
theorem initAdmin_absent (first second : String) :
    (auth.initAdmin .absent first).users = .value [auth.adminUser first] ∧
    (auth.initAdmin (auth.initAdmin .absent first).users second).users =
      .value [auth.adminUser first] := by
  constructor <;> rfl

/-! ## Loading the persisted collections -/

/-- Claim C15 fails on the code: when the stored text of a collection is not
valid JSON, `JSON.parse` raises in `auth.initAdmin`, in `fetchFiles` (for `files`
and for `users`), in `downloadFile` and in `showFileDetails`, and none of them
catches it; nothing is written, shown or notified. -/
theorem load_corrupt_raises (dictionary : Dictionary) (app : AppManager)
    (createdAt : String) (files : Stored (List FileRecord)) (users : Stored (List User))
    (F : List FileRecord) (t : String → Option String)
    (rerender : Stored (List FileRecord) → Bool) (lookup : BlobLookup)
    (container : List Toast) (fileId : Nat) :
    auth.initAdmin .corrupt createdAt = { users := .corrupt, raised := true } ∧
    fetchFiles dictionary app true .corrupt users = .raised ∧
    fetchFiles dictionary app true (.value F) .corrupt = .raised ∧
    downloadFile t rerender ⟨some "u1", .corrupt⟩ lookup container fileId =
      { toasts := container, storage := ⟨some "u1", .corrupt⟩, redirect := none,
        rerendered := false, saved := none, threw := true } ∧
    showFileDetails dictionary app .corrupt users container fileId = .raised ∧
    showFileDetails dictionary app files .corrupt container fileId = .raised := by
  refine ⟨rfl, rfl, rfl, rfl, rfl, ?_⟩
  unfold showFileDetails
  cases files <;> rfl

/-- An absent item loads as the empty sequence at every place: each function
does on it what it does on the stored empty collection. -/
theorem load_absent_is_empty (dictionary : Dictionary) (app : AppManager)
    (createdAt : String) (hasGrid : Bool) (files : Stored (List FileRecord))
    (users : Stored (List User)) (t : String → Option String)
    (rerender : Stored (List FileRecord) → Bool) (item : Option String)
    (lookup : BlobLookup) (container : List Toast) (fileId : Nat) :
    (Stored.absent : Stored (List User)).parseOrEmpty = some [] ∧
    (auth.initAdmin .absent createdAt).users = (auth.initAdmin (.value []) createdAt).users ∧
    (auth.initAdmin .absent createdAt).raised = false ∧
    fetchFiles dictionary app hasGrid .absent users =
      fetchFiles dictionary app hasGrid (.value []) users ∧
    fetchFiles dictionary app hasGrid files .absent =
      fetchFiles dictionary app hasGrid files (.value []) ∧
    parseFiles ⟨item, .absent⟩ = some [] ∧
    (downloadFile t rerender ⟨item, .absent⟩ lookup container fileId).toasts =
      (downloadFile t rerender ⟨item, .value []⟩ lookup container fileId).toasts ∧
    showFileDetails dictionary app .absent users container fileId =
      showFileDetails dictionary app (.value []) users container fileId ∧
    showFileDetails dictionary app files .absent container fileId =
      showFileDetails dictionary app files (.value []) container fileId := by
  refine ⟨rfl, rfl, rfl, rfl, rfl, rfl, ?_, rfl, rfl⟩
  unfold downloadFile
  have hauth : auth.isAuthenticated ⟨item, .absent⟩ = auth.isAuthenticated ⟨item, .value []⟩ :=
    rfl
  rw [hauth]
  split
  · cases t "mustLoginToDownload" <;> rfl
  · show (match t "fileNotFound" with
      | none => downloadFile.raised _ container
      | some text => _).toasts = (match t "fileNotFound" with
      | none => downloadFile.raised _ container
      | some text => _).toasts
    cases t "fileNotFound" <;> rfl

/-! ## `AppManager.t` -/

/-- Claim C18 fails on the code: when the language read from the storage is
neither `ar` nor `en` (here `fr`), `dictionary[this.lang]` is `undefined` and
`appManager.t(key)` raises a `TypeError` for every key, whatever the tables
hold. -/
theorem t_raises_on_unknown_language (dictionary : Dictionary) (key : String) :
    (AppManager.new (some "fr") none).lang = "fr" ∧
    AppManager.t dictionary (AppManager.new (some "fr") none) key = .raised := by
  have hlang : (AppManager.new (some "fr") none).lang = "fr" := by decide
  refine ⟨hlang, ?_⟩
  unfold AppManager.t
  rw [hlang]
  rfl

/-- With the language `ar` or `en`, and a key that is not the name of a member
every object inherits, `appManager.t(key)` returns a string: the entry of the
table when it has one that is not empty, the key itself otherwise.  For an
inherited name the table lacks, it returns the inherited member instead. -/
theorem t_on_dictionary_language (dictionary : Dictionary) (app : AppManager) (key : String)
    (hlang : app.lang = "ar" ∨ app.lang = "en") :
    (key ∉ objectPrototypeKeys →
      AppManager.t dictionary app key =
        .text (match (if app.lang = "ar" then dictionary.ar key else dictionary.en key) with
          | some entry => if entry = "" then key else entry
          | none => key)) ∧
    (key ∈ objectPrototypeKeys →
      (if app.lang = "ar" then dictionary.ar key else dictionary.en key) = none →
      AppManager.t dictionary app key = .inherited key) := by
  unfold AppManager.t
  rw [if_pos hlang]
  constructor
  · intro hkey
    cases h : (if app.lang = "ar" then dictionary.ar key else dictionary.en key) with
    | none => simp [hkey]
    | some entry =>
      simp only
      by_cases he : entry = ""
      · subst he; rfl
      · have : entry.isEmpty = false := by
          cases hb : entry.isEmpty with
          | false => rfl
          | true => exact absurd ((String.isEmpty_iff entry).mp hb) he
        simp [this, he]
  · intro hkey hnone
    rw [hnone]
    simp [hkey]

/-- The text `appManager.t` returns for a key no object inherits, with a language
of the dictionary. -/
theorem t_text_of_dictionary_language (dictionary : Dictionary) (app : AppManager)
    (key : String) (hlang : app.lang = "ar" ∨ app.lang = "en")
    (hkey : key ∉ objectPrototypeKeys) :
    ∃ text, AppManager.t dictionary app key = .text text :=
  ⟨_, (t_on_dictionary_language dictionary app key hlang).1 hkey⟩

/-! ## The catalog of `fetchFiles` -/

/-- Claim C16 fails on the code for a record whose type is the name of a member
every object inherits: `filesByType["constructor"]` is the inherited `Object`
function, the guard passes, `.push` is not a function and `fetchFiles` raises a
`TypeError` instead of dropping the record; the grid is not rendered, whatever
the language and the dictionary. -/
theorem fetchFiles_inherited_type_raises (dictionary : Dictionary) (app : AppManager) :
    fetchFiles dictionary app true
      (.value [⟨1, "Notes", "Algebra", "constructor", none, "1 MB", "2026-01-01", none, none,
        none, none⟩,
        ⟨2, "Sheet", "Algebra", "ملخص", none, "1 MB", "2026-01-01", none, none, none, none⟩])
      (.value []) = .raised := by
  rfl

/-- The keys of the buckets stay the four types. -/
theorem Buckets.push_keys (b : Buckets) (type : String) (file : FileRecord) :
    (b.push type file).map (fun e => e.1) = b.map (fun e => e.1) := by
  unfold Buckets.push
  rw [List.map_map]
  apply List.map_congr_left
  intro e _
  by_cases h : e.1 = type <;> simp [h]

/-- The loop over the records fills each bucket with the records of its type, in
order, when no type is an inherited name. -/
theorem fetchFiles.fill_eq (F : List FileRecord) :
    ∀ b : Buckets, (∀ e ∈ b, e.1 ∈ fetchFiles.types) →
      (∀ f ∈ F, f.type ∈ fetchFiles.types ∨ f.type ∉ objectPrototypeKeys) →
      fetchFiles.fill F b =
        some (b.map (fun e => (e.1, e.2 ++ F.filter (fun f => f.type == e.1)))) := by
  induction F with
  | nil =>
    intro b _ _
    simp [fetchFiles.fill]
  | cons f rest ih =>
    intro b hb hF
    have hrest : ∀ g ∈ rest, g.type ∈ fetchFiles.types ∨ g.type ∉ objectPrototypeKeys :=
      fun g hg => hF g (List.mem_cons_of_mem _ hg)
    by_cases hty : f.type ∈ fetchFiles.types
    · have hkeys : ∀ e ∈ b.push f.type f, e.1 ∈ fetchFiles.types := by
        intro e he
        have hmem : e.1 ∈ (b.push f.type f).map (fun e => e.1) := List.mem_map_of_mem _ he
        rw [Buckets.push_keys] at hmem
        obtain ⟨e2, he2, heq⟩ := List.mem_map.mp hmem
        rw [← heq]
        exact hb e2 he2
      simp only [fetchFiles.fill, hty, if_true]
      rw [ih _ hkeys hrest]
      congr 1
      unfold Buckets.push
      rw [List.map_map]
      apply List.map_congr_left
      intro e _
      by_cases h : e.1 = f.type
      · have hbeq : (f.type == e.1) = true := by simp [h]
        simp [h, List.filter_cons]
      · have hne : ¬ f.type = e.1 := fun x => h x.symm
        have hbeq : (f.type == e.1) = false := by simp [hne]
        simp [h, List.filter_cons, hbeq]
    · have hnot : f.type ∉ objectPrototypeKeys := by
        rcases hF f (List.mem_cons_self _ _) with h | h
        · exact absurd h hty
        · exact h
      simp only [fetchFiles.fill, hty, hnot, if_false]
      rw [ih b hb hrest]
      congr 1
      apply List.map_congr_left
      intro e he
      have hne : ¬ f.type = e.1 := by
        intro x
        apply hty
        rw [x]
        exact hb e he
      have hbeq : (f.type == e.1) = false := by simp [hne]
      simp [List.filter_cons, hbeq]

/-- The sections rendered from the filled buckets are the sections of the
specification. -/
theorem fetchFiles.render_eq (app : AppManager) (filesLabel unknown : String)
    (F : List FileRecord) :
    fetchFiles.render app filesLabel unknown
      (Buckets.empty.map (fun e => (e.1, e.2 ++ F.filter (fun f => f.type == e.1)))) =
      catalogSections app filesLabel unknown F := by
  unfold fetchFiles.render catalogSections Buckets.empty
  rw [List.map_map, List.filter_map, List.map_map]
  have hfilter : List.filter ((fun entry : String × List FileRecord => !entry.2.isEmpty) ∘
      ((fun e : String × List FileRecord => (e.1, e.2 ++ F.filter (fun f => f.type == e.1))) ∘
        fun type => (type, []))) fetchFiles.types =
      List.filter (fun type => F.any (fun f => f.type == type)) fetchFiles.types := by
    apply List.filter_congr
    intro type _
    simp only [Function.comp, List.nil_append]
    cases hany : F.any (fun f => f.type == type) with
    | true =>
      obtain ⟨f, hf, hft⟩ := List.any_eq_true.mp hany
      have hmem : f ∈ F.filter (fun f => f.type == type) := List.mem_filter.mpr ⟨hf, hft⟩
      cases hfl : F.filter (fun f => f.type == type) with
      | nil => rw [hfl] at hmem; cases hmem
      | cons x xs => rfl
    | false =>
      have hnil : F.filter (fun f => f.type == type) = [] := by
        rw [List.filter_eq_nil_iff]
        intro f hf hft
        have : F.any (fun f => f.type == type) = true := List.any_eq_true.mpr ⟨f, hf, hft⟩
        rw [hany] at this
        cases this
      rw [hnil]
      rfl
  rw [hfilter]
  apply List.map_congr_left
  intro type _
  simp [Function.comp, List.countP_eq_length_filter]

/-- For the types that are not inherited names the catalog is as claim C16
describes it: with a language of the dictionary, a stored collection `F` that is
not empty and in which no type is the name of an inherited member, and a readable
`users` item, `fetchFiles` renders one section for each of the four types that
occurs in `F`, in the fixed order, with the records of that type in the order of
`F` and their number; records of other types are in no section. -/
theorem fetchFiles_sections (dictionary : Dictionary) (app : AppManager)
    (F : List FileRecord) (users : Stored (List User))
    (hlang : app.lang = "ar" ∨ app.lang = "en") (hF : F ≠ [])
    (htypes : ∀ f ∈ F, f.type ∈ fetchFiles.types ∨ f.type ∉ objectPrototypeKeys)
    (husers : users ≠ .corrupt) :
    ∃ filesLabel unknown,
      AppManager.t dictionary app "files" = .text filesLabel ∧
      AppManager.t dictionary app "unknown" = .text unknown ∧
      fetchFiles dictionary app true (.value F) users =
        .sections (catalogSections app filesLabel unknown F) := by
  obtain ⟨filesLabel, hfl⟩ :=
    t_text_of_dictionary_language dictionary app "files" hlang (by decide)
  obtain ⟨unknown, hun⟩ :=
    t_text_of_dictionary_language dictionary app "unknown" hlang (by decide)
  refine ⟨filesLabel, unknown, hfl, hun, ?_⟩
  have hparse : ∃ us, users.parseOrEmpty = some us := by
    cases users with
    | absent => exact ⟨[], rfl⟩
    | corrupt => exact absurd rfl husers
    | value v => exact ⟨v, rfl⟩
  obtain ⟨us, hus⟩ := hparse
  have hlen : ¬ F.length = 0 := fun h => hF (List.length_eq_zero.mp h)
  have hfill := fetchFiles.fill_eq F Buckets.empty (by decide) htypes
  have hrender := fetchFiles.render_eq app filesLabel unknown F
  have hfiles : (Stored.value F).parseOrEmpty = some F := rfl
  unfold fetchFiles
  simp only [Bool.not_true, Bool.false_eq_true, if_false, hfiles, hus, hlen, hfill, hfl, hun]
  split
  · rename_i hall
    rw [← hrender]
    unfold fetchFiles.render
    have : List.filter (fun entry : String × List FileRecord => !entry.2.isEmpty)
        (Buckets.empty.map (fun e => (e.1, e.2 ++ F.filter (fun f => f.type == e.1)))) = [] := by
      rw [List.filter_eq_nil_iff]
      intro e he
      have := List.all_eq_true.mp hall e he
      simp [this]
    rw [this]
    rfl
  · rw [hrender]

/-- The example of claim C16: files of two of the four types give exactly two
sections, each with the count of its records, and the record of an unknown type
is in neither. -/
theorem fetchFiles_two_types :
    fetchFiles ⟨fun _ => none, fun _ => none⟩ ⟨"en", "light"⟩ true
      (.value [⟨1, "A", "S", "مشروع", none, "1 MB", "d", none, none, none, none⟩,
        ⟨2, "B", "S", "ملخص", none, "1 MB", "d", none, none, none, none⟩,
        ⟨3, "C", "S", "essay", none, "1 MB", "d", none, none, none, none⟩,
        ⟨4, "D", "S", "مشروع", none, "1 MB", "d", none, none, none, none⟩])
      .absent =
    .sections
      [⟨"ملخص", "Summary", 1, "files",
         [Card.of "unknown" ⟨2, "B", "S", "ملخص", none, "1 MB", "d", none, none, none, none⟩]⟩,
       ⟨"مشروع", "Projects", 2, "files",
         [Card.of "unknown" ⟨1, "A", "S", "مشروع", none, "1 MB", "d", none, none, none, none⟩,
          Card.of "unknown" ⟨4, "D", "S", "مشروع", none, "1 MB", "d", none, none, none,
            none⟩]⟩] := by
  decide

/-! ## The uploader name shown -/

/-- The name a card shows is the one of `shownUploaderName`. -/
theorem card_uploaderName (unknown : String) (file : FileRecord) :
    (Card.of unknown file).uploaderName = shownUploaderName file unknown := by
  have hor : ∀ a b : String, orElse a b = if a ≠ "" then a else b := by
    intro a b
    unfold orElse
    by_cases h : a = ""
    · subst h; rfl
    · have : a.isEmpty = false := by
        cases hb : a.isEmpty with
        | false => rfl
        | true => exact absurd ((String.isEmpty_iff a).mp hb) h
      simp [this, h]
  unfold Card.of shownUploaderName firstNonEmpty
  simp only [hor]
  cases file.uploadedByName <;> cases file.uploadedBy <;> simp

/-- Claim C17, as stated, fails: for a record uploaded by `a@x.com` with the
stored display name `Bob`, and a user `Alice` with that email, the card and the
details view show `Bob`, not `Alice`; and for a record with no stored name and no
matching user they show the email, not the `unknown` label. -/
theorem uploaderName_is_not_user_name :
    fetchFiles ⟨fun _ => none, fun _ => none⟩ ⟨"en", "light"⟩ true
      (.value [⟨1, "A", "S", "ملخص", none, "1 MB", "d", none, some "a@x.com", some "Bob",
        none⟩])
      (.value [⟨"u1", "Alice", "a@x.com", "pw1", "user", none, "2026"⟩]) =
      .sections [⟨"ملخص", "Summary", 1, "files",
        [Card.of "unknown" ⟨1, "A", "S", "ملخص", none, "1 MB", "d", none, some "a@x.com",
          some "Bob", none⟩]⟩] ∧
    showFileDetails ⟨fun _ => none, fun _ => none⟩ ⟨"en", "light"⟩
      (.value [⟨1, "A", "S", "ملخص", none, "1 MB", "d", none, some "a@x.com", some "Bob",
        none⟩])
      (.value [⟨"u1", "Alice", "a@x.com", "pw1", "user", none, "2026"⟩]) [] 1 =
      .shown (Card.of "مجهول" ⟨1, "A", "S", "ملخص", none, "1 MB", "d", none, some "a@x.com",
        some "Bob", none⟩) ∧
    (Card.of "unknown" ⟨1, "A", "S", "ملخص", none, "1 MB", "d", none, some "a@x.com",
      some "Bob", none⟩).uploaderName = "Bob" ∧
    (Card.of "مجهول" ⟨1, "A", "S", "ملخص", none, "1 MB", "d", none, some "a@x.com",
      some "Bob", none⟩).uploaderName = "Bob" ∧
    claimedUploaderName [⟨"u1", "Alice", "a@x.com", "pw1", "user", none, "2026"⟩]
      ⟨1, "A", "S", "ملخص", none, "1 MB", "d", none, some "a@x.com", some "Bob", none⟩
      "unknown" = "Alice" ∧
    (Card.of "unknown"
      ⟨2, "B", "S", "ملخص", none, "1 MB", "d", none, some "c@x.com", none,
        none⟩).uploaderName = "c@x.com" ∧
    claimedUploaderName [⟨"u1", "Alice", "a@x.com", "pw1", "user", none, "2026"⟩]
      ⟨2, "B", "S", "ملخص", none, "1 MB", "d", none, some "c@x.com", none, none⟩
      "unknown" = "unknown" := by
  refine ⟨?_, ?_, ?_, ?_, ?_, ?_, ?_⟩ <;> decide

/-- Claim C17, amended: the uploader name shown for a record is the display name
stored on the record (`uploadedByName`) when it has one; otherwise the uploader's
email stored on the record (`uploadedBy`) when it has one; otherwise the `unknown`
label, which is `appManager.t('unknown')` on a catalog card and a fixed text in
the details view.  The user collection has no part in it. -/
theorem uploaderName_shown :
    (∀ (dictionary : Dictionary) (app : AppManager) (files : Stored (List FileRecord))
        (users : Stored (List User)) (list : List Section),
      fetchFiles dictionary app true files users = .sections list →
        ∀ s ∈ list, ∀ c ∈ s.cards, ∃ unknown,
          AppManager.t dictionary app "unknown" = .text unknown ∧
          c.uploaderName = shownUploaderName c.file unknown) ∧
    (∀ (dictionary : Dictionary) (app : AppManager) (files : Stored (List FileRecord))
        (users : Stored (List User)) (container : List Toast) (fileId : Nat) (c : Card),
      showFileDetails dictionary app files users container fileId = .shown c →
        c.uploaderName = shownUploaderName c.file "مجهول") := by
  refine ⟨?_, ?_⟩
  · intro dictionary app files users list h s hs c hc
    unfold fetchFiles at h
    simp only [Bool.not_true, Bool.false_eq_true, if_false] at h
    split at h
    · cases h
    · split at h
      · cases h
      · split at h
        · split at h <;> cases h
        · split at h
          · cases h
          · split at h
            · cases h
              cases hs
            · split at h
              · rename_i filesLabel unknown hfl hun
                cases h
                refine ⟨unknown, hun, ?_⟩
                unfold fetchFiles.render at hs
                obtain ⟨e, _, rfl⟩ := List.mem_map.mp hs
                simp only at hc
                obtain ⟨f, _, rfl⟩ := List.mem_map.mp hc
                exact card_uploaderName unknown f
              · cases h
              · cases h
              · cases h
  · intro dictionary app files users container fileId c h
    unfold showFileDetails at h
    split at h
    · cases h
    · split at h
      · cases h
      · split at h
        · split at h <;> cases h
        · split at h
          · cases h
            exact card_uploaderName _ _
          · cases h
          · cases h

/-! ## `security.validatePassword` -/

/-- A one-character class is found in a text exactly when the text has a
character of the class. -/
theorem Regex.test_set_iff (p : Char → Bool) (s : List Char) :
    (Regex.set p).test s = true ↔ ∃ c ∈ s, p c = true := by
  rw [Regex.test_iff_occurs]
  constructor
  · rintro ⟨pre, m, post, rfl, c, hc, rfl⟩
    exact ⟨c, by simp, hc⟩
  · rintro ⟨c, hmem, hc⟩
    obtain ⟨pre, post, rfl⟩ := List.append_of_mem hmem
    exact ⟨pre, [c], post, by simp, c, hc, rfl⟩

/-- The class `[a-zA-Z]` is the ASCII letters and `\d` the ASCII digits. -/
theorem letter_digit_classes (c : Char) :
    ((('a' ≤ c && c ≤ 'z') || ('A' ≤ c && c ≤ 'Z')) = c.isAlpha) ∧
    (('0' ≤ c && c ≤ '9') = c.isDigit) := by
  constructor
  · simp only [Char.isAlpha, Char.isUpper, Char.isLower, Char.le_def, Bool.or_comm]
    rfl
  · simp only [Char.isDigit, Char.le_def]
    rfl

/-- The three tests of `security.validatePassword`. -/
theorem validatePassword_eq (p : List Char) :
    security.validatePassword p =
      { valid := decide (6 ≤ jsLength p) && p.any Char.isAlpha && p.any Char.isDigit,
        score := (if 6 ≤ jsLength p then 1 else 0) + (if p.any Char.isAlpha then 1 else 0) +
          (if p.any Char.isDigit then 1 else 0) } := by
  have hletter : (Regex.set (fun c => ('a' ≤ c && c ≤ 'z') || ('A' ≤ c && c ≤ 'Z'))).test p =
      p.any Char.isAlpha := by
    rw [Bool.eq_iff_iff, Regex.test_set_iff, List.any_eq_true]
    simp only [(letter_digit_classes _).1]
  have hdigit : (Regex.set (fun c => '0' ≤ c && c ≤ '9')).test p = p.any Char.isDigit := by
    rw [Bool.eq_iff_iff, Regex.test_set_iff, List.any_eq_true]
    simp only [(letter_digit_classes _).2]
  unfold security.validatePassword
  simp only [hletter, hdigit, ge_iff_le, decide_eq_true_eq]

/-- Claim C19: for every string `p`, `security.validatePassword(p).valid` is true
exactly when `p` has at least 6 characters (as `length` counts them, in UTF-16
code units), contains an ASCII letter and contains a digit; `.score` is the
number of these three conditions that hold, so it is at most 3, and `valid` holds
exactly when the score is 3.  `"abc"` is invalid with score 1 and `"abc123"` is valid
with score 3. -/
theorem validatePassword_spec :
    (∀ p : List Char,
      ((security.validatePassword p).valid = true ↔
        6 ≤ jsLength p ∧ (∃ c ∈ p, c.isAlpha = true) ∧ (∃ c ∈ p, c.isDigit = true)) ∧
      (security.validatePassword p).score =
        (if 6 ≤ jsLength p then 1 else 0) + (if ∃ c ∈ p, c.isAlpha = true then 1 else 0) +
          (if ∃ c ∈ p, c.isDigit = true then 1 else 0) ∧
      (security.validatePassword p).score ≤ 3 ∧
      ((security.validatePassword p).valid = true ↔ (security.validatePassword p).score = 3) ∧
      ((∀ c ∈ p, c.toNat < 0x10000) → jsLength p = p.length)) ∧
    security.validatePassword "abc".toList = { valid := false, score := 1 } ∧
    security.validatePassword "abc123".toList = { valid := true, score := 3 } := by
  refine ⟨?_, by decide, by decide⟩
  intro p
  rw [validatePassword_eq]
  simp only [Bool.and_eq_true, decide_eq_true_eq, List.any_eq_true]
  refine ⟨by tauto, ?_, ?_, ?_, ?_⟩
  · simp only [List.any_eq_true]
  · split <;> split <;> split <;> omega
  · by_cases h1 : 6 ≤ jsLength p <;> by_cases h2 : ∃ c ∈ p, c.isAlpha = true <;>
      by_cases h3 : ∃ c ∈ p, c.isDigit = true <;> simp [h1, h2, h3]
  · intro hbmp
    unfold jsLength
    induction p with
    | nil => rfl
    | cons c t ih =>
      have hc := hbmp c (List.mem_cons_self _ _)
      have := ih (fun d hd => hbmp d (List.mem_cons_of_mem _ hd))
      simp only [List.map_cons, List.sum_cons, hc, if_true, List.length_cons, this]
      omega

/-! ## `security.isValidFileType` -/

/-- A text with a separator splits into at least two parts, the last of which
is the text after the last separator. -/
theorem splitChar_append (sep : Char) (ext : List Char) (hext : sep ∉ ext) :
    ∀ pre : List Char, ∃ first parts,
      splitChar sep (pre ++ sep :: ext) = first :: (parts ++ [ext]) := by
  have hno : ∀ t : List Char, sep ∉ t → splitChar sep t = [t] := by
    intro t
    induction t with
    | nil => intro _; rfl
    | cons c r ih =>
      intro h
      have hc : ¬ c = sep := fun e => h (by simp [e])
      have hr : sep ∉ r := fun e => h (List.mem_cons_of_mem _ e)
      unfold splitChar
      rw [if_neg hc, ih hr]
  intro pre
  induction pre with
  | nil =>
    refine ⟨[], [], ?_⟩
    simp only [List.nil_append, splitChar, if_true]
    rw [hno ext hext]
  | cons c r ih =>
    obtain ⟨first, parts, h⟩ := ih
    by_cases hc : c = sep
    · refine ⟨[], first :: parts, ?_⟩
      simp only [List.cons_append]
      unfold splitChar
      rw [if_pos hc, h]
    · refine ⟨c :: first, parts, ?_⟩
      simp only [List.cons_append]
      unfold splitChar
      rw [if_neg hc, h]

/-- The last part of `name.split('.')`: the whole name when it has no dot, the
text after the last dot otherwise. -/
theorem splitChar_last (sep : Char) (s : List Char) :
    (sep ∉ s → (splitChar sep s).getLast? = some s) ∧
    (∀ pre ext, s = pre ++ sep :: ext → sep ∉ ext →
      (splitChar sep s).getLast? = some ext) := by
  constructor
  · intro h
    have hno : ∀ t : List Char, sep ∉ t → splitChar sep t = [t] := by
      intro t
      induction t with
      | nil => intro _; rfl
      | cons c r ih =>
        intro h
        have hc : ¬ c = sep := fun e => h (by simp [e])
        have hr : sep ∉ r := fun e => h (List.mem_cons_of_mem _ e)
        unfold splitChar
        rw [if_neg hc, ih hr]
    rw [hno s h]
    rfl
  · intro pre ext hs hext
    subst hs
    obtain ⟨first, parts, h⟩ := splitChar_append sep ext hext pre
    rw [h]
    have : first :: (parts ++ [ext]) = (first :: parts) ++ [ext] := rfl
    rw [this, List.getLast?_append]
    rfl

/-- The outcome of `security.isValidFileType` on a file: both the MIME type and
the lower-cased last part of the name must be in the lists. -/
theorem isValidFileType_iff (f : FileObject) :
    security.isValidFileType (some f) = true ↔
      f.type ∈ security.validFileTypes ∧
      ∃ last, (splitChar '.' f.name).getLast? = some last ∧
        toLowerCase last ∈ security.validFileExtensions := by
  have hsome : ∃ last, (splitChar '.' f.name).getLast? = some last := by
    by_cases hdot : '.' ∈ f.name
    · obtain ⟨pre, post, hs⟩ := List.append_of_mem hdot
      -- split at the last dot
      have hlast : ∀ (t p : List Char), ∃ pre ext,
          p ++ '.' :: t = pre ++ '.' :: ext ∧ '.' ∉ ext := by
        intro t
        induction t using List.reverseRecOn with
        | nil => intro p; exact ⟨p, [], rfl, by simp⟩
        | append_singleton t c ih =>
          intro p
          by_cases hc : c = '.'
          · subst hc
            exact ⟨p ++ '.' :: t, [], by simp, by simp⟩
          · obtain ⟨pre, ext, h, hext⟩ := ih p
            refine ⟨pre, ext ++ [c], ?_, ?_⟩
            · rw [← List.cons_append, ← List.append_assoc, h]
              simp
            · intro hmem
              rcases List.mem_append.mp hmem with h1 | h1
              · exact hext h1
              · simp at h1
                exact hc h1.symm
      obtain ⟨pre2, ext, h2, hext⟩ := hlast post pre
      exact ⟨ext, (splitChar_last '.' f.name).2 pre2 ext (by rw [hs, h2]) hext⟩
    · exact ⟨f.name, (splitChar_last '.' f.name).1 hdot⟩
  obtain ⟨last, hl⟩ := hsome
  unfold security.isValidFileType
  simp only [hl, Option.getD_some, Bool.and_eq_true, Option.some.injEq, exists_eq_left']
  simp

/-- Claim C20 fails on the code for a name without a dot: `"pdf".split('.')` is
the one part `pdf`, which `pop()` takes as the extension, so a file named `pdf`
with an allowed MIME type is accepted although it has no extension. -/
theorem isValidFileType_accepts_name_without_dot :
    '.' ∉ "pdf".toList ∧
    security.isValidFileType (some ⟨"pdf".toList, "application/pdf"⟩) = true ∧
    security.isValidFileType (some ⟨"TXT".toList, "text/plain"⟩) = true := by
  refine ⟨?_, ?_, ?_⟩ <;> decide

/-- The cases of claim C20 that hold: a missing file is rejected, a file passing
only one of the two checks is rejected, and a file with an allowed MIME type and
an allowed extension after its last dot, in any case, is accepted. -/
theorem isValidFileType_examples :
    security.isValidFileType none = false ∧
    security.isValidFileType (some ⟨"notes.pdf".toList, "image/png"⟩) = false ∧
    security.isValidFileType (some ⟨"notes.exe".toList, "application/pdf"⟩) = false ∧
    security.isValidFileType (some ⟨"notes.pdf.exe".toList, "application/pdf"⟩) = false ∧
    security.isValidFileType (some ⟨"notes.".toList, "application/pdf"⟩) = false ∧
    security.isValidFileType (some ⟨"my.notes.PDF".toList, "application/pdf"⟩) = true := by
  refine ⟨?_, ?_, ?_, ?_, ?_, ?_⟩ <;> decide

/-! ## `security.validateEmail` and `security.validateUsername` -/

namespace Regex

/-- An anchored pattern accepts exactly the texts of its language. -/
theorem testWhole_iff (r : Regex) (s : List Char) : r.testWhole s = true ↔ r.Matches s := by
  unfold testWhole
  rw [List.any_eq_true]
  constructor
  · rintro ⟨t, ht, hempty⟩
    have ht0 : t = [] := List.isEmpty_iff.mp hempty
    subst ht0
    obtain ⟨m, hm, hs⟩ := (mem_ends_iff r s []).mp ht
    rw [hs, List.append_nil]
    exact hm
  · intro h
    exact ⟨[], (mem_ends_iff r s []).mpr ⟨s, h, (List.append_nil s).symm⟩, rfl⟩

theorem matches_chr (c : Char) (m : List Char) : (chr c).Matches m ↔ m = [c] := by
  simp [chr, Matches]

theorem matches_atLeast_set (p : Char → Bool) :
    ∀ (n : Nat) (m : List Char),
      (atLeast n (.set p)).Matches m ↔ n ≤ m.length ∧ ∀ c ∈ m, p c = true := by
  intro n
  induction n with
  | zero =>
    intro m
    simp only [atLeast, matches_star_set, Nat.zero_le, true_and]
  | succ n ih =>
    intro m
    show (∃ u v, m = u ++ v ∧ (Regex.set p).Matches u ∧ (atLeast n (.set p)).Matches v) ↔ _
    constructor
    · rintro ⟨u, v, rfl, ⟨c, hc, rfl⟩, hv⟩
      obtain ⟨hlen, hall⟩ := (ih v).mp hv
      refine ⟨by simp; omega, ?_⟩
      intro d hd
      rcases List.mem_append.mp hd with h | h
      · simp at h; subst h; exact hc
      · exact hall d h
    · rintro ⟨hlen, hall⟩
      cases m with
      | nil => simp at hlen
      | cons c t =>
        refine ⟨[c], t, rfl, ⟨c, hall c (List.mem_cons_self _ _), rfl⟩, (ih t).mpr ⟨?_, ?_⟩⟩
        · simp only [List.length_cons] at hlen; omega
        · exact fun d hd => hall d (List.mem_cons_of_mem _ hd)

end Regex

/-- The language of `emailRegex`: three non-empty parts without white space and
without `@`, joined by `@` and `.`. -/
theorem matches_emailRegex (e : List Char) :
    security.validateEmail.emailRegex.Matches e ↔
      ∃ l d t : List Char, e = l ++ '@' :: (d ++ '.' :: t) ∧
        (l ≠ [] ∧ ∀ c ∈ l, (!(isWhiteSpace c || c == '@')) = true) ∧
        (d ≠ [] ∧ ∀ c ∈ d, (!(isWhiteSpace c || c == '@')) = true) ∧
        (t ≠ [] ∧ ∀ c ∈ t, (!(isWhiteSpace c || c == '@')) = true) := by
  have hp : ∀ m, (Regex.plus security.validateEmail.part).Matches m ↔
      (m ≠ [] ∧ ∀ c ∈ m, (!(isWhiteSpace c || c == '@')) = true) := fun m =>
    Regex.matches_plus_set _ m
  show (∃ u v, e = u ++ v ∧ (Regex.plus security.validateEmail.part).Matches u ∧
    ∃ u1 v1, v = u1 ++ v1 ∧ (Regex.chr '@').Matches u1 ∧
    ∃ u2 v2, v1 = u2 ++ v2 ∧ (Regex.plus security.validateEmail.part).Matches u2 ∧
    ∃ u3 v3, v2 = u3 ++ v3 ∧ (Regex.chr '.').Matches u3 ∧
      (Regex.plus security.validateEmail.part).Matches v3) ↔ _
  simp only [hp, Regex.matches_chr]
  constructor
  · rintro ⟨l, _, rfl, hl, _, _, rfl, rfl, d, _, rfl, hd, _, t, rfl, rfl, ht⟩
    exact ⟨l, d, t, by simp, hl, hd, ht⟩
  · rintro ⟨l, d, t, rfl, hl, hd, ht⟩
    exact ⟨l, _, rfl, hl, ['@'], _, rfl, rfl, d, _, rfl, hd, ['.'], t, rfl, rfl, ht⟩

theorem not_space_at_iff (m : List Char) :
    (∀ c ∈ m, (!(isWhiteSpace c || c == '@')) = true) ↔
      ((∀ c ∈ m, isWhiteSpace c = false) ∧ '@' ∉ m) := by
  constructor
  · intro h
    refine ⟨fun c hc => ?_, fun hmem => ?_⟩
    · have := h c hc
      simp only [Bool.not_eq_true', Bool.or_eq_false_iff] at this
      exact this.1
    · have := h '@' hmem
      simp at this
  · rintro ⟨hw, hat⟩ c hc
    have hne : c ≠ '@' := fun h => hat (h ▸ hc)
    simp [hw c hc, hne]

/-- Claim C22: for every string `e`, `security.validateEmail(e)` is true exactly when
`e` contains no white space and is `local`, `@`, `domain`, `.`, `tld` with the three
parts non-empty and free of `@`; hence every accepted address contains exactly one
`@` and, after it, a `.` with at least one character on each side.  The address
`a@b.c` is accepted. -/
theorem validateEmail_iff :
    (∀ e : List Char, security.validateEmail e = true ↔
      ((∀ c ∈ e, isWhiteSpace c = false) ∧
        ∃ l d t : List Char, e = l ++ '@' :: (d ++ '.' :: t) ∧
          l ≠ [] ∧ d ≠ [] ∧ t ≠ [] ∧ '@' ∉ l ∧ '@' ∉ d ∧ '@' ∉ t)) ∧
    (∀ e : List Char, security.validateEmail e = true →
      e.count '@' = 1 ∧
      ∃ a b c : List Char, e = a ++ '@' :: (b ++ '.' :: c) ∧ '@' ∉ b ∧ '@' ∉ c ∧
        b ≠ [] ∧ c ≠ []) ∧
    security.validateEmail "a@b.c".toList = true := by
  have hiff : ∀ e : List Char, security.validateEmail e = true ↔
      ((∀ c ∈ e, isWhiteSpace c = false) ∧
        ∃ l d t : List Char, e = l ++ '@' :: (d ++ '.' :: t) ∧
          l ≠ [] ∧ d ≠ [] ∧ t ≠ [] ∧ '@' ∉ l ∧ '@' ∉ d ∧ '@' ∉ t) := by
    intro e
    unfold security.validateEmail
    rw [Regex.testWhole_iff, matches_emailRegex]
    simp only [not_space_at_iff]
    constructor
    · rintro ⟨l, d, t, rfl, ⟨hl, hlw, hla⟩, ⟨hd, hdw, hda⟩, ⟨ht, htw, hta⟩⟩
      refine ⟨?_, l, d, t, rfl, hl, hd, ht, hla, hda, hta⟩
      intro c hc
      simp only [List.mem_append, List.mem_cons] at hc
      rcases hc with h | h | h | h | h
      · exact hlw c h
      · subst h; decide
      · exact hdw c h
      · subst h; decide
      · exact htw c h
    · rintro ⟨hw, l, d, t, rfl, hl, hd, ht, hla, hda, hta⟩
      refine ⟨l, d, t, rfl, ⟨hl, ?_, hla⟩, ⟨hd, ?_, hda⟩, ⟨ht, ?_, hta⟩⟩
      · exact fun c hc => hw c (by simp [hc])
      · exact fun c hc => hw c (by simp [hc])
      · exact fun c hc => hw c (by simp [hc])
  refine ⟨hiff, ?_, by decide⟩
  intro e he
  obtain ⟨_, l, d, t, rfl, _, hd, ht, hla, hda, hta⟩ := (hiff e).mp he
  refine ⟨?_, l, d, t, rfl, hda, hta, hd, ht⟩
  simp [List.count_append, List.count_cons, List.count_eq_zero_of_not_mem hla,
    List.count_eq_zero_of_not_mem hda, List.count_eq_zero_of_not_mem hta]

theorem isNameChar_eq (c : Char) : security.validateUsername.nameClass c = isNameChar c := by
  unfold security.validateUsername.nameClass isNameChar isClaimedNameChar
  by_cases hsp : c = ' '
  · subst hsp; decide
  · have : (c == ' ') = false := by simpa using hsp
    rw [this]
    cases ('a' ≤ c && c ≤ 'z') <;> cases ('A' ≤ c && c ≤ 'Z') <;>
      cases (Char.ofNat 0x0600 ≤ c && c ≤ Char.ofNat 0x06FF) <;>
      cases isWhiteSpace c <;> cases (c == '-') <;> cases (c == Char.ofNat 39) <;> rfl

theorem validateUsername_accepts_iff (n : List Char) :
    security.validateUsername n = true ↔ (2 ≤ n.length ∧ ∀ c ∈ n, isNameChar c = true) := by
  unfold security.validateUsername security.validateUsername.nameRegex
  rw [Regex.testWhole_iff, Regex.matches_atLeast_set]
  simp only [isNameChar_eq]

theorem isNameChar_bmp (c : Char) (h : isNameChar c = true) : c.toNat < 0x10000 := by
  unfold isNameChar isClaimedNameChar isWhiteSpace at h
  have hz : ('z' : Char).toNat = 122 := rfl
  have hZ : ('Z' : Char).toNat = 90 := rfl
  have hA : (Char.ofNat 0x06FF).toNat = 0x06FF := rfl
  have hs : (' ' : Char).toNat = 32 := rfl
  have hh : ('-' : Char).toNat = 45 := rfl
  have hq : (Char.ofNat 39).toNat = 39 := rfl
  have hle : ∀ a b : Char, a ≤ b → a.toNat ≤ b.toNat := fun a b hab => hab
  simp only [Bool.or_eq_true, Bool.and_eq_true, decide_eq_true_eq, beq_iff_eq] at h
  rcases h with (((((⟨_, h⟩ | ⟨_, h⟩) | ⟨_, h⟩) | h) | h) | h) | h
  · have := hle _ _ h; omega
  · have := hle _ _ h; omega
  · have := hle _ _ h; omega
  · rw [h]; omega
  · rw [h]; omega
  · rw [h]; omega
  · omega

theorem isNameChar_digit : ∀ c ∈ "0123456789".toList, isNameChar c = false := by decide

/-- Claim C21, as stated, fails: the names `a<TAB>b` and `a<LF>b` are accepted,
although a tab (character 9) and a line feed (character 10) are none of a letter, a
space, a hyphen or an apostrophe. -/
theorem validateUsername_accepts_tab_and_newline :
    security.validateUsername ['a', Char.ofNat 9, 'b'] = true ∧
    isClaimedNameChar (Char.ofNat 9) = false ∧
    security.validateUsername ['a', Char.ofNat 10, 'b'] = true ∧
    isClaimedNameChar (Char.ofNat 10) = false ∧
    ¬ (security.validateUsername ['a', Char.ofNat 9, 'b'] = true ↔
      (2 ≤ ['a', Char.ofNat 9, 'b'].length ∧
        ∀ c ∈ ['a', Char.ofNat 9, 'b'], isClaimedNameChar c = true)) := by
  decide

/-- Claim C21, amended: for every string `n`, `security.validateUsername(n)` is true
exactly when `n` has at least 2 characters and every character of `n` is a Latin
letter, a character of U+0600-U+06FF, a white-space character of the class `\s` (a
space, but also a tab, a line feed and the other characters of `isWhiteSpace`), a
hyphen or an apostrophe.  Every string with a digit is rejected, and every accepted
string consists of characters up to U+FFFF, so that its characters are counted
as `String.length` counts them. -/
theorem validateUsername_iff :
    (∀ n : List Char, security.validateUsername n = true ↔
      (2 ≤ n.length ∧
        ∀ c ∈ n, (isClaimedNameChar c = true ∨ isWhiteSpace c = true))) ∧
    (∀ (n : List Char) (c : Char), c ∈ n → c ∈ "0123456789".toList →
      security.validateUsername n = false) ∧
    (∀ n : List Char, security.validateUsername n = true → jsLength n = n.length) := by
  have hiff : ∀ n : List Char, security.validateUsername n = true ↔
      (2 ≤ n.length ∧ ∀ c ∈ n, (isClaimedNameChar c = true ∨ isWhiteSpace c = true)) := by
    intro n
    rw [validateUsername_accepts_iff]
    simp only [isNameChar, Bool.or_eq_true]
  refine ⟨hiff, ?_, ?_⟩
  · intro n c hc hd
    cases hv : security.validateUsername n with
    | false => rfl
    | true =>
      have h1 := ((validateUsername_accepts_iff n).mp hv).2 c hc
      rw [isNameChar_digit c hd] at h1
      exact absurd h1 (by decide)
  · intro n hv
    have hall := ((validateUsername_accepts_iff n).mp hv).2
    clear hv
    unfold jsLength
    induction n with
    | nil => rfl
    | cons c t ih =>
      have hc := isNameChar_bmp c (hall c (List.mem_cons_self _ _))
      have := ih (fun d hd => hall d (List.mem_cons_of_mem _ hd))
      simp only [List.map_cons, List.sum_cons, hc, if_true, List.length_cons, this]
      omega

/-! ## The characters of a sanitised text -/

/-- The characters of an entity, other than its leading ampersand, are none of the
six escaped characters; a character that is not escaped is kept. -/
theorem htmlEntity_shape (c : Char) :
    (isHtmlSpecial c = false ∧ htmlEntity c = [c]) ∨
    (∃ e, htmlEntity c = '&' :: e ∧ htmlEntity c ∈ htmlEntities ∧
      ∀ x ∈ e, isHtmlSpecial x = false) := by
  unfold isHtmlSpecial htmlEntity
  by_cases h1 : c = '&'
  · subst h1; right; exact ⟨_, rfl, by decide, by decide⟩
  by_cases h2 : c = '<'
  · subst h2; right; exact ⟨_, rfl, by decide, by decide⟩
  by_cases h3 : c = '>'
  · subst h3; right; exact ⟨_, rfl, by decide, by decide⟩
  by_cases h4 : c = Char.ofNat 34
  · subst h4; right; exact ⟨_, rfl, by decide, by decide⟩
  by_cases h5 : c = Char.ofNat 39
  · subst h5; right; exact ⟨_, rfl, by decide, by decide⟩
  by_cases h6 : c = '/'
  · subst h6; right; exact ⟨_, rfl, by decide, by decide⟩
  left
  simp [h1, h2, h3, h4, h5, h6]

/-- An escaped text has no escaped character but the ampersand. -/
theorem escape_chars (s : List Char) :
    ∀ x ∈ escapeLeftToRight s, x = '&' ∨ isHtmlSpecial x = false := by
  induction s with
  | nil => simp [escapeLeftToRight]
  | cons c t ih =>
    intro x hx
    simp only [escapeLeftToRight, List.mem_append] at hx
    rcases hx with hx | hx
    · rcases htmlEntity_shape c with ⟨h0, h⟩ | ⟨e, h, _, he⟩
      · rw [h] at hx
        simp only [List.mem_singleton] at hx
        subst hx
        exact Or.inr h0
      · rw [h] at hx
        rcases List.mem_cons.mp hx with hx | hx
        · exact Or.inl hx
        · exact Or.inr (he x hx)
    · exact ih x hx

/-- In an escaped text every ampersand begins an entity. -/
theorem escape_ampersands (s : List Char) : AmpersandsStartEntities (escapeLeftToRight s) := by
  induction s with
  | nil =>
    intro pre post h
    simp [escapeLeftToRight] at h
  | cons c t ih =>
    intro pre post h
    simp only [escapeLeftToRight] at h
    rcases htmlEntity_shape c with ⟨h0, hc⟩ | ⟨e, hc, hmem, he⟩
    · rw [hc] at h
      cases pre with
      | nil =>
        simp only [List.singleton_append, List.nil_append, List.cons.injEq] at h
        rw [h.1] at h0
        exact absurd h0 (by decide)
      | cons p pre1 =>
        simp only [List.singleton_append, List.cons_append, List.cons.injEq] at h
        exact ih pre1 post h.2
    · rcases List.append_eq_append_iff.mp h with ⟨a, ha, hb⟩ | ⟨b, ha, hb⟩
      · exact ih a post hb
      · cases pre with
        | nil =>
          simp only [List.nil_append] at ha
          subst ha
          exact ⟨htmlEntity c, hmem, escapeLeftToRight t, hb⟩
        | cons p pre1 =>
          cases b with
          | nil =>
            simp only [List.nil_append] at hb
            exact ih [] post hb.symm
          | cons q b1 =>
            exfalso
            simp only [List.cons_append, List.cons.injEq] at hb
            rw [hc] at ha
            simp only [List.cons_append, List.cons.injEq] at ha
            have hq : q ∈ e := by rw [ha.2]; simp
            have := he q hq
            rw [← hb.1] at this
            exact absurd this (by decide)

theorem isHtmlSpecial_false_iff (x : Char) :
    isHtmlSpecial x = false ↔ (x ≠ '&' ∧ x ≠ '<' ∧ x ≠ '>' ∧ x ≠ Char.ofNat 34 ∧
      x ≠ Char.ofNat 39 ∧ x ≠ '/') := by
  simp [isHtmlSpecial, and_assoc]

/-- The result of `security.sanitizeHTML` is an escaped text. -/
theorem sanitizeHTML_is_escaped (v : JsValue) :
    ∃ s, security.sanitizeHTML v = escapeLeftToRight s := by
  cases v with
  | undefined => exact ⟨[], rfl⟩
  | null => exact ⟨[], rfl⟩
  | bool b => cases b <;> first | exact ⟨[], rfl⟩ | exact ⟨"true".toList, by decide⟩
  | str s => exact ⟨s, sanitizeHTML_str s⟩

/-- The result of `security.sanitizeInput` is an escaped text. -/
theorem sanitizeInput_is_escaped (v : JsValue) :
    ∃ s, security.sanitizeInput v = escapeLeftToRight s := by
  unfold security.sanitizeInput
  split
  · exact ⟨[], rfl⟩
  · exact ⟨_, sanitizeHTML_str _⟩

theorem escape_clean (s : List Char) :
    (∀ x ∈ escapeLeftToRight s, x ≠ '<' ∧ x ≠ '>' ∧ x ≠ Char.ofNat 34 ∧
      x ≠ Char.ofNat 39 ∧ x ≠ '/') ∧
    AmpersandsStartEntities (escapeLeftToRight s) := by
  refine ⟨?_, escape_ampersands s⟩
  intro x hx
  rcases escape_chars s x hx with h | h
  · subst h; decide
  · exact ((isHtmlSpecial_false_iff x).mp h).2

/-- Claim C24: for every input `s`, the result of `security.sanitizeHTML(s)` contains
none of the characters `<`, `>`, the double quote (34), the apostrophe (39) and `/`,
and every `&` in it is the first character of one of the six entities `&amp;`,
`&lt;`, `&gt;`, `&quot;`, `&#039;`, `&#x2F;`; the same holds for every result of
`security.sanitizeInput`. -/
theorem sanitized_text_characters :
    (∀ v : JsValue,
      (∀ x ∈ security.sanitizeHTML v, x ≠ '<' ∧ x ≠ '>' ∧ x ≠ Char.ofNat 34 ∧
        x ≠ Char.ofNat 39 ∧ x ≠ '/') ∧
      AmpersandsStartEntities (security.sanitizeHTML v)) ∧
    (∀ v : JsValue,
      (∀ x ∈ security.sanitizeInput v, x ≠ '<' ∧ x ≠ '>' ∧ x ≠ Char.ofNat 34 ∧
        x ≠ Char.ofNat 39 ∧ x ≠ '/') ∧
      AmpersandsStartEntities (security.sanitizeInput v)) := by
  constructor
  · intro v
    obtain ⟨s, hs⟩ := sanitizeHTML_is_escaped v
    rw [hs]
    exact escape_clean s
  · intro v
    obtain ⟨s, hs⟩ := sanitizeInput_is_escaped v
    rw [hs]
    exact escape_clean s

/-! ## The initials of the uploader -/

/-- The greedy loop over a class reports, first, the input without its longest
run of characters of the class. -/
theorem Regex.iter_set_head (p : Char → Bool) :
    ∀ (fuel : Nat) (s : List Char), s.length ≤ fuel →
      ∃ rest, Regex.iter (fun t => (Regex.set p).ends t) true fuel s =
        s.dropWhile p :: rest := by
  intro fuel
  induction fuel with
  | zero =>
    intro s h
    have hs : s = [] := List.length_eq_zero.mp (Nat.le_zero.mp h)
    subst hs
    exact ⟨[], rfl⟩
  | succ n ih =>
    intro s h
    cases s with
    | nil => exact ⟨[], by simp [Regex.iter, Regex.ends]⟩
    | cons c t =>
      cases hp : p c with
      | true =>
        obtain ⟨rest, hr⟩ := ih t (by simpa using h)
        refine ⟨rest ++ [c :: t], ?_⟩
        simp [Regex.iter, Regex.ends, hp, hr, List.dropWhile]
      | false =>
        exact ⟨[], by simp [Regex.iter, Regex.ends, hp, List.dropWhile]⟩

/-- At a white-space character `/\s+/` matches the whole run of white space. -/
theorem whiteSpaces_ends_space (c : Char) (t : List Char) (h : isWhiteSpace c = true) :
    ∃ rest, whiteSpaces.ends (c :: t) = t.dropWhile isWhiteSpace :: rest := by
  obtain ⟨rest, hr⟩ := Regex.iter_set_head isWhiteSpace t.length t (Nat.le_refl _)
  refine ⟨rest, ?_⟩
  simp only [whiteSpaces, Regex.plus, Regex.ends, h, if_true, List.flatMap_cons,
    List.flatMap_nil, List.append_nil]
  exact hr

/-- At any other character `/\s+/` does not match. -/
theorem whiteSpaces_ends_other (c : Char) (t : List Char) (h : isWhiteSpace c = false) :
    whiteSpaces.ends (c :: t) = [] := by
  simp [whiteSpaces, Regex.plus, Regex.ends, h]

theorem length_dropWhile_le (p : Char → Bool) (t : List Char) :
    (t.dropWhile p).length ≤ t.length :=
  (List.dropWhile_suffix p).length_le

theorem splitScan_space (fuel : Nat) (seg : List Char) (c : Char) (t : List Char)
    (h : isWhiteSpace c = true) :
    whiteSpaces.splitScan (fuel + 1) seg (c :: t) =
      seg :: whiteSpaces.splitScan fuel [] (t.dropWhile isWhiteSpace) := by
  obtain ⟨rest, hr⟩ := whiteSpaces_ends_space c t h
  have hlen : (t.dropWhile isWhiteSpace).length < (c :: t).length := by
    have := length_dropWhile_le isWhiteSpace t
    simp only [List.length_cons]
    omega
  simp only [Regex.splitScan, hr, hlen, if_true]

theorem splitScan_other (fuel : Nat) (seg : List Char) (c : Char) (t : List Char)
    (h : isWhiteSpace c = false) :
    whiteSpaces.splitScan (fuel + 1) seg (c :: t) =
      whiteSpaces.splitScan fuel (seg ++ [c]) t := by
  simp only [Regex.splitScan, whiteSpaces_ends_other c t h]

theorem splitScan_head (fuel : Nat) :
    ∀ (seg s : List Char), ∃ x xs, whiteSpaces.splitScan fuel seg s = (seg ++ x) :: xs := by
  induction fuel with
  | zero => intro seg s; exact ⟨s, [], rfl⟩
  | succ n ih =>
    intro seg s
    cases s with
    | nil => exact ⟨[], [], by simp [Regex.splitScan]⟩
    | cons c t =>
      cases h : isWhiteSpace c with
      | true => exact ⟨[], _, by rw [splitScan_space n seg c t h, List.append_nil]⟩
      | false =>
        obtain ⟨x, xs, hx⟩ := ih (seg ++ [c]) t
        exact ⟨c :: x, xs, by rw [splitScan_other n seg c t h, hx]; simp⟩

theorem tokensFrom_head :
    ∀ (s seg : List Char), seg ≠ [] → ∃ y ys, tokensFrom seg s = (seg ++ y) :: ys := by
  intro s
  induction s with
  | nil =>
    intro seg hseg
    refine ⟨[], [], ?_⟩
    cases seg with
    | nil => exact absurd rfl hseg
    | cons a b => simp [tokensFrom]
  | cons c t ih =>
    intro seg hseg
    cases h : isWhiteSpace c with
    | true =>
      cases seg with
      | nil => exact absurd rfl hseg
      | cons a b => exact ⟨[], tokensFrom [] t, by simp [tokensFrom, h]⟩
    | false =>
      obtain ⟨y, ys, hy⟩ := ih (seg ++ [c]) (by simp)
      exact ⟨c :: y, ys, by simp only [tokensFrom, h, Bool.false_eq_true, if_false, hy]; simp⟩

theorem tokensFrom_dropWhile (t : List Char) :
    tokensFrom [] t = tokensFrom [] (t.dropWhile isWhiteSpace) := by
  induction t with
  | nil => rfl
  | cons c t ih =>
    cases h : isWhiteSpace c with
    | true => simp only [tokensFrom, h, if_true, List.isEmpty_nil, List.dropWhile_cons, ih]
    | false => simp only [List.dropWhile_cons, h, Bool.false_eq_true, if_false]

theorem dropWhile_head (t : List Char) :
    t.dropWhile isWhiteSpace = [] ∨
      ∃ d r, t.dropWhile isWhiteSpace = d :: r ∧ isWhiteSpace d = false := by
  induction t with
  | nil => exact Or.inl rfl
  | cons c t ih =>
    cases h : isWhiteSpace c with
    | true => simpa only [List.dropWhile_cons, h, if_true] using ih
    | false =>
      right
      exact ⟨c, t, by simp only [List.dropWhile_cons, h, Bool.false_eq_true, if_false], h⟩

/-- After a separator the next part and the next token begin alike. -/
theorem first_of_next (fuel : Nat) (s : List Char)
    (hs : s = [] ∨ ∃ d r, s = d :: r ∧ isWhiteSpace d = false) :
    joinUnits (((whiteSpaces.splitScan (fuel + 1) [] s).map firstUnit).take 1) =
      joinUnits (((tokensFrom [] s).map firstUnit).take 1) := by
  rcases hs with rfl | ⟨d, r, rfl, hd⟩
  · rfl
  · rw [splitScan_other fuel [] d r hd]
    obtain ⟨x, xs, hx⟩ := splitScan_head fuel ([] ++ [d]) r
    obtain ⟨y, ys, hy⟩ := tokensFrom_head r ([] ++ [d]) (by simp)
    have ht : tokensFrom [] (d :: r) = tokensFrom ([] ++ [d]) r := by
      simp only [tokensFrom, hd, Bool.false_eq_true, if_false]
    rw [ht, hx, hy]
    simp [firstUnit]

/-- From a part that is not empty, the first two parts and the first two tokens
begin alike. -/
theorem firsts_of_parts (fuel : Nat) :
    ∀ (seg s : List Char), s.length < fuel → seg ≠ [] →
      joinUnits (((whiteSpaces.splitScan fuel seg s).map firstUnit).take 2) =
        joinUnits (((tokensFrom seg s).map firstUnit).take 2) := by
  induction fuel with
  | zero => intro seg s h; omega
  | succ n ih =>
    intro seg s hlen hseg
    cases s with
    | nil =>
      cases seg with
      | nil => exact absurd rfl hseg
      | cons a b => simp [Regex.splitScan, tokensFrom]
    | cons c t =>
      simp only [List.length_cons] at hlen
      cases h : isWhiteSpace c with
      | true =>
        rw [splitScan_space n seg c t h]
        have ht : tokensFrom seg (c :: t) = seg :: tokensFrom [] (t.dropWhile isWhiteSpace) := by
          cases seg with
          | nil => exact absurd rfl hseg
          | cons a b =>
            simp only [tokensFrom, h, if_true, List.isEmpty_cons, Bool.false_eq_true, if_false]
            rw [← tokensFrom_dropWhile]
        rw [ht]
        have hd := length_dropWhile_le isWhiteSpace t
        cases n with
        | zero => omega
        | succ k =>
          have hA := first_of_next k (t.dropWhile isWhiteSpace) (dropWhile_head t)
          simp only [List.map_cons, List.take_succ_cons, joinUnits, List.flatMap_cons] at hA ⊢
          rw [hA]
      | false =>
        rw [splitScan_other n seg c t h]
        have ht : tokensFrom seg (c :: t) = tokensFrom (seg ++ [c]) t := by
          simp only [tokensFrom, h, Bool.false_eq_true, if_false]
        rw [ht]
        exact ih (seg ++ [c]) t (by omega) (by simp)

theorem joinUnits_map_take (k : Nat) (parts : List (List Char)) :
    joinUnits ((parts.map firstUnit).take k) = (parts.take k).filterMap firstUnit := by
  rw [← List.map_take]
  generalize parts.take k = l
  induction l with
  | nil => rfl
  | cons a l ih =>
    simp only [joinUnits, List.map_cons, List.flatMap_cons] at ih ⊢
    rw [ih]
    cases h : firstUnit a <;> simp [List.filterMap_cons, h]

/-- For a name that does not begin with white space, the initials are the first
letters of its first (up to) two tokens, one or two of them. -/
theorem initialUnits_without_leading_space (c : Char) (rest : List Char)
    (hc : isWhiteSpace c = false) :
    initialUnits (c :: rest) = claimedInitials (c :: rest) ∧
    1 ≤ (initialUnits (c :: rest)).length ∧ (initialUnits (c :: rest)).length ≤ 2 := by
  have hsplit : whiteSpaces.split (c :: rest) =
      whiteSpaces.splitScan (rest.length + 1) ([] ++ [c]) rest := by
    show whiteSpaces.splitScan ((c :: rest).length + 1) [] (c :: rest) = _
    rw [List.length_cons, splitScan_other _ [] c rest hc]
  have htok : tokens (c :: rest) = tokensFrom ([] ++ [c]) rest := by
    simp only [tokens, tokensFrom, hc, Bool.false_eq_true, if_false]
  have heq : initialUnits (c :: rest) = claimedInitials (c :: rest) := by
    unfold initialUnits claimedInitials
    rw [hsplit, htok, ← joinUnits_map_take]
    exact firsts_of_parts _ _ _ (Nat.lt_succ_self _) (by simp)
  refine ⟨heq, ?_, ?_⟩
  · rw [heq]
    unfold claimedInitials
    obtain ⟨y, ys, hy⟩ := tokensFrom_head rest ([] ++ [c]) (by simp)
    rw [htok, hy]
    simp [List.filterMap_cons, firstUnit]
  · rw [heq]
    unfold claimedInitials
    exact (List.length_filterMap_le _ _).trans (by simp)

/-- For a name that begins with white space, the initials are the first letter of
its first token only, and none when it has no token. -/
theorem initialUnits_with_leading_space (c : Char) (rest : List Char)
    (hc : isWhiteSpace c = true) :
    initialUnits (c :: rest) = ((tokens (c :: rest)).take 1).filterMap firstUnit := by
  have hsplit : whiteSpaces.split (c :: rest) =
      [] :: whiteSpaces.splitScan (rest.length + 1) [] (rest.dropWhile isWhiteSpace) := by
    show whiteSpaces.splitScan ((c :: rest).length + 1) [] (c :: rest) = _
    rw [List.length_cons, splitScan_space _ [] c rest hc]
  have htok : tokens (c :: rest) = tokensFrom [] (rest.dropWhile isWhiteSpace) := by
    simp only [tokens, tokensFrom, hc, if_true, List.isEmpty_nil]
    exact tokensFrom_dropWhile rest
  unfold initialUnits
  rw [hsplit, htok, ← joinUnits_map_take]
  have hA := first_of_next rest.length (rest.dropWhile isWhiteSpace) (dropWhile_head rest)
  simp only [List.map_cons, List.take_succ_cons, joinUnits, List.flatMap_cons] at hA ⊢
  rw [← hA]
  rfl

/-- Without a stored avatar the circle holds the placeholder `U` exactly when no
name is available, and otherwise the upper-cased initials of the name. -/
theorem uploaderAvatar_without_image (lower upper : List Char → List Char)
    (users : List User) (file : FileRecord) (h : storedAvatar lower users file = "") :
    uploaderAvatar lower upper users file =
      if claimedAvatarName lower users file = "" then .initials ['U']
      else .initials (upper (initialUnits (claimedAvatarName lower users file).toList)) := by
  unfold uploaderAvatar
  unfold storedAvatar at h
  unfold claimedAvatarName
  cases hu : uploaderAvatar.uploader lower users file with
  | none =>
    simp only [Option.bind_none, Option.map_none', Option.getD_none, ne_eq, not_true_eq_false,
      if_false]
    by_cases hn : file.uploadedByName.getD "" = "" <;> simp [hn]
  | some u =>
    rw [hu] at h
    simp only at h
    simp only [Option.bind_some, Option.map_some', Option.getD_some, h, ne_eq,
      not_true_eq_false, if_false]
    by_cases hn : u.name = ""
    · by_cases hf : file.uploadedByName.getD "" = "" <;> simp [hn, hf, h]
    · simp [hn, h]

/-- Claim C23 fails in the code for a name that begins with white space.  For a
record whose `uploadedByName` is ` Ahmed Ali` (no user matched, no stored avatar)
the circle holds the upper-cased `A`, one letter, where the first letters of the
first two tokens are `A` and `A`; the same holds when the matched user has that
name.  For the name of one space the circle holds the upper-cased empty string:
with upper-casing on ASCII text, no initials at all.  The name `ahmed ali omar`
shows `AA`, and ` Ahmed Ali` is a name `security.validateUsername` accepts. -/
theorem avatar_initials_leading_space :
    (∀ lower upper : List Char → List Char,
      uploaderAvatar lower upper []
        ⟨1, "A", "S", "ملخص", none, "1 MB", "d", none, some "a@x.com", some " Ahmed Ali",
          none⟩ = .initials (upper ['A'])) ∧
    claimedInitials " Ahmed Ali".toList = ['A', 'A'] ∧
    uploaderAvatar toLowerCase toUpperCaseAscii []
      ⟨1, "A", "S", "ملخص", none, "1 MB", "d", none, some "a@x.com", some " Ahmed Ali",
        none⟩ = .initials ['A'] ∧
    uploaderAvatar toLowerCase toUpperCaseAscii
      [⟨"u1", " Ahmed Ali", "a@x.com", "pw1", "user", none, "2026"⟩]
      ⟨1, "A", "S", "ملخص", none, "1 MB", "d", none, some "A@X.com", none, none⟩ =
      .initials ['A'] ∧
    (∀ lower upper : List Char → List Char,
      uploaderAvatar lower upper []
        ⟨1, "A", "S", "ملخص", none, "1 MB", "d", none, some "a@x.com", some " ", none⟩ =
        .initials (upper [])) ∧
    uploaderAvatar toLowerCase toUpperCaseAscii []
      ⟨1, "A", "S", "ملخص", none, "1 MB", "d", none, some "a@x.com", some " ", none⟩ =
      .initials [] ∧
    uploaderAvatar toLowerCase toUpperCaseAscii []
      ⟨1, "A", "S", "ملخص", none, "1 MB", "d", none, some "a@x.com", some "ahmed ali omar",
        none⟩ = .initials ['A', 'A'] ∧
    security.validateUsername " Ahmed Ali".toList = true := by
  refine ⟨fun _ _ => rfl, by decide, by decide, by decide, fun _ _ => rfl, by decide,
    by decide, by decide⟩

end Summarize
